import Mathlib

set_option maxHeartbeats 1000000
set_option maxRecDepth 16384

/-!
Verification of the codesearch trigram-index core: a shallow embedding of
the Go sources (package `index`: delta coding, path lists, index reader,
index writer, merger) together with theorems settling the frozen claims.

Go byte strings are embedded as `List Nat` of byte values; machine
integers as `Nat`/`Int` with explicit `% 2 ^ 64` where Go's `uint64`
arithmetic can wrap; `log.Fatal` / `panic` / `corrupt()` outcomes as
`Except`/`Option` failures.  Iterators (`PathReader` cursors over name
lists) are modelled by the lists of paths they yield.
-/

deriving instance DecidableEq for Except

/-- Go byte strings (`string` / `[]byte`): lists of byte values. -/
abbrev Bytes : Type := List Nat

/-- All entries of a byte string are genuine bytes (value < 256). -/
def BytesOk (bs : Bytes) : Prop := ∀ b ∈ bs, b < 256

/-- Byte value used by `Path.Compare`: the separator `/` (byte 47, which is
also `os.PathSeparator` on Unix) compares as byte value 0. -/
def sepVal (c : Nat) : Nat := if c = 47 then 0 else c

/-- `Path.Compare` (path.go): lexicographic comparison of byte strings with
separators mapped to 0, ties broken by length. -/
def pathCompare : Bytes → Bytes → Int
  | [], q => -(q.length : Int)
  | p, [] => (p.length : Int)
  | a :: p, b :: q =>
    if sepVal a ≠ sepVal b then (sepVal a : Int) - (sepVal b : Int)
    else pathCompare p q

/-- `Path.HasPathPrefix` (path.go): `parent` is a path-prefix of `p`:
`parent` is a string prefix and either they are equal or the next byte of
`p` is the separator. -/
def hasPathPrefixOf (p parent : Bytes) : Bool :=
  parent.isPrefixOf p &&
    (p == parent || (p.drop parent.length).headD 0 == 47)

/-! ## Claim C5: IndexWriter.addName (v2 name ordering)

`addName` (write.go) for `writeVersion = 2` rejects an empty name and then
compares the new name against `ix.nameLast`.  The struct field `nameLast`
is documented as "last name in list" but is never assigned anywhere in the
package, so it keeps its zero value (the empty path) forever. -/

/-- The `IndexWriter` state relevant to `addName`: the `nameLast` field and
the name list written so far. -/
structure AddNameState where
  nameLast : Bytes
  numName : Nat
  names : List Bytes
deriving DecidableEq

/-- Errors raised by `addName` via `log.Fatalf`. -/
inductive NameErr where
  | emptyName
  | notSorted
deriving DecidableEq

/-- `IndexWriter.addName` (write.go) with `writeVersion = 2`.  Note that the
source never assigns `ix.nameLast`, so the state's `nameLast` field is left
unchanged here, exactly as in the Go code. -/
def addName (st : AddNameState) (name : Bytes) : Except NameErr (Nat × AddNameState) :=
  if name = [] then .error .emptyName
  else if pathCompare name st.nameLast ≤ 0 then .error .notSorted
  else
    .ok (st.numName,
      { nameLast := st.nameLast, numName := st.numName + 1,
        names := st.names ++ [name] })

/-- Initial writer state (`Create`): Go zero values. -/
def addNameInit : AddNameState := { nameLast := [], numName := 0, names := [] }

/-- C5: the claim says adding a name that compares less than or equal to the
previous one fails with the names-not-sorted error; the code does not do
this.  Because `ix.nameLast` is never updated, adding the duplicate name
`/a` right after `/a` succeeds and returns file ID 1, and even the
out-of-order `/a` after `/b` succeeds; only the empty name fails. -/
theorem c5_addName_not_enforced :
    (do
      let (_, s1) ← addName addNameInit [47, 97]
      addName s1 [47, 97] : Except NameErr (Nat × AddNameState)) =
      .ok (1, { nameLast := [], numName := 2, names := [[47, 97], [47, 97]] }) ∧
    (do
      let (_, s1) ← addName addNameInit [47, 98]
      addName s1 [47, 97] : Except NameErr (Nat × AddNameState)) =
      .ok (1, { nameLast := [], numName := 2, names := [[47, 98], [47, 97]] }) ∧
    addName addNameInit [] = .error .emptyName := by
  refine ⟨by decide, by decide, by decide⟩

/-! ## Claim C8: merged root list (merge.go lines 127-151)

The root-list write loop of `Merge`, with the two root cursors modelled as
the lists of paths they yield (root paths are nonempty). -/

/-- The merged-root-list loop of `Merge`: a stable two-cursor merge under
`Path.Compare`, skipping any path `p` with `p.HasPathPrefix(last)` where
`last` is the previously written path (initially `"\xFF"`, not a prefix of
anything).  The loop runs once per cursor element; `fuel` is that count,
so the wrapper below passes `l1.length + l2.length`. -/
def mergeRootsGo : Nat → Bytes → List Bytes → List Bytes → List Bytes
  | 0, _, _, _ => []
  | _ + 1, _, [], [] => []
  | fuel + 1, last, p :: l1, [] =>
    if hasPathPrefixOf p last then mergeRootsGo fuel last l1 []
    else p :: mergeRootsGo fuel p l1 []
  | fuel + 1, last, [], p :: l2 =>
    if hasPathPrefixOf p last then mergeRootsGo fuel last [] l2
    else p :: mergeRootsGo fuel p [] l2
  | fuel + 1, last, p1 :: l1, p2 :: l2 =>
    if pathCompare p1 p2 ≤ 0 then
      if hasPathPrefixOf p1 last then mergeRootsGo fuel last l1 (p2 :: l2)
      else p1 :: mergeRootsGo fuel p1 l1 (p2 :: l2)
    else
      if hasPathPrefixOf p2 last then mergeRootsGo fuel last (p1 :: l1) l2
      else p2 :: mergeRootsGo fuel p2 (p1 :: l1) l2

/-- The root-list write of `Merge`: initial `last` is `"\xFF"`. -/
def mergeRoots (l1 l2 : List Bytes) : List Bytes :=
  mergeRootsGo (l1.length + l2.length) [0xFF] l1 l2

/-- Stable merge of two path lists under `Path.Compare`, preferring the
first list on ties (fuelled; the wrapper passes the combined length). -/
def stableMergeGo : Nat → List Bytes → List Bytes → List Bytes
  | 0, _, _ => []
  | _ + 1, [], l2 => l2
  | _ + 1, l1, [] => l1
  | fuel + 1, p1 :: l1, p2 :: l2 =>
    if pathCompare p1 p2 ≤ 0 then p1 :: stableMergeGo fuel l1 (p2 :: l2)
    else p2 :: stableMergeGo fuel (p1 :: l1) l2

/-- Stable merge of two path lists under `Path.Compare`. -/
def stableMergePaths (l1 l2 : List Bytes) : List Bytes :=
  stableMergeGo (l1.length + l2.length) l1 l2

/-- Drop every path of which the previously emitted path is a path-prefix
(the amended reading of the spec sentence). -/
def dropShadowed (last : Option Bytes) : List Bytes → List Bytes
  | [] => []
  | p :: l =>
    match last with
    | none => p :: dropShadowed (some p) l
    | some q =>
      if hasPathPrefixOf p q then dropShadowed (some q) l
      else p :: dropShadowed (some p) l

/-- Drop every path that is a path-prefix of the previously emitted path:
the claim and the spec sentence taken literally. -/
def dropShadowedClaim (last : Option Bytes) : List Bytes → List Bytes
  | [] => []
  | p :: l =>
    match last with
    | none => p :: dropShadowedClaim (some p) l
    | some q =>
      if hasPathPrefixOf q p then dropShadowedClaim (some q) l
      else p :: dropShadowedClaim (some p) l

/-- The claim's literal description of the merged root list. -/
def claimMergeRoots (l1 l2 : List Bytes) : List Bytes :=
  dropShadowedClaim none (stableMergePaths l1 l2)

/-- The amended description: stable merge, dropping any path that has the
previously emitted path as a path-prefix. -/
def specMergeRoots (l1 l2 : List Bytes) : List Bytes :=
  dropShadowed none (stableMergePaths l1 l2)

/-- C8 counterexample: for root lists `{"/b"}` and `{"/b/x"}` the code
writes only `/b` (it drops `/b/x` because the previously emitted `/b` is a
path-prefix of it), while the claim's literal rule (drop a path that is a
path-prefix of the previous one) would keep both. -/
theorem c8_roots_counterexample :
    mergeRoots [[47, 98]] [[47, 98, 47, 120]] = [[47, 98]] ∧
    claimMergeRoots [[47, 98]] [[47, 98, 47, 120]] =
      [[47, 98], [47, 98, 47, 120]] ∧
    mergeRoots [[47, 98]] [[47, 98, 47, 120]] ≠
      claimMergeRoots [[47, 98]] [[47, 98, 47, 120]] := by
  refine ⟨by decide, by decide, by decide⟩

theorem stableMergeGo_nil_right (fuel : Nat) (l1 : List Bytes)
    (h : l1.length ≤ fuel) : stableMergeGo fuel l1 [] = l1 := by
  cases fuel with
  | zero =>
    have h0 : l1 = [] := List.eq_nil_of_length_eq_zero (Nat.le_zero.mp h)
    subst h0; rfl
  | succ n => cases l1 <;> simp [stableMergeGo]

theorem stableMergeGo_nil_left (fuel : Nat) (l2 : List Bytes)
    (h : l2.length ≤ fuel) : stableMergeGo fuel [] l2 = l2 := by
  cases fuel with
  | zero =>
    have h0 : l2 = [] := List.eq_nil_of_length_eq_zero (Nat.le_zero.mp h)
    subst h0; rfl
  | succ n => cases l2 <;> simp [stableMergeGo]

theorem mergeRootsGo_eq_dropShadowed (fuel : Nat) :
    ∀ (last : Bytes) (l1 l2 : List Bytes), l1.length + l2.length ≤ fuel →
      mergeRootsGo fuel last l1 l2 = dropShadowed (some last) (stableMergeGo fuel l1 l2) := by
  induction fuel with
  | zero => intro last l1 l2 h; simp [mergeRootsGo, stableMergeGo, dropShadowed]
  | succ n ih =>
    intro last l1 l2 h
    match l1, l2 with
    | [], [] => simp [mergeRootsGo, stableMergeGo, dropShadowed]
    | p :: l1, [] =>
      have hl : l1.length ≤ n := by simp at h; omega
      have e1 : stableMergeGo (n + 1) (p :: l1) [] = p :: l1 := by
        simp [stableMergeGo]
      rw [e1, mergeRootsGo]
      rw [ih last l1 [] (by simpa using hl), ih p l1 [] (by simpa using hl),
        stableMergeGo_nil_right n l1 hl]
      cases hhp : hasPathPrefixOf p last <;> simp [dropShadowed, hhp]
    | [], p :: l2 =>
      have hl : l2.length ≤ n := by simp at h; omega
      have e1 : stableMergeGo (n + 1) [] (p :: l2) = p :: l2 := by
        simp [stableMergeGo]
      rw [e1, mergeRootsGo]
      rw [ih last [] l2 (by simpa using hl), ih p [] l2 (by simpa using hl),
        stableMergeGo_nil_left n l2 hl]
      cases hhp : hasPathPrefixOf p last <;> simp [dropShadowed, hhp]
    | p1 :: l1, p2 :: l2 =>
      rw [mergeRootsGo, stableMergeGo]
      have h1 : l1.length + (p2 :: l2).length ≤ n := by simp at h ⊢; omega
      have h2 : (p1 :: l1).length + l2.length ≤ n := by simp at h ⊢; omega
      by_cases hc : pathCompare p1 p2 ≤ 0
      · rw [if_pos hc, if_pos hc,
          ih last l1 (p2 :: l2) h1, ih p1 l1 (p2 :: l2) h1]
        cases hhp : hasPathPrefixOf p1 last <;> simp [dropShadowed, hhp]
      · rw [if_neg hc, if_neg hc,
          ih last (p1 :: l1) l2 h2, ih p2 (p1 :: l1) l2 h2]
        cases hhp : hasPathPrefixOf p2 last <;> simp [dropShadowed, hhp]

theorem mem_stableMergeGo (fuel : Nat) :
    ∀ (l1 l2 : List Bytes) (x : Bytes), x ∈ stableMergeGo fuel l1 l2 →
      x ∈ l1 ∨ x ∈ l2 := by
  induction fuel with
  | zero => intro l1 l2 x hx; simp [stableMergeGo] at hx
  | succ n ih =>
    intro l1 l2 x hx
    match l1, l2 with
    | [], l2 => right; simpa [stableMergeGo] using hx
    | p :: l1, [] => left; simpa [stableMergeGo] using hx
    | p1 :: l1, p2 :: l2 =>
      rw [stableMergeGo] at hx
      by_cases hc : pathCompare p1 p2 ≤ 0
      · simp only [hc, if_true, List.mem_cons] at hx
        rcases hx with rfl | hx
        · left; simp
        · rcases ih _ _ _ hx with h1 | h2
          · left; simp [h1]
          · right; exact h2
      · simp only [hc, if_false, List.mem_cons] at hx
        rcases hx with rfl | hx
        · right; simp
        · rcases ih _ _ _ hx with h1 | h2
          · left; exact h1
          · right; simp [h2]

theorem dropShadowed_top (l : List Bytes)
    (h : ∀ p ∈ l, hasPathPrefixOf p [0xFF] = false) :
    dropShadowed (some [0xFF]) l = dropShadowed none l := by
  cases l with
  | nil => rfl
  | cons p l =>
    have hp := h p (by simp)
    simp [dropShadowed, hp]

/-- C8 (amended): the root list written by `Merge` is the stable merge of
the two source root lists in ascending `Path` order, dropping any path
that has the previously emitted path as a path-prefix (for real root lists,
whose paths do not start with the byte `0xFF`). -/
theorem c8_merged_root_list (l1 l2 : List Bytes)
    (h : ∀ p ∈ l1 ++ l2, hasPathPrefixOf p [0xFF] = false) :
    mergeRoots l1 l2 = specMergeRoots l1 l2 := by
  rw [mergeRoots, specMergeRoots, stableMergePaths,
    mergeRootsGo_eq_dropShadowed (l1.length + l2.length) [0xFF] l1 l2 le_rfl]
  apply dropShadowed_top
  intro p hp
  rcases mem_stableMergeGo _ _ _ _ hp with h1 | h2
  · exact h p (by simp [h1])
  · exact h p (by simp [h2])

/-- C8 witness: the amended theorem applied to the concrete root lists of
the merge scenario, `{/a, /b, /c}` and `{/b, /cc}`. -/
theorem c8_merged_root_list_witness :
    mergeRoots [[47, 97], [47, 98], [47, 99]] [[47, 98], [47, 99, 99]] =
      specMergeRoots [[47, 97], [47, 98], [47, 99]] [[47, 98], [47, 99, 99]] :=
  c8_merged_root_list [[47, 97], [47, 98], [47, 99]] [[47, 98], [47, 99, 99]]
    (by decide)

/-! ## Index reader model (read.go)

The open index is modelled as the mmapped byte string plus the trailer
fields, exactly the fields of the Go `Index` struct.  `corrupt()` (and the
runtime abort of an out-of-range Go slice) become `Except.error`. -/

/-- Outcome of `Index.corrupt()` (log-and-abort, or panic in tests). -/
inductive Corrupt where
  | corrupt
deriving DecidableEq

/-- Constant `postBlockSize` (read.go): posting index entries are packed
into 256-byte blocks. -/
def postBlockSize : Nat := 256

/-- Constant `nameGroupSize` (read.go): names are prefix-compressed in
groups of 16. -/
def nameGroupSize : Nat := 16

/-- The reader's view of an open index: the mapped data and the trailer
fields of the Go `Index` struct. -/
structure IndexFile where
  data : Bytes
  version : Nat
  pathData : Nat
  numPath : Int
  nameData : Nat
  postData : Nat
  nameIndex : Nat
  postIndex : Nat
  numName : Nat
  numPost : Nat
  numPostBlock : Nat
deriving DecidableEq

/-- `Index.slice`: the slice of index data starting at the given byte
offset; with `n ≥ 0` the slice must have length at least `n` and is
truncated to length `n`. -/
def ixSlice (ix : IndexFile) (off : Nat) (n : Int) : Except Corrupt Bytes :=
  if n < 0 then
    if off ≤ ix.data.length then .ok (ix.data.drop off) else .error .corrupt
  else if (ix.data.length : Int) < (off : Int) + n then .error .corrupt
  else .ok ((ix.data.drop off).take n.toNat)

/-- Big-endian value of a byte string (each entry taken mod 256, as Go
reads bytes). -/
def beVal (bs : Bytes) : Nat := bs.foldl (fun acc b => acc * 256 + b % 256) 0

/-- `Index.uint32`: the big-endian uint32 at the given offset. -/
def ixUint32 (ix : IndexFile) (off : Nat) : Except Corrupt Nat :=
  (ixSlice ix off 4).map beVal

/-- `Index.uint64`: the big-endian uint64 at the given offset; values that
do not fit a non-negative int are corruption. -/
def ixUint64 (ix : IndexFile) (off : Nat) : Except Corrupt Nat := do
  let v := beVal (← ixSlice ix off 8)
  if v < 2 ^ 63 then .ok v else .error .corrupt

/-- `binary.Uvarint` accumulator loop: `x` is the value so far, `s` the
shift, `i` the number of bytes consumed.  Returns the decoded value and
the number of bytes read (0 on truncation, negative on overflow). -/
def uvarintGo : Bytes → Nat → Nat → Nat → Nat × Int
  | [], _, _, _ => (0, 0)
  | b :: rest, x, s, i =>
    if i = 10 then (0, -(i + 1 : Int))
    else if b % 256 < 0x80 then
      if i = 9 ∧ 1 < b % 256 then (0, -(i + 1 : Int))
      else ((x ||| ((b % 256) <<< s)) % 2 ^ 64, (i + 1 : Int))
    else uvarintGo rest ((x ||| ((b % 256 &&& 0x7f) <<< s)) % 2 ^ 64) (s + 7) (i + 1)

/-- `binary.Uvarint`. -/
def uvarint (bs : Bytes) : Nat × Int := uvarintGo bs 0 0 0

/-- A `PathReader` cursor (path.go): version, remaining encoded data, the
current path, and the remaining entry limit (negative = unlimited). -/
structure PathReader where
  version : Nat
  data : Bytes
  path : Bytes
  limit : Int
deriving DecidableEq

/-- `PathReader.Next`: advance to the next path; on failure or exhausted
limit the current path becomes empty.  Returns the updated reader and the
reported Bool. -/
def prNext (r : PathReader) : PathReader × Bool :=
  if r.limit = 0 then ({ r with path := [] }, false)
  else
    let r := if 0 < r.limit then { r with limit := r.limit - 1 } else r
    if r.version = 1 then
      match r.data.findIdx? (· == 0) with
      | none => ({ r with path := [] }, false)
      | some i =>
        if i = 0 then ({ r with path := [] }, false)
        else ({ r with path := r.data.take i, data := r.data.drop (i + 1) }, true)
    else
      let pw := uvarint r.data
      if pw.2 ≤ 0 ∨ r.path.length < pw.1 then ({ r with path := [] }, false)
      else
        let data1 := r.data.drop pw.2.toNat
        let nw := uvarint data1
        if nw.2 ≤ 0 ∨ data1.length - nw.2.toNat < nw.1 then ({ r with path := [] }, false)
        else
          let data2 := data1.drop nw.2.toNat
          let newPath := r.path.take pw.1 ++ data2.take nw.1
          ({ r with path := newPath, data := data2.drop nw.1 }, true)

/-- `NewPathReader`: build a reader and advance it to its first path. -/
def newPathReader (version : Nat) (data : Bytes) (limit : Int) : PathReader :=
  (prNext { version := version, data := data, path := [], limit := limit }).1

/-- `PathReader.Valid`. -/
def prValid (r : PathReader) : Bool := r.path != []

/-- Iterated `Next` (used by `NamesAt` to skip within a name group). -/
def prNextN : Nat → PathReader → PathReader
  | 0, r => r
  | k + 1, r => prNextN k (prNext r).1

/-- `Index.NamesAt`: a `PathReader` positioned at the names for fileids in
`[min, max)`.  For `min ≥ numName` it returns an immediately-invalid
reader. -/
def namesAt (ix : IndexFile) (min max : Nat) : Except Corrupt PathReader :=
  if ix.numName ≤ min then .ok (newPathReader 1 [] 0)
  else if ix.version = 1 then do
    let off ← ixUint32 ix (ix.nameIndex + min * 4)
    let bs ← ixSlice ix (ix.nameData + off)
      ((ix.postData : Int) - ((ix.nameData : Int) + (off : Int)))
    .ok (newPathReader 1 bs ((max : Int) - (min : Int)))
  else do
    let off ← ixUint64 ix (ix.nameIndex + min / nameGroupSize * 8)
    let bs ← ixSlice ix (ix.nameData + off)
      ((ix.postData : Int) - ((ix.nameData : Int) + (off : Int)))
    .ok (prNextN (min % nameGroupSize)
      (newPathReader ix.version bs
        (((max : Int) - (min : Int)) + (min % nameGroupSize : Nat))))

/-- `Index.Name`: the name corresponding to the given fileid. -/
def nameOf (ix : IndexFile) (fileid : Nat) : Except Corrupt Bytes :=
  (namesAt ix fileid (fileid + 1)).map (·.path)

/-- C10: for every open index and every fileid at or beyond the number of
names, `Name` returns the empty path and `NamesAt` yields an
immediately-invalid `PathReader`; no corruption is reported. -/
theorem c10_name_out_of_range (ix : IndexFile) (fileid : Nat)
    (h : ix.numName ≤ fileid) :
    nameOf ix fileid = .ok [] ∧
      (namesAt ix fileid (fileid + 1)).map prValid = .ok false := by
  have hn : namesAt ix fileid (fileid + 1) = .ok (newPathReader 1 [] 0) := by
    rw [namesAt, if_pos h]
  constructor
  · rw [nameOf, hn]; rfl
  · rw [hn]; rfl

/-- C10 witness: the theorem applied to a concrete (empty) index at
fileid 0. -/
theorem c10_name_out_of_range_witness :
    nameOf { data := [], version := 2, pathData := 0, numPath := 0,
             nameData := 0, postData := 0, nameIndex := 0, postIndex := 0,
             numName := 0, numPost := 0, numPostBlock := 0 } 0 = .ok [] :=
  (c10_name_out_of_range _ 0 (Nat.le_refl 0)).1

/-! ## Bit-level toolkit for the Elias-γ delta codec (delta.go)

The delta writer and reader stream bits least-significant-first through a
64-bit accumulator.  `natBits n k` is the list of the `k` low bits of `n`,
least significant first; a writer or reader state denotes the bit stream
of its flushed bytes plus its pending accumulator bits. -/

/-- The k low bits of n, least significant first. -/
def natBits : Nat → Nat → List Bool
  | _, 0 => []
  | n, k + 1 => (n % 2 == 1) :: natBits (n / 2) k

/-- Value of a bit list, least significant first. -/
def bitsVal : List Bool → Nat
  | [] => 0
  | b :: l => (if b then 1 else 0) + 2 * bitsVal l

/-- The 8 bits of a byte, least significant first. -/
def byteBits (n : Nat) : List Bool := natBits n 8

/-- Bit stream of a byte string, least significant bit of each byte
first. -/
def bytesBits (bs : Bytes) : List Bool := (bs.map byteBits).flatten

theorem natBits_length (n k : Nat) : (natBits n k).length = k := by
  induction k generalizing n with
  | zero => rfl
  | succ k ih => simp [natBits, ih]

theorem bytesBits_nil : bytesBits [] = [] := rfl

theorem bytesBits_cons (b : Nat) (bs : Bytes) :
    bytesBits (b :: bs) = byteBits b ++ bytesBits bs := by
  simp [bytesBits]

theorem bytesBits_append (xs ys : Bytes) :
    bytesBits (xs ++ ys) = bytesBits xs ++ bytesBits ys := by
  simp [bytesBits]

theorem bytesBits_length (bs : Bytes) : (bytesBits bs).length = 8 * bs.length := by
  induction bs with
  | nil => rfl
  | cons b bs ih =>
    rw [bytesBits_cons]
    simp [byteBits, natBits_length, ih]
    ring

theorem natBits_congr {n m : Nat} (k : Nat) (h : n % 2 ^ k = m % 2 ^ k) :
    natBits n k = natBits m k := by
  induction k generalizing n m with
  | zero => rfl
  | succ k ih =>
    have h2 : (2 : Nat) ∣ 2 ^ (k + 1) := dvd_pow_self 2 (Nat.succ_ne_zero k)
    have hhead : n % 2 = m % 2 := by
      rw [← Nat.mod_mod_of_dvd n h2, ← Nat.mod_mod_of_dvd m h2, h]
    have htail : n / 2 % 2 ^ k = m / 2 % 2 ^ k := by
      have e : ∀ x : Nat, x / 2 % 2 ^ k = x % 2 ^ (k + 1) / 2 := by
        intro x
        rw [pow_succ, Nat.mul_comm (2 ^ k) 2, Nat.mod_mul_right_div_self]
      rw [e n, e m, h]
    rw [natBits, natBits, hhead, ih htail]

theorem natBits_zero_val (k : Nat) : natBits 0 k = List.replicate k false := by
  induction k with
  | zero => rfl
  | succ k ih => simp [natBits, ih, List.replicate_succ]

theorem natBits_split (j k n : Nat) :
    natBits n (j + k) = natBits n j ++ natBits (n >>> j) k := by
  induction j generalizing n with
  | zero => simp [natBits]
  | succ j ih =>
    have e : j + 1 + k = (j + k) + 1 := by omega
    rw [e, natBits, natBits]
    rw [ih (n / 2)]
    have hsh : n >>> (j + 1) = (n / 2) >>> j := by
      rw [Nat.add_comm j 1, Nat.shiftRight_add, Nat.shiftRight_one]
    rw [hsh]
    simp

theorem bitsVal_natBits (n k : Nat) : bitsVal (natBits n k) = n % 2 ^ k := by
  induction k generalizing n with
  | zero => simp [natBits, bitsVal, Nat.mod_one]
  | succ k ih =>
    rw [natBits, bitsVal, ih]
    have h1 : n % 2 ^ (k + 1) = n % 2 + 2 * (n / 2 % 2 ^ k) := by
      rw [pow_succ, Nat.mul_comm (2 ^ k) 2, Nat.mod_mul]
    rcases Nat.mod_two_eq_zero_or_one n with h | h <;> simp [h, h1]

theorem lor_disjoint (a v k : Nat) (h : a < 2 ^ k) :
    a ||| v <<< k = a + v * 2 ^ k := by
  apply Nat.eq_of_testBit_eq
  intro i
  rw [Nat.testBit_lor, Nat.testBit_shiftLeft]
  rcases Nat.lt_or_ge i k with hik | hik
  · have hsh : (decide (k ≤ i) && v.testBit (i - k)) = false := by
      simp [Nat.not_le.mpr hik]
    rw [hsh, Bool.or_false]
    have hdvd : (2 : Nat) ^ k = 2 ^ (i + 1) * 2 ^ (k - i - 1) := by
      rw [← pow_add]; congr 1; omega
    rw [Nat.testBit_to_div_mod, Nat.testBit_to_div_mod]
    have e1 : (a + v * 2 ^ k) / 2 ^ i = a / 2 ^ i + v * 2 ^ (k - i) := by
      have e2 : v * 2 ^ k = v * 2 ^ (k - i) * 2 ^ i := by
        rw [Nat.mul_assoc, ← pow_add]; congr 2; omega
      rw [e2, Nat.add_mul_div_right _ _ (Nat.two_pow_pos i)]
    rw [e1]
    have e3 : v * 2 ^ (k - i) = v * 2 ^ (k - i - 1) * 2 := by
      rw [Nat.mul_assoc, ← pow_succ]; congr 2; omega
    rw [e3, Nat.add_mul_mod_self_right]
  · have ha : a.testBit i = false :=
      Nat.testBit_lt_two_pow (Nat.lt_of_lt_of_le h (Nat.pow_le_pow_right (by norm_num) hik))
    rw [ha, Bool.false_or]
    have hsh : (decide (k ≤ i) && v.testBit (i - k)) = v.testBit (i - k) := by
      simp [hik]
    rw [hsh, Nat.testBit_to_div_mod, Nat.testBit_to_div_mod]
    have e1 : (a + v * 2 ^ k) / 2 ^ i = v / 2 ^ (i - k) := by
      have e2 : (2 : Nat) ^ i = 2 ^ k * 2 ^ (i - k) := by
        rw [← pow_add]; congr 1; omega
      rw [e2, ← Nat.div_div_eq_div_mul]
      have e3 : (a + v * 2 ^ k) / 2 ^ k = v := by
        rw [Nat.add_mul_div_right _ _ (Nat.two_pow_pos k), Nat.div_eq_of_lt h]
        omega
      rw [e3]
    rw [e1]

theorem natBits_concat (b v nb m : Nat) (hb : b < 2 ^ nb) :
    natBits (b + v * 2 ^ nb) (nb + m) = natBits b nb ++ natBits v m := by
  rw [natBits_split nb m]
  congr 1
  · exact natBits_congr nb (by rw [Nat.add_mul_mod_self_right])
  · congr 1
    rw [Nat.shiftRight_eq_div_pow, Nat.add_mul_div_right _ _ (Nat.two_pow_pos nb),
      Nat.div_eq_of_lt hb, Nat.zero_add]

/-! ## Delta codec (delta.go)

`deltaWriter` buffers bits least-significant-first in a 64-bit register
`b` holding `nb` pending bits, flushing whole bytes to `out`;
`deltaReader` consumes bytes symmetrically.  Loops that consume one input
byte per iteration are written as structural recursion over the byte
list; the flush loop (8 bits per iteration) takes explicit fuel, with the
wrapper passing `nb`, which always suffices. -/

/-- Constant `deltaZeroEnc` (delta.go): 0 is coded as γ(16), values ≥ 16
as γ(value+1). -/
def deltaZeroEnc : Nat := 16

/-- `deltaWriter`: flushed bytes plus the bit accumulator. -/
structure DeltaWriter where
  out : Bytes
  b : Nat
  nb : Nat
deriving DecidableEq

/-- The loop of `deltaWriter.flushBits`: while `nb ≥ 8`, emit the low byte
of `b`. -/
def dwFlushGo : Nat → DeltaWriter → DeltaWriter
  | 0, w => w
  | f + 1, w =>
    if 8 ≤ w.nb then
      dwFlushGo f { out := w.out ++ [w.b % 256], b := w.b >>> 8, nb := w.nb - 8 }
    else w

/-- `deltaWriter.flushBits` (fuel `nb` always suffices: the loop runs
`nb / 8` times). -/
def dwFlushBits (w : DeltaWriter) : DeltaWriter := dwFlushGo w.nb w

/-- `bits.Len64`: number of bits needed to represent x. -/
def len64 (x : Nat) : Nat := if x = 0 then 0 else Nat.log2 x + 1

/-- The statement pair `w.b |= v << w.nb; w.nb += m` of
`deltaWriter.writeBits` (64-bit or with wraparound). -/
def dwOrBits (w : DeltaWriter) (v m : Nat) : DeltaWriter :=
  { w with b := (w.b ||| v <<< w.nb) % 2 ^ 64, nb := w.nb + m }

/-- The statement `if w.nb >= 8 { w.flushBits() }` of
`deltaWriter.writeBits`. -/
def dwFlushIf8 (w : DeltaWriter) : DeltaWriter :=
  if 8 ≤ w.nb then dwFlushBits w else w

/-- `deltaWriter.writeBits`: append the Elias-γ code of `x` (which must be
a positive int64; otherwise the source panics, modelled as `none`).  The
steps follow the source statement by statement: reserve `lg` zero bits,
flush if at least a byte is pending, or in the 1 bit, then the `lg` low
bits of `x` (in two chunks with an unconditional flush when `lg > 32`),
flushing finally if at least a byte is pending. -/
def dwWriteBits (x : Nat) (w : DeltaWriter) : Option DeltaWriter :=
  if x = 0 ∨ 2 ^ 63 ≤ x then none
  else
    let lg := len64 x - 1
    let x1 := x &&& (1 <<< lg - 1)
    let w2 := dwFlushIf8 { w with nb := w.nb + lg }
    let w3 := dwOrBits w2 1 1
    if 32 < lg then
      let w4 := dwOrBits w3 (x1 % 2 ^ 32) 32
      let w5 := dwFlushBits w4
      let w6 := dwOrBits w5 (x1 >>> 32) (lg - 32)
      some (dwFlushIf8 w6)
    else
      some (dwFlushIf8 (dwOrBits w3 x1 lg))

/-- The version-2 value transformation of `deltaWriter.Write`: 0 becomes
`deltaZeroEnc`, values ≥ `deltaZeroEnc` are incremented. -/
def encVal (x : Nat) : Nat :=
  if x = 0 then deltaZeroEnc else if deltaZeroEnc ≤ x then x + 1 else x

/-- `deltaWriter.Write` with `writeVersion = 2`. -/
def dwWrite (x : Nat) (w : DeltaWriter) : Option DeltaWriter :=
  dwWriteBits (encVal x) w

/-- `deltaWriter.Flush`: flush whole bytes, then the final partial byte. -/
def dwFlush (w : DeltaWriter) : Bytes :=
  let w1 := dwFlushBits w
  if 0 < w1.nb then w1.out ++ [w1.b % 256] else w1.out

/-- `deltaReader`: remaining bytes plus the bit accumulator. -/
structure DeltaReader where
  d : Bytes
  b : Nat
  nb : Nat
deriving DecidableEq

/-- `deltaReader.clearBits`. -/
def drClearBits (r : DeltaReader) : DeltaReader := { r with b := 0, nb := 0 }

/-- The first loop of `deltaReader.next64`: while the accumulator is all
zeros, count its bits into `lg` and load the next byte (corruption if the
data runs out or the budget of 65 bits is exceeded). -/
def drSkipZeros : Bytes → Nat → Nat → Nat → Option (Nat × Nat × Nat × Bytes)
  | [], b, nb, lg => if b = 0 then none else some (lg, b, nb, [])
  | x :: d', b, nb, lg =>
    if b = 0 then
      if 65 < lg + nb then none else drSkipZeros d' (x % 256) 8 (lg + nb)
    else some (lg, b, nb, x :: d')

/-- `bits.TrailingZeros64` via fuel (64 suffices for 64-bit values; the
result for 0 is 64, as in Go). -/
def tzGo : Nat → Nat → Nat
  | 0, _ => 0
  | f + 1, n => if n = 0 then f + 1 else if n % 2 = 1 then 0 else tzGo f (n / 2) + 1

/-- `bits.TrailingZeros64`. -/
def tz64 (n : Nat) : Nat := tzGo 64 n

/-- The second loop of `deltaReader.next64`: accumulate `lg` low bits of
the value from the stream into `x` at position `nbA`. -/
def drReadBits : Bytes → Nat → Nat → Nat → Nat → Nat → Option (Nat × Nat × Nat × Bytes)
  | [], b, nb, lg, x, nbA =>
    if nb < lg then none
    else some ((x ||| (b &&& (1 <<< lg - 1)) <<< nbA) % 2 ^ 64, b >>> lg, nb - lg, [])
  | y :: d', b, nb, lg, x, nbA =>
    if nb < lg then
      let x' := (x ||| b <<< nbA) % 2 ^ 64
      let nbA' := nbA + nb
      let lg' := lg - nb
      if 64 < nbA' then none else drReadBits d' (y % 256) 8 lg' x' nbA'
    else some ((x ||| (b &&& (1 <<< lg - 1)) <<< nbA) % 2 ^ 64, b >>> lg, nb - lg, y :: d')

/-- `deltaReader.next64`: decode one Elias-γ value. -/
def drNext64 (r : DeltaReader) : Option (Nat × DeltaReader) :=
  match drSkipZeros r.d r.b r.nb 0 with
  | none => none
  | some (lg1, b1, nb1, d1) =>
    let nbz := tz64 b1
    let lg := lg1 + nbz
    let b2 := b1 >>> (nbz + 1)
    let nb2 := nb1 - (nbz + 1)
    let x0 := (1 <<< lg) % 2 ^ 64
    match drReadBits d1 b2 nb2 lg x0 0 with
    | none => none
    | some (x, b3, nb3, d3) => some (x, { d := d3, b := b3, nb := nb3 })

/-- Go conversion `int(x)` of a `uint64` on a 64-bit machine. -/
def toInt64 (x : Nat) : Int := if x < 2 ^ 63 then (x : Int) else (x : Int) - 2 ^ 64

/-- `deltaReader.next` with index version 2: decode γ, then map
`deltaZeroEnc` back to 0 and decrement values above it. -/
def drNext2 (r : DeltaReader) : Option (Int × DeltaReader) :=
  match drNext64 r with
  | none => none
  | some (x, r') =>
    let i := toInt64 x
    some (if i = (deltaZeroEnc : Int) then 0
          else if (deltaZeroEnc : Int) < i then i - 1 else i, r')

/-- `deltaReader.next` with index version 1 (byte uvarint). -/
def drNext1 (r : DeltaReader) : Option (Int × DeltaReader) :=
  let vn := uvarint r.d
  let r' : DeltaReader := { r with d := r.d.drop vn.2.toNat }
  if vn.2 ≤ 0 ∨ 2 ^ 63 ≤ vn.1 then none
  else some ((vn.1 : Int), r')

/-- `deltaReader.next`, dispatching on the index version. -/
def drNext (version : Nat) (r : DeltaReader) : Option (Int × DeltaReader) :=
  if version = 2 then drNext2 r else drNext1 r

/-- A fresh `deltaWriter` (`init`). -/
def dwInit : DeltaWriter := { out := [], b := 0, nb := 0 }

/-- Write a sequence of values with the version-2 `deltaWriter.Write`. -/
def dwWriteSeq : List Nat → DeltaWriter → Option DeltaWriter
  | [], w => some w
  | x :: xs, w =>
    match dwWrite x w with
    | none => none
    | some w' => dwWriteSeq xs w'

/-- Read `n` values with the version-2 `deltaReader.next`. -/
def drReadSeq : Nat → DeltaReader → Option (List Int × DeltaReader)
  | 0, r => some ([], r)
  | n + 1, r =>
    match drNext2 r with
    | none => none
    | some (v, r') =>
      match drReadSeq n r' with
      | none => none
      | some (vs, rf) => some (v :: vs, rf)

/-! ## Writer-side bit-stream lemmas -/

/-- Bit stream denoted by a writer state: flushed bytes then pending
accumulator bits. -/
def wBits (w : DeltaWriter) : List Bool := bytesBits w.out ++ natBits w.b w.nb

/-- Writer invariant between operations: the accumulator holds fewer than
8 bits. -/
def DWinv (w : DeltaWriter) : Prop := w.b < 2 ^ w.nb ∧ w.nb < 8

/-- The Elias-γ code of a positive value: `log2 x` zeros, a one, then the
`log2 x` low bits of `x`, least significant first. -/
def gammaBits (x : Nat) : List Bool :=
  List.replicate (Nat.log2 x) false ++ true :: natBits x (Nat.log2 x)

theorem shiftRight_lt_pow {b n : Nat} (k : Nat) (h : b < 2 ^ n) :
    b >>> k < 2 ^ (n - k) := by
  rw [Nat.shiftRight_eq_div_pow]
  rw [Nat.div_lt_iff_lt_mul (Nat.two_pow_pos k), ← pow_add]
  exact Nat.lt_of_lt_of_le h (Nat.pow_le_pow_right (by norm_num) (by omega))

theorem dwFlushGo_spec (fuel : Nat) : ∀ w : DeltaWriter, w.nb / 8 ≤ fuel →
    (dwFlushGo fuel w).nb = w.nb % 8 ∧
    (dwFlushGo fuel w).b = w.b >>> (8 * (w.nb / 8)) ∧
    wBits (dwFlushGo fuel w) = wBits w := by
  induction fuel with
  | zero =>
    intro w h
    have hnb : w.nb < 8 := by omega
    refine ⟨?_, ?_, rfl⟩
    · show w.nb = w.nb % 8; omega
    · show w.b = w.b >>> (8 * (w.nb / 8))
      have h0 : 8 * (w.nb / 8) = 0 := by omega
      rw [h0, Nat.shiftRight_zero]
  | succ f ih =>
    intro w h
    by_cases h8 : 8 ≤ w.nb
    · rw [dwFlushGo, if_pos h8]
      set w' : DeltaWriter :=
        { out := w.out ++ [w.b % 256], b := w.b >>> 8, nb := w.nb - 8 } with hw'
      have hf : w'.nb / 8 ≤ f := by simp only [hw']; omega
      obtain ⟨h1, h2, h3⟩ := ih w' hf
      refine ⟨?_, ?_, ?_⟩
      · rw [h1]; simp only [hw']; omega
      · rw [h2]; simp only [hw']
        rw [← Nat.shiftRight_add]
        congr 1
        omega
      · rw [h3]
        simp only [wBits, hw', bytesBits_append]
        have hsplit : natBits w.b w.nb =
            natBits w.b 8 ++ natBits (w.b >>> 8) (w.nb - 8) := by
          have e : w.nb = 8 + (w.nb - 8) := by omega
          rw [e, natBits_split]
          congr 2
          omega
        rw [hsplit]
        have hbyte : bytesBits [w.b % 256] = natBits w.b 8 := by
          simp only [bytesBits, List.map_cons, List.map_nil, List.flatten,
            List.append_nil, byteBits]
          exact natBits_congr 8 (by norm_num [Nat.mod_mod_of_dvd])
        rw [hbyte, List.append_assoc]
    · rw [dwFlushGo, if_neg h8]
      have hnb : w.nb < 8 := by omega
      refine ⟨by omega, ?_, rfl⟩
      have h0 : 8 * (w.nb / 8) = 0 := by omega
      rw [h0, Nat.shiftRight_zero]

theorem dwFlushBits_spec (w : DeltaWriter) :
    (dwFlushBits w).nb = w.nb % 8 ∧
    (dwFlushBits w).b = w.b >>> (8 * (w.nb / 8)) ∧
    wBits (dwFlushBits w) = wBits w :=
  dwFlushGo_spec w.nb w (Nat.div_le_self _ _)

theorem dwFlushBits_inv (w : DeltaWriter) (hb : w.b < 2 ^ w.nb) :
    (dwFlushBits w).b < 2 ^ (dwFlushBits w).nb ∧ (dwFlushBits w).nb < 8 ∧
    wBits (dwFlushBits w) = wBits w := by
  obtain ⟨h1, h2, h3⟩ := dwFlushBits_spec w
  refine ⟨?_, by omega, h3⟩
  rw [h1, h2]
  have := shiftRight_lt_pow (b := w.b) (n := w.nb) (8 * (w.nb / 8)) hb
  have e : w.nb - 8 * (w.nb / 8) = w.nb % 8 := by omega
  rwa [e] at this

theorem pad_spec (w : DeltaWriter) (m : Nat) (hb : w.b < 2 ^ w.nb) :
    wBits { w with nb := w.nb + m } = wBits w ++ List.replicate m false := by
  simp only [wBits, List.append_assoc]
  congr 1
  rw [natBits_split w.nb m]
  have h0 : w.b >>> w.nb = 0 := by
    rw [Nat.shiftRight_eq_div_pow]
    exact Nat.div_eq_of_lt hb
  rw [h0, natBits_zero_val]

theorem push_spec (w : DeltaWriter) (v m : Nat) (hb : w.b < 2 ^ w.nb)
    (hv : v < 2 ^ m) (hfit : w.nb + m < 64) :
    (w.b ||| v <<< w.nb) % 2 ^ 64 = w.b + v * 2 ^ w.nb ∧
    w.b + v * 2 ^ w.nb < 2 ^ (w.nb + m) ∧
    wBits { w with b := (w.b ||| v <<< w.nb) % 2 ^ 64, nb := w.nb + m } =
      wBits w ++ natBits v m := by
  have hlt : w.b + v * 2 ^ w.nb < 2 ^ (w.nb + m) := by
    have hv1 : v + 1 ≤ 2 ^ m := hv
    calc w.b + v * 2 ^ w.nb < 2 ^ w.nb + v * 2 ^ w.nb := by omega
    _ = (v + 1) * 2 ^ w.nb := by ring
    _ ≤ 2 ^ m * 2 ^ w.nb := Nat.mul_le_mul_right _ hv1
    _ = 2 ^ (w.nb + m) := by rw [← pow_add]; ring_nf
  have hlor : (w.b ||| v <<< w.nb) % 2 ^ 64 = w.b + v * 2 ^ w.nb := by
    rw [lor_disjoint _ _ _ hb]
    exact Nat.mod_eq_of_lt
      (Nat.lt_of_lt_of_le hlt (Nat.pow_le_pow_right (by norm_num) (by omega)))
  refine ⟨hlor, hlt, ?_⟩
  simp only [wBits, hlor, List.append_assoc]
  congr 1
  exact natBits_concat w.b v w.nb m hb

theorem dwFlushIf8_spec (w : DeltaWriter) (hb : w.b < 2 ^ w.nb) :
    (dwFlushIf8 w).b < 2 ^ (dwFlushIf8 w).nb ∧ (dwFlushIf8 w).nb < 8 ∧
    wBits (dwFlushIf8 w) = wBits w := by
  rw [dwFlushIf8]
  by_cases h : 8 ≤ w.nb
  · simp only [if_pos h]
    exact dwFlushBits_inv w hb
  · simp only [if_neg h]
    exact ⟨hb, by omega, trivial⟩

theorem dwOrBits_spec (w : DeltaWriter) (v m : Nat) (hb : w.b < 2 ^ w.nb)
    (hv : v < 2 ^ m) (hfit : w.nb + m < 64) :
    (dwOrBits w v m).b < 2 ^ (dwOrBits w v m).nb ∧ (dwOrBits w v m).nb = w.nb + m ∧
    wBits (dwOrBits w v m) = wBits w ++ natBits v m := by
  obtain ⟨h1, h2, h3⟩ := push_spec w v m hb hv hfit
  rw [dwOrBits]
  refine ⟨?_, rfl, h3⟩
  show (w.b ||| v <<< w.nb) % 2 ^ 64 < 2 ^ (w.nb + m)
  rw [h1]
  exact h2

theorem dwWriteBits_spec (x : Nat) (w : DeltaWriter) (hx1 : 1 ≤ x) (hx2 : x < 2 ^ 63)
    (hwb : w.b < 2 ^ w.nb) (hw8 : w.nb < 8) :
    ∃ w', dwWriteBits x w = some w' ∧ w'.b < 2 ^ w'.nb ∧ w'.nb < 8 ∧
      wBits w' = wBits w ++ gammaBits x := by
  have hxne : x ≠ 0 := by omega
  have hx0 : ¬(x = 0 ∨ 2 ^ 63 ≤ x) := by push_neg; exact ⟨hxne, hx2⟩
  have hlg : len64 x - 1 = Nat.log2 x := by
    rw [len64, if_neg hxne]; omega
  have hlg62 : Nat.log2 x ≤ 62 := by
    have h63 := (Nat.log2_lt hxne).mpr hx2
    omega
  have hx1eq : x &&& (1 <<< (Nat.log2 x) - 1) = x % 2 ^ Nat.log2 x := by
    rw [Nat.shiftLeft_eq, one_mul, Nat.and_pow_two_sub_one_eq_mod]
  simp only [dwWriteBits, if_neg hx0, hlg, hx1eq]
  set lg := Nat.log2 x with hlgdef
  -- state after reserving the lg zero bits and flushing
  set w1 : DeltaWriter := { w with nb := w.nb + lg } with hw1
  have hbw1 : w1.b < 2 ^ w1.nb := by
    simp only [hw1]
    exact Nat.lt_of_lt_of_le hwb (Nat.pow_le_pow_right (by norm_num) (by omega))
  have hpad : wBits w1 = wBits w ++ List.replicate lg false := pad_spec w lg hwb
  obtain ⟨hbw2, h8w2, hvw2⟩ := dwFlushIf8_spec w1 hbw1
  set w2 := dwFlushIf8 w1 with hw2
  -- or in the 1 bit
  obtain ⟨hbw3, hnbw3, hvw3⟩ := dwOrBits_spec w2 1 1 hbw2 (by norm_num) (by omega)
  set w3 := dwOrBits w2 1 1 with hw3
  have h8w3 : w3.nb < 9 := by omega
  by_cases h32 : 32 < lg
  · simp only [if_pos h32]
    obtain ⟨hbw4, hnbw4, hvw4⟩ := dwOrBits_spec w3 (x % 2 ^ lg % 2 ^ 32) 32 hbw3
      (Nat.mod_lt _ (by norm_num)) (by omega)
    set w4 := dwOrBits w3 (x % 2 ^ lg % 2 ^ 32) 32 with hw4
    obtain ⟨hbw5, h8w5, hvw5⟩ := dwFlushBits_inv w4 hbw4
    set w5 := dwFlushBits w4 with hw5
    obtain ⟨hbw6, hnbw6, hvw6⟩ := dwOrBits_spec w5 ((x % 2 ^ lg) >>> 32) (lg - 32) hbw5
      (shiftRight_lt_pow 32 (Nat.mod_lt _ (Nat.two_pow_pos lg))) (by omega)
    set w6 := dwOrBits w5 ((x % 2 ^ lg) >>> 32) (lg - 32) with hw6
    obtain ⟨hbw7, h8w7, hvw7⟩ := dwFlushIf8_spec w6 hbw6
    refine ⟨dwFlushIf8 w6, rfl, hbw7, h8w7, ?_⟩
    rw [hvw7, hvw6, hvw5, hvw4, hvw3, hvw2, hpad]
    have hx1split : natBits (x % 2 ^ lg % 2 ^ 32) 32 ++ natBits ((x % 2 ^ lg) >>> 32) (lg - 32) =
        natBits x lg := by
      have e : lg = 32 + (lg - 32) := by omega
      conv_rhs => rw [e, natBits_split]
      congr 1
      · apply natBits_congr
        have h1 : x % 2 ^ lg % 2 ^ 32 = x % 2 ^ 32 :=
          Nat.mod_mod_of_dvd x (pow_dvd_pow 2 (by omega))
        rw [h1, Nat.mod_mod_of_dvd x dvd_rfl]
      · apply natBits_congr
        have h1 : (x % 2 ^ lg) >>> 32 = x >>> 32 % 2 ^ (lg - 32) := by
          rw [Nat.shiftRight_eq_div_pow, Nat.shiftRight_eq_div_pow]
          conv_lhs => rw [e]
          rw [pow_add, Nat.mod_mul_right_div_self]
        rw [h1, Nat.mod_mod_of_dvd _ dvd_rfl]
    rw [gammaBits, ← hlgdef]
    simp only [List.append_assoc, List.cons_append]
    rw [← hx1split]
    have hone : natBits 1 1 = [true] := rfl
    rw [hone]
    simp
  · simp only [if_neg h32]
    obtain ⟨hbw4, hnbw4, hvw4⟩ := dwOrBits_spec w3 (x % 2 ^ lg) lg hbw3
      (Nat.mod_lt _ (Nat.two_pow_pos lg)) (by omega)
    set w4 := dwOrBits w3 (x % 2 ^ lg) lg with hw4
    obtain ⟨hbw5, h8w5, hvw5⟩ := dwFlushIf8_spec w4 hbw4
    refine ⟨dwFlushIf8 w4, rfl, hbw5, h8w5, ?_⟩
    rw [hvw5, hvw4, hvw3, hvw2, hpad]
    have hx1bits : natBits (x % 2 ^ lg) lg = natBits x lg :=
      natBits_congr lg (Nat.mod_mod_of_dvd x dvd_rfl)
    rw [hx1bits, gammaBits, ← hlgdef]
    have hone : natBits 1 1 = [true] := rfl
    rw [hone]
    simp

theorem encVal_ge_one (x : Nat) : 1 ≤ encVal x := by
  rw [encVal, deltaZeroEnc]
  split <;> [omega; skip]
  split <;> omega

theorem encVal_lt (x : Nat) (h : x < 2 ^ 62) : encVal x < 2 ^ 63 := by
  have h2 : (2 : Nat) ^ 62 < 2 ^ 63 := by norm_num
  rw [encVal, deltaZeroEnc]
  split <;> [omega; skip]
  split <;> omega

/-- The γ bit streams of a value sequence under the version-2 zero
escape. -/
def gammaSeq (xs : List Nat) : List Bool :=
  (xs.map (fun x => gammaBits (encVal x))).flatten

theorem dwWriteSeq_spec (xs : List Nat) : ∀ w : DeltaWriter,
    (∀ x ∈ xs, x < 2 ^ 62) → w.b < 2 ^ w.nb → w.nb < 8 →
    ∃ w', dwWriteSeq xs w = some w' ∧ w'.b < 2 ^ w'.nb ∧ w'.nb < 8 ∧
      wBits w' = wBits w ++ gammaSeq xs := by
  induction xs with
  | nil =>
    intro w _ hb h8
    exact ⟨w, rfl, hb, h8, by simp [gammaSeq]⟩
  | cons x xs ih =>
    intro w hxs hb h8
    obtain ⟨w1, hw1, hb1, h81, hv1⟩ := dwWriteBits_spec (encVal x) w
      (encVal_ge_one x) (encVal_lt x (hxs x (by simp))) hb h8
    obtain ⟨w2, hw2, hb2, h82, hv2⟩ := ih w1 (fun y hy => hxs y (by simp [hy])) hb1 h81
    refine ⟨w2, ?_, hb2, h82, ?_⟩
    · simp only [dwWriteSeq, dwWrite, hw1, hw2]
    · rw [hv2, hv1]
      simp [gammaSeq]

theorem dwFlush_spec (w : DeltaWriter) (hb : w.b < 2 ^ w.nb) :
    ∃ pad ≤ 7, bytesBits (dwFlush w) = wBits w ++ List.replicate pad false := by
  obtain ⟨hb1, h81, hv1⟩ := dwFlushBits_inv w hb
  rw [dwFlush]
  set w1 := dwFlushBits w with hw1
  by_cases h0 : 0 < w1.nb
  · refine ⟨8 - w1.nb, by omega, ?_⟩
    rw [if_pos h0, bytesBits_append]
    have hbyte : bytesBits [w1.b % 256] = natBits w1.b 8 := by
      simp only [bytesBits, List.map_cons, List.map_nil, List.flatten,
        List.append_nil, byteBits]
      exact natBits_congr 8 (by norm_num [Nat.mod_mod_of_dvd])
    rw [hbyte]
    have hsplit : natBits w1.b 8 =
        natBits w1.b w1.nb ++ List.replicate (8 - w1.nb) false := by
      have e : (8 : Nat) = w1.nb + (8 - w1.nb) := by omega
      rw [e, natBits_split]
      congr 1
      rw [Nat.shiftRight_eq_div_pow, Nat.div_eq_of_lt hb1, natBits_zero_val]
      congr 1
      omega
    rw [hsplit, ← hv1, wBits, List.append_assoc]
  · refine ⟨0, by omega, ?_⟩
    rw [if_neg h0]
    have hnb : w1.nb = 0 := by omega
    have hb0 : w1.b = 0 := by
      have := hb1
      rw [hnb] at this
      omega
    rw [← hv1, wBits, hnb, hb0]
    simp [natBits]

/-! ## Reader-side bit-stream lemmas -/

/-- Bit stream denoted by a reader state: pending accumulator bits then
unread bytes. -/
def rBits (d : Bytes) (b nb : Nat) : List Bool := natBits b nb ++ bytesBits d

theorem bitsVal_append (l1 l2 : List Bool) :
    bitsVal (l1 ++ l2) = bitsVal l1 + 2 ^ l1.length * bitsVal l2 := by
  induction l1 with
  | nil => simp [bitsVal]
  | cons a l1 ih =>
    rw [List.cons_append, bitsVal, bitsVal, ih, List.length_cons]
    ring

theorem replicate_false_prefix : ∀ (nb z : Nat) (l1 tail : List Bool),
    List.replicate nb false ++ l1 = List.replicate z false ++ true :: tail →
    nb ≤ z := by
  intro nb
  induction nb with
  | zero => intro z l1 tail _; omega
  | succ n ih =>
    intro z l1 tail h
    cases z with
    | zero =>
      rw [List.replicate_succ] at h
      simp at h
    | succ z' =>
      rw [List.replicate_succ, List.replicate_succ] at h
      simp only [List.cons_append, List.cons.injEq] at h
      exact Nat.succ_le_succ (ih z' l1 tail h.2)

theorem no_true_in_replicate (nb z : Nat) (tail : List Bool)
    (h : List.replicate nb false = List.replicate z false ++ true :: tail) : False := by
  have hmem : true ∈ List.replicate nb false := by
    rw [h]
    exact List.mem_append_right _ (List.mem_cons_self _ _)
  simp [List.mem_replicate] at hmem

theorem drSkipZeros_spec : ∀ (d : Bytes) (b nb lg0 z : Nat) (tail : List Bool),
    b < 2 ^ nb → nb ≤ 8 → lg0 + z ≤ 62 →
    rBits d b nb = List.replicate z false ++ true :: tail →
    ∃ zb b' nb' d', drSkipZeros d b nb lg0 = some (lg0 + zb, b', nb', d') ∧
      zb ≤ z ∧ b' ≠ 0 ∧ b' < 2 ^ nb' ∧ nb' ≤ 8 ∧
      rBits d' b' nb' = List.replicate (z - zb) false ++ true :: tail := by
  intro d
  induction d with
  | nil =>
    intro b nb lg0 z tail hb h8 hbud hs
    rw [rBits, bytesBits_nil, List.append_nil] at hs
    by_cases hb0 : b = 0
    · subst hb0
      rw [natBits_zero_val] at hs
      exact absurd hs (fun h => no_true_in_replicate _ _ _ h)
    · refine ⟨0, b, nb, [], ?_, by omega, hb0, hb, h8, ?_⟩
      · rw [drSkipZeros, if_neg hb0, Nat.add_zero]
      · rw [Nat.sub_zero, rBits, bytesBits_nil, List.append_nil]
        exact hs
  | cons y d' ih =>
    intro b nb lg0 z tail hb h8 hbud hs
    by_cases hb0 : b = 0
    · subst hb0
      rw [rBits, natBits_zero_val] at hs
      have hnbz : nb ≤ z := replicate_false_prefix nb z _ tail hs
      have hguard : ¬ 65 < lg0 + nb := by omega
      have hstream : rBits d' (y % 256) 8 =
          List.replicate (z - nb) false ++ true :: tail := by
        have hdrop := congrArg (List.drop nb) hs
        rw [List.drop_append_of_le_length (by simp)] at hdrop
        simp only [List.drop_replicate] at hdrop
        rw [List.drop_append_of_le_length (by simp [hnbz])] at hdrop
        simp only [List.drop_replicate] at hdrop
        rw [bytesBits_cons] at hdrop
        rw [rBits]
        have hbyte : natBits (y % 256) 8 = byteBits y :=
          natBits_congr 8 (by norm_num [Nat.mod_mod_of_dvd])
        rw [hbyte, ← hdrop]
        simp
      obtain ⟨zb, b2, nb2, d2, hrun, hzb, hb2ne, hb2, h82, hs2⟩ :=
        ih (y % 256) 8 (lg0 + nb) (z - nb) tail (Nat.mod_lt y (by norm_num))
          (le_refl 8) (by omega) hstream
      refine ⟨nb + zb, b2, nb2, d2, ?_, by omega, hb2ne, hb2, h82, ?_⟩
      · rw [drSkipZeros, if_pos rfl, if_neg hguard, hrun,
          show lg0 + nb + zb = lg0 + (nb + zb) from by omega]
      · rw [hs2, show z - nb - zb = z - (nb + zb) from by omega]
    · refine ⟨0, b, nb, y :: d', ?_, by omega, hb0, hb, h8, ?_⟩
      · rw [drSkipZeros, if_neg hb0, Nat.add_zero]
      · rw [Nat.sub_zero]
        exact hs

theorem tzGo_spec : ∀ (fuel : Nat) (b nb t : Nat) (rest : List Bool),
    b < 2 ^ nb → nb ≤ fuel →
    natBits b nb = List.replicate t false ++ true :: rest →
    tzGo fuel b = t := by
  intro fuel
  induction fuel with
  | zero =>
    intro b nb t rest _ h8 hs
    have hnb : nb = 0 := by omega
    subst hnb
    simp [natBits] at hs
  | succ f ih =>
    intro b nb t rest hb h8 hs
    have hbne : b ≠ 0 := by
      intro h0
      subst h0
      rw [natBits_zero_val] at hs
      exact no_true_in_replicate _ _ _ hs
    cases nb with
    | zero => simp [natBits] at hs
    | succ m =>
      rw [natBits] at hs
      cases t with
      | zero =>
        simp only [List.replicate, List.nil_append, List.cons.injEq] at hs
        have hmod : b % 2 = 1 := by
          have := hs.1
          rcases Nat.mod_two_eq_zero_or_one b with h | h <;> simp [h] at this ⊢
        rw [tzGo, if_neg hbne, if_pos hmod]
      | succ s =>
        rw [List.replicate_succ] at hs
        simp only [List.cons_append, List.cons.injEq] at hs
        have hmod : b % 2 = 0 := by
          have := hs.1
          rcases Nat.mod_two_eq_zero_or_one b with h | h <;> simp [h] at this ⊢
        have hmodne : ¬ b % 2 = 1 := by omega
        rw [tzGo, if_neg hbne, if_neg hmodne]
        have hdiv : b / 2 < 2 ^ m := by
          rw [pow_succ] at hb
          omega
        rw [ih (b / 2) m s rest hdiv (by omega) hs.2]

theorem lor_high (u v nbA m lgT : Nat) (hu : u < 2 ^ nbA) (hv : v < 2 ^ m)
    (hle : nbA + m ≤ lgT) :
    (u + 2 ^ lgT) ||| v <<< nbA = u + v * 2 ^ nbA + 2 ^ lgT := by
  have huv : u + v * 2 ^ nbA < 2 ^ lgT := by
    have h1 : u + v * 2 ^ nbA < 2 ^ (nbA + m) := by
      calc u + v * 2 ^ nbA < 2 ^ nbA + v * 2 ^ nbA := by omega
      _ = (v + 1) * 2 ^ nbA := by ring
      _ ≤ 2 ^ m * 2 ^ nbA := Nat.mul_le_mul_right _ hv
      _ = 2 ^ (nbA + m) := by rw [← pow_add]; ring_nf
    exact Nat.lt_of_lt_of_le h1 (Nat.pow_le_pow_right (by norm_num) hle)
  have e1 : u + 2 ^ lgT = u ||| 1 <<< lgT := by
    rw [lor_disjoint u 1 lgT (Nat.lt_of_lt_of_le hu
      (Nat.pow_le_pow_right (by norm_num) (by omega))), one_mul]
  have e2 : u ||| 1 <<< lgT ||| v <<< nbA = (u ||| v <<< nbA) ||| 1 <<< lgT := by
    rw [Nat.lor_assoc, Nat.lor_comm (1 <<< lgT) _, ← Nat.lor_assoc]
  rw [e1, e2, lor_disjoint u v nbA hu]
  rw [lor_disjoint (u + v * 2 ^ nbA) 1 lgT huv, one_mul]

theorem drReadBits_spec : ∀ (d : Bytes) (b nb : Nat), b < 2 ^ nb → nb ≤ 8 →
    ∀ (lg nbA u lgT : Nat) (payload rest : List Bool),
    nbA + lg = lgT → lgT ≤ 62 → u < 2 ^ nbA →
    rBits d b nb = payload ++ rest → payload.length = lg →
    ∃ b' nb' d',
      drReadBits d b nb lg (u + 2 ^ lgT) nbA =
        some (u + bitsVal payload * 2 ^ nbA + 2 ^ lgT, b', nb', d') ∧
      b' < 2 ^ nb' ∧ nb' ≤ 8 ∧ rBits d' b' nb' = rest := by
  intro d
  induction d with
  | nil =>
    intro b nb hb h8 lg nbA u lgT payload rest hsum hlgT hu hs hlen
    have hlglen : lg ≤ nb := by
      have hl := congrArg List.length hs
      simp only [rBits, bytesBits_nil, List.append_nil, natBits_length,
        List.length_append, hlen] at hl
      omega
    have hguard : ¬ nb < lg := by omega
    rw [rBits, bytesBits_nil, List.append_nil] at hs
    have hsplit : natBits b nb = natBits b lg ++ natBits (b >>> lg) (nb - lg) := by
      conv_lhs => rw [show nb = lg + (nb - lg) from by omega, natBits_split]
    obtain ⟨hpay, hrest⟩ :=
      List.append_inj (hs.symm.trans hsplit) (by rw [hlen, natBits_length])
    refine ⟨b >>> lg, nb - lg, [], ?_, shiftRight_lt_pow lg hb, by omega, ?_⟩
    · rw [drReadBits, if_neg hguard]
      have hmask : b &&& (1 <<< lg - 1) = b % 2 ^ lg := by
        rw [Nat.shiftLeft_eq, one_mul, Nat.and_pow_two_sub_one_eq_mod]
      have hval : (u + 2 ^ lgT) ||| (b % 2 ^ lg) <<< nbA =
          u + (b % 2 ^ lg) * 2 ^ nbA + 2 ^ lgT :=
        lor_high u (b % 2 ^ lg) nbA lg lgT hu (Nat.mod_lt b (Nat.two_pow_pos lg))
          (by omega)
      have hsmall : u + (b % 2 ^ lg) * 2 ^ nbA + 2 ^ lgT < 2 ^ 64 := by
        have h1 : u + (b % 2 ^ lg) * 2 ^ nbA < 2 ^ (nbA + lg) := by
          calc u + (b % 2 ^ lg) * 2 ^ nbA
              < 2 ^ nbA + (b % 2 ^ lg) * 2 ^ nbA := by omega
          _ = ((b % 2 ^ lg) + 1) * 2 ^ nbA := by ring
          _ ≤ 2 ^ lg * 2 ^ nbA :=
              Nat.mul_le_mul_right _ (Nat.mod_lt b (Nat.two_pow_pos lg))
          _ = 2 ^ (nbA + lg) := by rw [← pow_add]; ring_nf
        have h2 : (2 : Nat) ^ lgT ≤ 2 ^ 62 := Nat.pow_le_pow_right (by norm_num) hlgT
        have h3 : 2 ^ (nbA + lg) ≤ (2 : Nat) ^ 62 :=
          Nat.pow_le_pow_right (by norm_num) (by omega)
        have h4 : (2 : Nat) ^ 62 + 2 ^ 62 ≤ 2 ^ 64 := by norm_num
        omega
      rw [hmask, hval, Nat.mod_eq_of_lt hsmall, hpay, bitsVal_natBits]
    · rw [hrest, rBits, bytesBits_nil, List.append_nil]
  | cons y d' ih =>
    intro b nb hb h8 lg nbA u lgT payload rest hsum hlgT hu hs hlen
    rw [rBits] at hs
    by_cases hguard : nb < lg
    · -- consume all nb bits of b, then load the next byte
      have hnbA8 : ¬ 64 < nbA + nb := by omega
      have heq2 : (payload.take nb) ++ (payload.drop nb ++ rest) =
          natBits b nb ++ bytesBits (y :: d') := by
        rw [← List.append_assoc, List.take_append_drop]
        exact hs.symm
      obtain ⟨htake, hdropeq⟩ := List.append_inj heq2
        (by rw [List.length_take, natBits_length, hlen]; omega)
      have hsplitp : payload = natBits b nb ++ payload.drop nb := by
        conv_lhs => rw [← List.take_append_drop nb payload]
        rw [htake]
      have hstream : rBits d' (y % 256) 8 = List.drop nb payload ++ rest := by
        rw [rBits, show natBits (y % 256) 8 = byteBits y from
          natBits_congr 8 (by norm_num [Nat.mod_mod_of_dvd]),
          ← bytesBits_cons, ← hdropeq]
      have hu' : u + b * 2 ^ nbA < 2 ^ (nbA + nb) := by
        calc u + b * 2 ^ nbA < 2 ^ nbA + b * 2 ^ nbA := by omega
        _ = (b + 1) * 2 ^ nbA := by ring
        _ ≤ 2 ^ nb * 2 ^ nbA := Nat.mul_le_mul_right _ hb
        _ = 2 ^ (nbA + nb) := by rw [← pow_add]; ring_nf
      obtain ⟨b2, nb2, d2, hrun, hb2, h82, hs2⟩ :=
        ih (y % 256) 8 (Nat.mod_lt y (by norm_num)) (le_refl 8) (lg - nb)
          (nbA + nb) (u + b * 2 ^ nbA) lgT (List.drop nb payload) rest
          (by omega) hlgT hu' hstream (by rw [List.length_drop, hlen])
      refine ⟨b2, nb2, d2, ?_, hb2, h82, hs2⟩
      rw [drReadBits, if_pos hguard, if_neg hnbA8]
      have hx' : (u + 2 ^ lgT ||| b <<< nbA) % 2 ^ 64 =
          u + b * 2 ^ nbA + 2 ^ lgT := by
        rw [lor_high u b nbA nb lgT hu hb (by omega)]
        apply Nat.mod_eq_of_lt
        have h1 : u + b * 2 ^ nbA < 2 ^ lgT :=
          Nat.lt_of_lt_of_le hu' (Nat.pow_le_pow_right (by norm_num) (by omega))
        have h2 : (2 : Nat) ^ lgT ≤ 2 ^ 62 := Nat.pow_le_pow_right (by norm_num) hlgT
        have h4 : (2 : Nat) ^ 62 + 2 ^ 62 ≤ 2 ^ 64 := by norm_num
        omega
      rw [hx', hrun]
      have hbits : bitsVal payload = b + 2 ^ nb * bitsVal (List.drop nb payload) := by
        conv_lhs => rw [hsplitp]
        rw [bitsVal_append, bitsVal_natBits, Nat.mod_eq_of_lt hb, natBits_length]
      rw [hbits]
      congr 2
      ring
    · -- at least lg bits are pending: same final step as the nil case
      have hsplit : natBits b nb = natBits b lg ++ natBits (b >>> lg) (nb - lg) := by
        conv_lhs => rw [show nb = lg + (nb - lg) from by omega, natBits_split]
      have heq : payload ++ rest =
          natBits b lg ++ (natBits (b >>> lg) (nb - lg) ++ bytesBits (y :: d')) := by
        rw [← hs, hsplit, List.append_assoc]
      obtain ⟨hpay, hrest⟩ := List.append_inj heq (by rw [hlen, natBits_length])
      refine ⟨b >>> lg, nb - lg, y :: d', ?_, shiftRight_lt_pow lg hb, by omega, ?_⟩
      · rw [drReadBits, if_neg hguard]
        have hmask : b &&& (1 <<< lg - 1) = b % 2 ^ lg := by
          rw [Nat.shiftLeft_eq, one_mul, Nat.and_pow_two_sub_one_eq_mod]
        have hval : (u + 2 ^ lgT) ||| (b % 2 ^ lg) <<< nbA =
            u + (b % 2 ^ lg) * 2 ^ nbA + 2 ^ lgT :=
          lor_high u (b % 2 ^ lg) nbA lg lgT hu (Nat.mod_lt b (Nat.two_pow_pos lg))
            (by omega)
        have hsmall : u + (b % 2 ^ lg) * 2 ^ nbA + 2 ^ lgT < 2 ^ 64 := by
          have h1 : u + (b % 2 ^ lg) * 2 ^ nbA < 2 ^ (nbA + lg) := by
            calc u + (b % 2 ^ lg) * 2 ^ nbA
                < 2 ^ nbA + (b % 2 ^ lg) * 2 ^ nbA := by omega
            _ = ((b % 2 ^ lg) + 1) * 2 ^ nbA := by ring
            _ ≤ 2 ^ lg * 2 ^ nbA :=
                Nat.mul_le_mul_right _ (Nat.mod_lt b (Nat.two_pow_pos lg))
            _ = 2 ^ (nbA + lg) := by rw [← pow_add]; ring_nf
          have h2 : (2 : Nat) ^ lgT ≤ 2 ^ 62 := Nat.pow_le_pow_right (by norm_num) hlgT
          have h3 : 2 ^ (nbA + lg) ≤ (2 : Nat) ^ 62 :=
            Nat.pow_le_pow_right (by norm_num) (by omega)
          have h4 : (2 : Nat) ^ 62 + 2 ^ 62 ≤ 2 ^ 64 := by norm_num
          omega
        rw [hmask, hval, Nat.mod_eq_of_lt hsmall, hpay, bitsVal_natBits]
      · rw [hrest, rBits]

theorem bitsVal_replicate_false (k : Nat) :
    bitsVal (List.replicate k false) = 0 := by
  induction k with
  | zero => rfl
  | succ n ih =>
    rw [List.replicate_succ, bitsVal, ih]
    simp

theorem drNext64_spec (d : Bytes) (b nb : Nat) (v : Nat) (rest : List Bool)
    (hb : b < 2 ^ nb) (h8 : nb ≤ 8) (hv1 : 1 ≤ v) (hv : v < 2 ^ 63)
    (hs : rBits d b nb = gammaBits v ++ rest) :
    ∃ r' : DeltaReader, drNext64 ⟨d, b, nb⟩ = some (v, r') ∧
      r'.b < 2 ^ r'.nb ∧ r'.nb ≤ 8 ∧ rBits r'.d r'.b r'.nb = rest := by
  have hvne : v ≠ 0 := by omega
  set lg := Nat.log2 v with hlgdef
  have hlg62 : lg ≤ 62 := by
    have h63 := (Nat.log2_lt hvne).mpr hv
    omega
  have hs2 : rBits d b nb =
      List.replicate lg false ++ true :: (natBits v lg ++ rest) := by
    rw [hs, gammaBits, ← hlgdef]
    simp
  obtain ⟨zb, b1, nb1, d1, hrun, hzb, hb1ne, hb1, h81, hs1⟩ :=
    drSkipZeros_spec d b nb 0 lg (natBits v lg ++ rest) hb h8 (by omega) hs2
  set t := lg - zb with htdef
  -- the first true bit sits inside the accumulator
  have htlt : t < nb1 := by
    by_contra hc
    push_neg at hc
    have htake := congrArg (List.take nb1) hs1
    rw [rBits, List.take_append_eq_append_take, natBits_length,
      List.take_of_length_le (by rw [natBits_length]), Nat.sub_self,
      List.take_zero, List.append_nil, List.take_append_eq_append_take,
      List.take_replicate, List.length_replicate] at htake
    have hmin : min nb1 t = nb1 := by omega
    have hz : nb1 - t = 0 := by omega
    rw [hmin, hz, List.take_zero, List.append_nil] at htake
    have hval := congrArg bitsVal htake
    rw [bitsVal_natBits, bitsVal_replicate_false] at hval
    have : b1 = 0 := by
      have := Nat.mod_eq_of_lt hb1
      omega
    exact hb1ne this
  set tail := natBits v lg ++ rest with htaildef
  have hnat : natBits b1 nb1 =
      List.replicate t false ++ true :: tail.take (nb1 - t - 1) := by
    have htake := congrArg (List.take nb1) hs1
    rw [rBits, List.take_append_eq_append_take, natBits_length,
      List.take_of_length_le (by rw [natBits_length]), Nat.sub_self,
      List.take_zero, List.append_nil, List.take_append_eq_append_take,
      List.take_replicate, List.length_replicate] at htake
    have hmin : min nb1 t = t := by omega
    rw [hmin] at htake
    rw [htake]
    congr 1
    rw [show nb1 - t = (nb1 - t - 1) + 1 from by omega]
    rfl
  have htz : tz64 b1 = t := tzGo_spec 64 b1 nb1 t _ hb1 (by omega) hnat
  -- state after shifting out the zeros and the one bit
  have hsplit1 : natBits b1 nb1 =
      natBits b1 (t + 1) ++ natBits (b1 >>> (t + 1)) (nb1 - (t + 1)) := by
    conv_lhs => rw [show nb1 = (t + 1) + (nb1 - (t + 1)) from by omega, natBits_split]
  have hb2 : b1 >>> (t + 1) < 2 ^ (nb1 - (t + 1)) := shiftRight_lt_pow (t + 1) hb1
  have hs3 : rBits d1 (b1 >>> (t + 1)) (nb1 - (t + 1)) = tail := by
    have hdrop := congrArg (List.drop (t + 1)) hs1
    rw [rBits, List.drop_append_eq_append_drop, natBits_length,
      show t + 1 - nb1 = 0 from by omega, List.drop_zero] at hdrop
    rw [hsplit1, List.drop_append_eq_append_drop, natBits_length,
      List.drop_of_length_le (by rw [natBits_length]), Nat.sub_self,
      List.drop_zero, List.nil_append] at hdrop
    rw [rBits, hdrop]
    rw [List.drop_append_eq_append_drop, List.drop_replicate, List.length_replicate,
      show t - (t + 1) = 0 from by omega, show t + 1 - t = 1 from by omega]
    simp
  have hx0 : (1 <<< (0 + zb + t)) % 2 ^ 64 = 0 + 2 ^ lg := by
    rw [Nat.shiftLeft_eq, one_mul, Nat.zero_add,
      show zb + t = lg from by omega, Nat.zero_add]
    exact Nat.mod_eq_of_lt
      (Nat.pow_lt_pow_right (by norm_num) (by omega))
  obtain ⟨b3, nb3, d3, hread, hb3, h83, hs4⟩ :=
    drReadBits_spec d1 (b1 >>> (t + 1)) (nb1 - (t + 1)) hb2 (by omega)
      lg 0 0 lg (natBits v lg) rest (by omega) hlg62 (by norm_num)
      (by rw [hs3, htaildef]) (natBits_length v lg)
  refine ⟨⟨d3, b3, nb3⟩, ?_, hb3, h83, hs4⟩
  rw [drNext64, hrun]
  simp only [htz, hx0]
  rw [show 0 + zb + t = lg from by omega, hread]
  have hval : 0 + bitsVal (natBits v lg) * 2 ^ 0 + 2 ^ lg = v := by
    rw [bitsVal_natBits, pow_zero, Nat.mul_one, Nat.zero_add]
    have hle : 2 ^ lg ≤ v := (Nat.le_log2 hvne).mp (le_of_eq hlgdef.symm)
    have hlt : v < 2 ^ (lg + 1) := (Nat.log2_lt hvne).mp (by omega)
    have hdm := Nat.div_add_mod v (2 ^ lg)
    have hdiv : v / 2 ^ lg = 1 := by
      have h1 : 1 ≤ v / 2 ^ lg := (Nat.one_le_div_iff (Nat.two_pow_pos lg)).mpr hle
      have h2 : v / 2 ^ lg < 2 := by
        rw [Nat.div_lt_iff_lt_mul (Nat.two_pow_pos lg)]
        rw [pow_succ] at hlt
        omega
      omega
    rw [hdiv] at hdm
    omega
  rw [hval]

theorem drNext2_spec (d : Bytes) (b nb x : Nat) (rest : List Bool)
    (hb : b < 2 ^ nb) (h8 : nb ≤ 8) (hx : x < 2 ^ 62)
    (hs : rBits d b nb = gammaBits (encVal x) ++ rest) :
    ∃ r' : DeltaReader, drNext2 ⟨d, b, nb⟩ = some ((x : Int), r') ∧
      r'.b < 2 ^ r'.nb ∧ r'.nb ≤ 8 ∧ rBits r'.d r'.b r'.nb = rest := by
  obtain ⟨r', hrun, hb', h8', hs'⟩ :=
    drNext64_spec d b nb (encVal x) rest hb h8 (encVal_ge_one x) (encVal_lt x hx) hs
  refine ⟨r', ?_, hb', h8', hs'⟩
  rw [drNext2, hrun]
  have htoi : toInt64 (encVal x) = (encVal x : Int) := by
    rw [toInt64, if_pos (encVal_lt x hx)]
  simp only [htoi, Option.some.injEq, Prod.mk.injEq]
  refine ⟨?_, trivial⟩
  have hv : ((encVal x : Nat) : Int) =
      if x = 0 then 16 else if 16 ≤ x then (x : Int) + 1 else (x : Int) := by
    rw [encVal, deltaZeroEnc]
    split_ifs <;> push_cast <;> ring
  rw [hv, deltaZeroEnc]
  split_ifs <;> omega

theorem drReadSeq_spec : ∀ (xs : List Nat) (d : Bytes) (b nb pad : Nat),
    (∀ x ∈ xs, x < 2 ^ 62) → b < 2 ^ nb → nb ≤ 8 → pad < 8 →
    rBits d b nb = gammaSeq xs ++ List.replicate pad false →
    ∃ r' : DeltaReader, drReadSeq xs.length ⟨d, b, nb⟩ =
      some (xs.map (fun x => (x : Int)), r') ∧ r'.d = [] := by
  intro xs
  induction xs with
  | nil =>
    intro d b nb pad _ hb h8 hpad hs
    have hl := congrArg List.length hs
    simp only [rBits, List.length_append, natBits_length, bytesBits_length,
      gammaSeq, List.map_nil, List.flatten_nil, List.nil_append,
      List.length_replicate] at hl
    have hd : d = [] := by
      cases d with
      | nil => rfl
      | cons a l => simp at hl; omega
    exact ⟨⟨d, b, nb⟩, by simp [drReadSeq, List.map_nil], hd⟩
  | cons x xs ih =>
    intro d b nb pad hxs hb h8 hpad hs
    have hs1 : rBits d b nb =
        gammaBits (encVal x) ++ (gammaSeq xs ++ List.replicate pad false) := by
      rw [hs, gammaSeq, List.map_cons, List.flatten_cons, List.append_assoc]
      rfl
    obtain ⟨r1, hrun1, hb1, h81, hs2⟩ :=
      drNext2_spec d b nb x _ hb h8 (hxs x (by simp)) hs1
    obtain ⟨r2, hrun2, hd2⟩ := ih r1.d r1.b r1.nb pad
      (fun y hy => hxs y (by simp [hy])) hb1 h81 hpad hs2
    refine ⟨r2, ?_, hd2⟩
    have hr1 : (⟨r1.d, r1.b, r1.nb⟩ : DeltaReader) = r1 := rfl
    rw [hr1] at hrun2
    simp only [List.length_cons, drReadSeq, hrun1, hrun2, List.map_cons]
    simp

/-- C2: version-2 delta round trip.  Writing any sequence of values below
`2 ^ 62` with the version-2 `deltaWriter` followed by `Flush`, then
reading back that many values with a version-2 `deltaReader`, yields the
original sequence, and after `clearBits` no unread bytes remain. -/
theorem c2_delta_roundtrip (xs : List Nat) (h : ∀ x ∈ xs, x < 2 ^ 62) :
    ∃ (w : DeltaWriter) (r : DeltaReader),
      dwWriteSeq xs dwInit = some w ∧
      drReadSeq xs.length { d := dwFlush w, b := 0, nb := 0 } =
        some (xs.map (fun x => (x : Int)), r) ∧
      (drClearBits r).d = [] := by
  obtain ⟨w, hw, hbw, h8w, hvw⟩ := dwWriteSeq_spec xs dwInit h
    (by norm_num [dwInit]) (by norm_num [dwInit])
  obtain ⟨pad, hpad, hflush⟩ := dwFlush_spec w hbw
  have hstream : rBits (dwFlush w) 0 0 = gammaSeq xs ++ List.replicate pad false := by
    rw [rBits, show natBits 0 0 = [] from rfl, List.nil_append, hflush, hvw]
    simp [wBits, dwInit, bytesBits, natBits]
  obtain ⟨r, hr, hrd⟩ := drReadSeq_spec xs (dwFlush w) 0 0 pad h
    (by norm_num) (by norm_num) (by omega) hstream
  exact ⟨w, r, hw, hr, hrd⟩

/-- C2 witness: the round trip applied to the delta test vector
`[0,1,2,3,1,2,3,4,5,6,10000,1,2,3]`. -/
theorem c2_delta_roundtrip_witness :
    ∃ (w : DeltaWriter) (r : DeltaReader),
      dwWriteSeq [0, 1, 2, 3, 1, 2, 3, 4, 5, 6, 10000, 1, 2, 3] dwInit = some w ∧
      drReadSeq 14 { d := dwFlush w, b := 0, nb := 0 } =
        some ([0, 1, 2, 3, 1, 2, 3, 4, 5, 6, 10000, 1, 2, 3].map (fun x : Nat => (x : Int)), r) ∧
      (drClearBits r).d = [] :=
  c2_delta_roundtrip [0, 1, 2, 3, 1, 2, 3, 4, 5, 6, 10000, 1, 2, 3] (by decide)

/-! ## C4: posting lists (read.go `findListV2`, `postReader`, `postingList`) -/

/-- The big-endian trigram at offset `k` of a byte string:
`uint32(b[k])<<16 | uint32(b[k+1])<<8 | uint32(b[k+2])`. -/
def triAt (b : Bytes) (k : Nat) : Nat :=
  (b.getD k 0 % 256) <<< 16 ||| (b.getD (k + 1) 0 % 256) <<< 8 ||| b.getD (k + 2) 0 % 256

/-- `sort.Search` from the Go standard library: binary search on `[i, j)`
for the first index where `f` holds, returning `j` when `f` never holds.
Fuel-compiled; the interval halves each step, so fuel `n` suffices. -/
def sortSearchGo (f : Nat → Bool) : Nat → Nat → Nat → Nat
  | 0, i, _ => i
  | fuel + 1, i, j =>
    if i < j then
      let h := (i + j) / 2
      if f h then sortSearchGo f fuel i h else sortSearchGo f fuel (h + 1) j
    else i

/-- `sort.Search(n, f)`. -/
def sortSearch (n : Nat) (f : Nat → Bool) : Nat := sortSearchGo f n 0 n

/-- The block walk of `Index.findListV2`: scan the entries
`(trigram, uvarint count, uvarint offset delta)` of one posting-index
block, accumulating the offset, until the sought trigram, a zero trigram
or the end of the block (fuel-compiled; each entry consumes at least
three bytes, so fuel `b.length` suffices). -/
def walkBlockGo (tri : Nat) : Nat → Bytes → Nat → Except Corrupt (Nat × Nat)
  | 0, _, _ => .ok (0, 0)
  | fuel + 1, b, offset =>
    if 3 ≤ b.length then
      let t := triAt b 0
      if t = 0 then .ok (0, 0)
      else
        let cn := uvarint (b.drop 3)
        if cn.2 < 0 then .error .corrupt
        else
          let ov := uvarint (b.drop (3 + cn.2.toNat))
          if ov.2 < 0 then .error .corrupt
          else
            let offset' := offset + ov.1
            if t = tri then .ok (cn.1, offset')
            else walkBlockGo tri fuel (b.drop (3 + cn.2.toNat + ov.2.toNat)) offset'
    else .ok (0, 0)

/-- `Index.findListV2`: binary-search the posting-index blocks for the
last block that can contain the trigram, then walk that block. -/
def findListV2 (ix : IndexFile) (tri : Nat) : Except Corrupt (Nat × Nat) :=
  match ixSlice ix ix.postIndex (ix.numPostBlock * postBlockSize : Nat) with
  | .error e => .error e
  | .ok b =>
    let i := sortSearch ix.numPostBlock fun k => decide (tri < triAt b (k * postBlockSize))
    if i = 0 then .ok (0, 0)
    else
      walkBlockGo tri ((b.drop ((i - 1) * postBlockSize)).take postBlockSize).length
        ((b.drop ((i - 1) * postBlockSize)).take postBlockSize) 0

/-- The state of a `postReader` whose `init` found a nonempty list:
remaining count, current fileid, the restrict slice (`none` for Go's
`nil`), and the delta reader over the posting bytes. -/
structure PostReader where
  count : Nat
  fileid : Int
  restrict : Option (List Int)
  delta : DeltaReader

/-- `postReader.next` on an active version-2 reader: read the next delta
(corrupt unless positive), advance the fileid, apply the restrict filter,
and yield the fileid; when the count is exhausted, check the zero
terminator and report the end of the list. -/
def postNextGo : Nat → Int → Option (List Int) → DeltaReader →
    Except Corrupt (Option (Int × PostReader))
  | 0, _, _, dr =>
    match drNext2 dr with
    | none => .error .corrupt
    | some (d, _) => if d ≠ 0 then .error .corrupt else .ok none
  | c + 1, fid, rt, dr =>
    match drNext2 dr with
    | none => .error .corrupt
    | some (d, dr') =>
      if d ≤ 0 then .error .corrupt
      else
        let fid' := fid + d
        match rt with
        | none => .ok (some (fid', ⟨c, fid', none, dr'⟩))
        | some rl =>
          match rl.dropWhile (fun y => decide (y < fid')) with
          | [] => postNextGo c fid' (some []) dr'
          | y :: rl' =>
            if y = fid' then .ok (some (fid', ⟨c, fid', some (y :: rl'), dr'⟩))
            else postNextGo c fid' (some (y :: rl')) dr'

/-- The collection loop of `Index.postingList`: call `next` until the
list ends, collecting the fileids (fuel-compiled; each yield strictly
decreases the remaining count, so fuel `count` suffices). -/
def postCollectGo : Nat → PostReader → Except Corrupt (List Int)
  | 0, r =>
    match postNextGo r.count r.fileid r.restrict r.delta with
    | .error e => .error e
    | .ok none => .ok []
    | .ok (some (fid, _)) => .ok [fid]
  | fuel + 1, r =>
    match postNextGo r.count r.fileid r.restrict r.delta with
    | .error e => .error e
    | .ok none => .ok []
    | .ok (some (fid, r')) =>
      match postCollectGo fuel r' with
      | .error e => .error e
      | .ok l => .ok (fid :: l)

/-- `Index.postingList` on a version-2 index: look up the trigram and, if
its count is nonzero, read the posting list (skipping the three stored
trigram bytes); `PostingList` passes `restrict = none`. -/
def postingList (ix : IndexFile) (tri : Nat) (restrict : Option (List Int)) :
    Except Corrupt (List Int) :=
  match findListV2 ix tri with
  | .error e => .error e
  | .ok co =>
    if co.1 = 0 then .ok []
    else
      match ixSlice ix (ix.postData + co.2 + 3) (-1) with
      | .error e => .error e
      | .ok pdata => postCollectGo co.1 ⟨co.1, -1, restrict, ⟨pdata, 0, 0⟩⟩

/-- Parse one posting-index block into the list of its trigrams: the scan
of `Index.Check`, which reads entries while more than three bytes remain
and the leading trigram is nonzero, requiring positive uvarint lengths. -/
def blockTrisGo : Nat → Bytes → Except Corrupt (List Nat)
  | 0, _ => .ok []
  | fuel + 1, b =>
    if 3 < b.length ∧ triAt b 0 ≠ 0 then
      let cn := uvarint (b.drop 3)
      if cn.2 ≤ 0 then .error .corrupt
      else
        let ov := uvarint (b.drop (3 + cn.2.toNat))
        if ov.2 ≤ 0 then .error .corrupt
        else
          match blockTrisGo fuel (b.drop (3 + cn.2.toNat + ov.2.toNat)) with
          | .error e => .error e
          | .ok ts => .ok (triAt b 0 :: ts)
    else .ok []

/-- The trigrams of all posting-index blocks, block by block. -/
def blocksTris : Nat → Bytes → Except Corrupt (List Nat)
  | 0, _ => .ok []
  | n + 1, pblocks =>
    match blockTrisGo postBlockSize (pblocks.take postBlockSize) with
    | .error e => .error e
    | .ok ts =>
      match blocksTris n (pblocks.drop postBlockSize) with
      | .error e => .error e
      | .ok rest => .ok (ts ++ rest)

/-- Every trigram with an entry in the posting-list index, per
`Index.Check`'s scan of the `numPostBlock` 256-byte blocks. -/
def postIndexTrigrams (ix : IndexFile) : Except Corrupt (List Nat) :=
  match ixSlice ix ix.postIndex (ix.numPostBlock * postBlockSize : Nat) with
  | .error e => .error e
  | .ok pblocks => blocksTris ix.numPostBlock pblocks

theorem blockTrisGo_nil (fuel : Nat) : blockTrisGo fuel [] = .ok [] := by
  cases fuel <;> simp [blockTrisGo]

theorem sortSearchGo_le (f : Nat → Bool) :
    ∀ (fuel i j : Nat), i ≤ j → sortSearchGo f fuel i j ≤ j := by
  intro fuel
  induction fuel with
  | zero => intro i j h; simpa [sortSearchGo]
  | succ n ih =>
    intro i j h
    rw [sortSearchGo]
    by_cases hij : i < j
    · rw [if_pos hij]
      by_cases hf : f ((i + j) / 2) = true
      · rw [if_pos hf]
        exact le_trans (ih i ((i + j) / 2) (by omega)) (by omega)
      · rw [if_neg hf]
        exact ih ((i + j) / 2 + 1) j (by omega)
    · rw [if_neg hij]; exact h

theorem sortSearch_le (n : Nat) (f : Nat → Bool) : sortSearch n f ≤ n :=
  sortSearchGo_le f n 0 n (Nat.zero_le n)

theorem walkBlockGo_not_found (tri : Nat) :
    ∀ (fuelW fuelB : Nat) (b : Bytes) (off : Nat) (ts : List Nat),
      b.length ≤ fuelB → blockTrisGo fuelB b = .ok ts → tri ∉ ts →
      ∃ o, walkBlockGo tri fuelW b off = .ok (0, o) := by
  intro fuelW
  induction fuelW with
  | zero => intro _ b off _ _ _ _; exact ⟨0, rfl⟩
  | succ n ih =>
    intro fuelB b off ts hlen hts hmem
    by_cases h3 : 3 ≤ b.length
    case neg => exact ⟨0, by simp [walkBlockGo, h3]⟩
    by_cases ht0 : triAt b 0 = 0
    case pos => exact ⟨0, by simp [walkBlockGo, h3, ht0]⟩
    obtain ⟨fB, rfl⟩ : ∃ fB, fuelB = fB + 1 := ⟨fuelB - 1, by omega⟩
    by_cases h4 : 3 < b.length
    · simp only [blockTrisGo] at hts
      rw [if_pos (show 3 < b.length ∧ triAt b 0 ≠ 0 from ⟨h4, ht0⟩)] at hts
      by_cases hc : (uvarint (b.drop 3)).2 ≤ 0
      · rw [if_pos hc] at hts; simp at hts
      · rw [if_neg hc] at hts
        by_cases hov : (uvarint (b.drop (3 + (uvarint (b.drop 3)).2.toNat))).2 ≤ 0
        · rw [if_pos hov] at hts; simp at hts
        · rw [if_neg hov] at hts
          cases hrec : blockTrisGo fB
              (b.drop (3 + (uvarint (b.drop 3)).2.toNat +
                (uvarint (b.drop (3 + (uvarint (b.drop 3)).2.toNat))).2.toNat)) with
          | error e => rw [hrec] at hts; simp at hts
          | ok ts2 =>
            rw [hrec] at hts
            simp only [Except.ok.injEq] at hts
            subst hts
            simp only [List.mem_cons, not_or] at hmem
            have hcw : ¬ (uvarint (b.drop 3)).2 < 0 := fun hlt => hc (le_of_lt hlt)
            have hovw : ¬ (uvarint (b.drop (3 + (uvarint (b.drop 3)).2.toNat))).2 < 0 :=
              fun hlt => hov (le_of_lt hlt)
            have htw : ¬ triAt b 0 = tri := fun he => hmem.1 he.symm
            have hlen2 : (b.drop (3 + (uvarint (b.drop 3)).2.toNat +
                (uvarint (b.drop (3 + (uvarint (b.drop 3)).2.toNat))).2.toNat)).length ≤ fB := by
              rw [List.length_drop]; omega
            obtain ⟨o, ho⟩ := ih fB _
              (off + (uvarint (b.drop (3 + (uvarint (b.drop 3)).2.toNat))).1) ts2
              hlen2 hrec hmem.2
            refine ⟨o, ?_⟩
            simp only [walkBlockGo]
            rw [if_pos h3, if_neg ht0, if_neg hcw, if_neg hovw, if_neg htw]
            exact ho
    · have hb3 : b.length = 3 := by omega
      have hdrop : b.drop 3 = [] := List.drop_eq_nil_of_le (by omega)
      simp only [blockTrisGo] at hts
      rw [if_neg (show ¬ (3 < b.length ∧ triAt b 0 ≠ 0) from fun h => h4 h.1)] at hts
      simp only [Except.ok.injEq] at hts
      subst hts
      by_cases htri : triAt b 0 = tri
      · refine ⟨off, ?_⟩
        simp only [walkBlockGo]
        rw [if_pos h3, if_neg ht0, hdrop]
        simp [uvarint, uvarintGo, htri, hdrop]
      · obtain ⟨o, ho⟩ := ih 0 [] off [] (by simp) (blockTrisGo_nil 0) (by simp)
        refine ⟨o, ?_⟩
        simp only [walkBlockGo]
        rw [if_pos h3, if_neg ht0, hdrop]
        simp [uvarint, uvarintGo, htri, hdrop]
        exact ho

theorem blocksTris_block :
    ∀ (n : Nat) (pblocks : Bytes) (ts : List Nat) (m : Nat),
      blocksTris n pblocks = .ok ts → m < n →
      ∃ tsm, blockTrisGo postBlockSize
          ((pblocks.drop (m * postBlockSize)).take postBlockSize) = .ok tsm ∧
        ∀ x ∈ tsm, x ∈ ts := by
  intro n
  induction n with
  | zero => intro _ _ m _ hm; omega
  | succ n ih =>
    intro pblocks ts m hts hm
    rw [blocksTris] at hts
    cases h1 : blockTrisGo postBlockSize (pblocks.take postBlockSize) with
    | error e => rw [h1] at hts; simp at hts
    | ok ts1 =>
      rw [h1] at hts
      cases h2 : blocksTris n (pblocks.drop postBlockSize) with
      | error e => rw [h2] at hts; simp at hts
      | ok rest =>
        rw [h2] at hts
        simp only [Except.ok.injEq] at hts
        subst hts
        cases m with
        | zero =>
          refine ⟨ts1, ?_, fun x hx => List.mem_append_left _ hx⟩
          simpa using h1
        | succ m =>
          obtain ⟨tsm, htsm, hsub⟩ := ih (pblocks.drop postBlockSize) rest m h2 (by omega)
          refine ⟨tsm, ?_, fun x hx => List.mem_append_right _ (hsub x hx)⟩
          rw [List.drop_drop] at htsm
          rw [show (m + 1) * postBlockSize = postBlockSize + m * postBlockSize from by ring]
          exact htsm

theorem postNextGo_lt :
    ∀ (c : Nat) (fid : Int) (rt : Option (List Int)) (dr : DeltaReader)
      (v : Int) (r' : PostReader),
      postNextGo c fid rt dr = .ok (some (v, r')) → fid < v ∧ r'.fileid = v := by
  intro c
  induction c with
  | zero =>
    intro fid rt dr v r' h
    rw [postNextGo] at h
    cases hd : drNext2 dr with
    | none => rw [hd] at h; simp at h
    | some p =>
      obtain ⟨d, dr2⟩ := p
      rw [hd] at h
      by_cases h0 : d ≠ 0 <;> simp [h0] at h
  | succ c ih =>
    intro fid rt dr v r' h
    rw [postNextGo] at h
    cases hd : drNext2 dr with
    | none => rw [hd] at h; simp at h
    | some p =>
      obtain ⟨d, dr2⟩ := p
      rw [hd] at h
      simp only [] at h
      by_cases hdle : d ≤ 0
      · simp [hdle] at h
      · rw [if_neg hdle] at h
        cases rt with
        | none =>
          simp only [Except.ok.injEq, Option.some.injEq, Prod.mk.injEq] at h
          obtain ⟨hv, hr⟩ := h
          subst hv
          refine ⟨by omega, ?_⟩
          rw [← hr]
        | some rl =>
          simp only [] at h
          cases hdw : rl.dropWhile (fun y => decide (y < fid + d)) with
          | nil =>
            rw [hdw] at h
            simp only [] at h
            have := ih (fid + d) (some []) dr2 v r' h
            exact ⟨by omega, this.2⟩
          | cons y rl2 =>
            rw [hdw] at h
            simp only [] at h
            by_cases hy : y = fid + d
            · rw [if_pos hy] at h
              simp only [Except.ok.injEq, Option.some.injEq, Prod.mk.injEq] at h
              obtain ⟨hv, hr⟩ := h
              subst hv
              refine ⟨by omega, ?_⟩
              rw [← hr]
            · rw [if_neg hy] at h
              have := ih (fid + d) (some (y :: rl2)) dr2 v r' h
              exact ⟨by omega, this.2⟩

theorem postCollectGo_sorted :
    ∀ (fuel : Nat) (r : PostReader) (l : List Int),
      postCollectGo fuel r = .ok l →
      (∀ y ∈ l, r.fileid < y) ∧ l.Chain' (· < ·) := by
  intro fuel
  induction fuel with
  | zero =>
    intro r l h
    rw [postCollectGo] at h
    cases hn : postNextGo r.count r.fileid r.restrict r.delta with
    | error e => rw [hn] at h; simp at h
    | ok o =>
      rw [hn] at h
      cases o with
      | none => simp only [Except.ok.injEq] at h; subst h; simp
      | some p =>
        obtain ⟨fid, r'⟩ := p
        simp only [Except.ok.injEq] at h
        subst h
        have hlt := (postNextGo_lt r.count r.fileid r.restrict r.delta fid r' hn).1
        simp [hlt]
  | succ n ih =>
    intro r l h
    rw [postCollectGo] at h
    cases hn : postNextGo r.count r.fileid r.restrict r.delta with
    | error e => rw [hn] at h; simp at h
    | ok o =>
      rw [hn] at h
      cases o with
      | none => simp only [Except.ok.injEq] at h; subst h; simp
      | some p =>
        obtain ⟨fid, r'⟩ := p
        simp only [] at h
        cases hrec : postCollectGo n r' with
        | error e => rw [hrec] at h; simp at h
        | ok l2 =>
          rw [hrec] at h
          simp only [Except.ok.injEq] at h
          subst h
          obtain ⟨hlt, hfid⟩ := postNextGo_lt r.count r.fileid r.restrict r.delta fid r' hn
          obtain ⟨hall, hch⟩ := ih r' l2 hrec
          constructor
          · intro y hy
            rcases List.mem_cons.mp hy with rfl | hy2
            · exact hlt
            · have := hall y hy2; omega
          · refine List.chain'_cons'.mpr ⟨fun y hy => ?_, hch⟩
            have := hall y (List.mem_of_mem_head? hy)
            omega

/-- C4: `PostingList` contract.  On an open version-2 index: if the
trigram has no entry in the posting-list index then `postingList`
(with nil restrict, i.e. `PostingList`) returns the empty list; and
whenever `postingList` returns normally (no corruption), the returned
file-ID list is strictly ascending. -/
theorem c4_posting_list (ix : IndexFile) (tri : Nat) :
    (∀ ts, postIndexTrigrams ix = .ok ts → tri ∉ ts →
      postingList ix tri none = .ok []) ∧
    (∀ l, postingList ix tri none = .ok l → List.Chain' (· < ·) l) := by
  constructor
  · intro ts hts hmem
    rw [postIndexTrigrams] at hts
    cases hsl : ixSlice ix ix.postIndex ((ix.numPostBlock * postBlockSize : Nat) : Int) with
    | error e => rw [hsl] at hts; simp at hts
    | ok pblocks =>
      rw [hsl] at hts
      simp only [] at hts
      by_cases hi : sortSearch ix.numPostBlock
          (fun k => decide (tri < triAt pblocks (k * postBlockSize))) = 0
      · have hfind : findListV2 ix tri = .ok (0, 0) := by
          rw [findListV2, hsl]
          simp only []
          rw [if_pos hi]
        rw [postingList, hfind]
        simp
      · have hle := sortSearch_le ix.numPostBlock
          (fun k => decide (tri < triAt pblocks (k * postBlockSize)))
        obtain ⟨tsm, htsm, hsub⟩ := blocksTris_block ix.numPostBlock pblocks ts
          (sortSearch ix.numPostBlock
            (fun k => decide (tri < triAt pblocks (k * postBlockSize))) - 1)
          hts (by omega)
        have hmem2 : tri ∉ tsm := fun hx => hmem (hsub tri hx)
        obtain ⟨o, ho⟩ := walkBlockGo_not_found tri
          ((pblocks.drop ((sortSearch ix.numPostBlock
              (fun k => decide (tri < triAt pblocks (k * postBlockSize))) - 1)
            * postBlockSize)).take postBlockSize).length
          postBlockSize
          ((pblocks.drop ((sortSearch ix.numPostBlock
              (fun k => decide (tri < triAt pblocks (k * postBlockSize))) - 1)
            * postBlockSize)).take postBlockSize)
          0 tsm (by rw [List.length_take]; omega) htsm hmem2
        have hfind : findListV2 ix tri = .ok (0, o) := by
          rw [findListV2, hsl]
          simp only []
          rw [if_neg hi]
          exact ho
        rw [postingList, hfind]
        simp
  · intro l hl
    rw [postingList] at hl
    cases hf : findListV2 ix tri with
    | error e => rw [hf] at hl; simp at hl
    | ok co =>
      rw [hf] at hl
      simp only [] at hl
      by_cases hc0 : co.1 = 0
      · rw [if_pos hc0] at hl
        simp only [Except.ok.injEq] at hl
        subst hl
        simp
      · rw [if_neg hc0] at hl
        cases hp : ixSlice ix (ix.postData + co.2 + 3) (-1) with
        | error e => rw [hp] at hl; simp at hl
        | ok pdata =>
          rw [hp] at hl
          simp only [] at hl
          exact (postCollectGo_sorted co.1 _ l hl).2

/-- A minimal version-2 index for exercising `postingList`: one
posting-index block holding the single trigram "abc" (count 2, offset
delta 0), and posting data "abc" followed by the delta-coded fileids
0 and 2 (deltas 1, 2, terminator 0). -/
def c4Ix : IndexFile :=
  { data := [97, 98, 99, 2, 0] ++ List.replicate 251 0 ++ [97, 98, 99, 5, 1],
    version := 2, pathData := 0, numPath := 0, nameData := 0,
    postData := 256, nameIndex := 0, postIndex := 0,
    numName := 0, numPost := 0, numPostBlock := 1 }

/-- C4 witness: on `c4Ix` the absent trigram 6382180 yields the empty
list, and the present trigram "abc" (6382179) yields `[0, 2]`, which is
strictly ascending. -/
theorem c4_posting_list_witness :
    postingList c4Ix 6382180 none = .ok [] ∧
    postingList c4Ix 6382179 none = .ok [0, 2] ∧
    List.Chain' (· < ·) [(0 : Int), 2] :=
  ⟨(c4_posting_list c4Ix 6382180).1 [6382179] (by decide) (by decide),
   by decide,
   (c4_posting_list c4Ix 6382179).2 [0, 2] (by decide)⟩

/-! ## C3: query evaluation (read.go `postingQuery` and friends) -/

/-- A search `Query` (query.go): `QNone`, `QAll`, and `QAnd`/`QOr` nodes
carrying a trigram set and sub-queries.  Trigram strings are represented
by their `uint32` values (`t[0]<<16 | t[1]<<8 | t[2]`, as the evaluation
loops compute them). -/
inductive Query where
  | qnone
  | qall
  | qand (tris : List Nat) (sub : List Query)
  | qor (tris : List Nat) (sub : List Query)

/-- The shared shape of the `for r.next()` loops over a `postReader`
(`postingList`, `postingAnd`, `postingOr`): fold a consumer step over the
yielded fileids, emitting output chunks, with a final chunk when the
reader is exhausted.  Fuel-compiled like `postCollectGo` (each yield
strictly decreases the remaining count). -/
def postFoldGo {σ : Type} (step : σ → Int → σ × List Int) (fin : σ → List Int) :
    Nat → PostReader → σ → Except Corrupt (List Int)
  | 0, r, s =>
    match postNextGo r.count r.fileid r.restrict r.delta with
    | .error e => .error e
    | .ok none => .ok (fin s)
    | .ok (some (v, _)) => .ok (step s v).2
  | fuel + 1, r, s =>
    match postNextGo r.count r.fileid r.restrict r.delta with
    | .error e => .error e
    | .ok none => .ok (fin s)
    | .ok (some (v, r')) =>
      match postFoldGo step fin fuel r' (step s v).1 with
      | .error e => .error e
      | .ok l => .ok ((step s v).2 ++ l)

/-- The pure denotation of such a loop on a given yield sequence. -/
def pureFold {σ : Type} (step : σ → Int → σ × List Int) (fin : σ → List Int) :
    σ → List Int → List Int
  | s, [] => fin s
  | s, v :: vs => (step s v).2 ++ pureFold step fin (step s v).1 vs

/-- The body of `Index.postingAnd`'s loop: advance the cursor over `list`
past entries below the yielded fileid and keep the fileid if it occurs in
`list`. -/
def andStep (list : List Int) (v : Int) : List Int × List Int :=
  match list.dropWhile (fun y => decide (y < v)) with
  | [] => ([], [])
  | y :: rest => if y = v then (rest, [v]) else (y :: rest, [])

/-- `Index.postingAnd` (version 2): intersect `list` with the posting
list of the trigram, under the restrict filter. -/
def postingAnd (ix : IndexFile) (list : List Int) (tri : Nat)
    (restrict : Option (List Int)) : Except Corrupt (List Int) :=
  match findListV2 ix tri with
  | .error e => .error e
  | .ok co =>
    if co.1 = 0 then .ok []
    else
      match ixSlice ix (ix.postData + co.2 + 3) (-1) with
      | .error e => .error e
      | .ok pdata =>
        postFoldGo andStep (fun _ => []) co.1 ⟨co.1, -1, restrict, ⟨pdata, 0, 0⟩⟩ list

/-- The body of `Index.postingOr`'s loop: copy entries of `list` below
the yielded fileid, emit the fileid, and skip a duplicate of it. -/
def orStep (list : List Int) (v : Int) : List Int × List Int :=
  (match list.dropWhile (fun y => decide (y < v)) with
   | [] => []
   | y :: rest => if y = v then rest else y :: rest,
   list.takeWhile (fun y => decide (y < v)) ++ [v])

/-- `Index.postingOr` (version 2): merge `list` with the posting list of
the trigram, under the restrict filter; the tail of `list` is appended
when the reader is exhausted. -/
def postingOr (ix : IndexFile) (list : List Int) (tri : Nat)
    (restrict : Option (List Int)) : Except Corrupt (List Int) :=
  match findListV2 ix tri with
  | .error e => .error e
  | .ok co =>
    if co.1 = 0 then .ok list
    else
      match ixSlice ix (ix.postData + co.2 + 3) (-1) with
      | .error e => .error e
      | .ok pdata =>
        postFoldGo orStep (fun s => s) co.1 ⟨co.1, -1, restrict, ⟨pdata, 0, 0⟩⟩ list

/-- `mergeOr` (read.go): merge two sorted lists, dropping duplicates
across the two (fuel-compiled; each step consumes one element). -/
def mergeOrGo : Nat → List Int → List Int → List Int
  | 0, _, _ => []
  | fuel + 1, l1, l2 =>
    match l1, l2 with
    | [], [] => []
    | [], y :: l2' => y :: mergeOrGo fuel [] l2'
    | x :: l1', [] => x :: mergeOrGo fuel l1' []
    | x :: l1', y :: l2' =>
      if x < y then x :: mergeOrGo fuel l1' (y :: l2')
      else if y < x then y :: mergeOrGo fuel (x :: l1') l2'
      else x :: mergeOrGo fuel l1' l2'

/-- `mergeOr` with its natural fuel. -/
def mergeOr (l1 l2 : List Int) : List Int := mergeOrGo (l1.length + l2.length) l1 l2

/-- Outcome of the two accumulation loops inside `postingQuery`'s `QAnd`
case: an early `return nil`, or the running list (`none` = Go's nil). -/
inductive AndRes where
  | done (l : List Int)
  | cont (acc : Option (List Int))

/-- The trigram loop of `postingQuery`'s `QAnd` case. -/
def qandTris (ix : IndexFile) (restrict : Option (List Int)) :
    List Nat → Option (List Int) → Except Corrupt AndRes
  | [], acc => .ok (.cont acc)
  | t :: ts, acc =>
    match (match acc with
           | none => postingList ix t restrict
           | some l => postingAnd ix l t restrict) with
    | .error e => .error e
    | .ok l' => if l' = [] then .ok (.done []) else qandTris ix restrict ts (some l')

/-- The sub-query loop of `postingQuery`'s `QAnd` case (`rec` is the
recursive evaluation of a sub-query). -/
def qandSubs (ix : IndexFile) (restrict : Option (List Int))
    (rec : Query → Option (List Int) → Except Corrupt (List Int)) :
    List Query → Option (List Int) → Except Corrupt AndRes
  | [], acc => .ok (.cont acc)
  | s :: ss, acc =>
    match rec s (match acc with | none => restrict | some l => some l) with
    | .error e => .error e
    | .ok l' => if l' = [] then .ok (.done []) else qandSubs ix restrict rec ss (some l')

/-- The trigram loop of `postingQuery`'s `QOr` case. -/
def qorTris (ix : IndexFile) (restrict : Option (List Int)) :
    List Nat → Option (List Int) → Except Corrupt (Option (List Int))
  | [], acc => .ok acc
  | t :: ts, acc =>
    match (match acc with
           | none => postingList ix t restrict
           | some l => postingOr ix l t restrict) with
    | .error e => .error e
    | .ok l' => qorTris ix restrict ts (some l')

/-- The sub-query loop of `postingQuery`'s `QOr` case. -/
def qorSubs (ix : IndexFile) (restrict : Option (List Int))
    (rec : Query → Option (List Int) → Except Corrupt (List Int)) :
    List Query → Option (List Int) → Except Corrupt (Option (List Int))
  | [], acc => .ok acc
  | s :: ss, acc =>
    match rec s restrict with
    | .error e => .error e
    | .ok l1 => qorSubs ix restrict rec ss (some (mergeOr (acc.getD []) l1))

/-- `Index.postingQuery`, fuel-compiled over the query size (a Go nil
slice is `none`; a returned nil is the empty list). -/
def postingQueryGo (ix : IndexFile) : Nat → Query → Option (List Int) →
    Except Corrupt (List Int)
  | 0, _, _ => .ok []
  | fuel + 1, q, restrict =>
    match q with
    | .qnone => .ok []
    | .qall =>
      match restrict with
      | some rl => .ok rl
      | none => .ok ((List.range ix.numName).map (Nat.cast : Nat → Int))
    | .qand tris subs =>
      match qandTris ix restrict tris none with
      | .error e => .error e
      | .ok (.done l) => .ok l
      | .ok (.cont acc) =>
        match qandSubs ix restrict (postingQueryGo ix fuel) subs acc with
        | .error e => .error e
        | .ok (.done l) => .ok l
        | .ok (.cont acc2) => .ok (acc2.getD [])
    | .qor tris subs =>
      match qorTris ix restrict tris none with
      | .error e => .error e
      | .ok acc =>
        match qorSubs ix restrict (postingQueryGo ix fuel) subs acc with
        | .error e => .error e
        | .ok acc2 => .ok (acc2.getD [])

mutual
/-- The structural size of a query, used as evaluation fuel. -/
def qsize : Query → Nat
  | .qnone => 1
  | .qall => 1
  | .qand _ subs => qsizeList subs + 1
  | .qor _ subs => qsizeList subs + 1
/-- The summed size of a list of queries. -/
def qsizeList : List Query → Nat
  | [] => 0
  | q :: qs => qsize q + qsizeList qs
end

/-- `Index.postingQuery` (`PostingQuery` passes `restrict = none`); the
structural size of the query is enough fuel. -/
def postingQuery (ix : IndexFile) (q : Query) (restrict : Option (List Int)) :
    Except Corrupt (List Int) :=
  postingQueryGo ix (qsize q) q restrict

/-- The claim's set semantics of a query, relative to the per-trigram
posting lists `pl`: NONE matches nothing, ALL matches the file IDs
`0 .. numName-1`, AND is the intersection of its trigrams' posting lists
and its sub-queries, OR the union (fuel-aligned with `postingQueryGo`). -/
def specMemGo (ix : IndexFile) (pl : Nat → List Int) :
    Nat → Query → Int → Bool
  | 0, _, _ => false
  | fuel + 1, q, v =>
    match q with
    | .qnone => false
    | .qall => decide (0 ≤ v ∧ v < (ix.numName : Int))
    | .qand tris subs =>
      tris.all (fun t => decide (v ∈ pl t)) && subs.all (fun s => specMemGo ix pl fuel s v)
    | .qor tris subs =>
      tris.any (fun t => decide (v ∈ pl t)) || subs.any (fun s => specMemGo ix pl fuel s v)

/-- Queries in which every AND node carries at least one trigram or
sub-query (fuel-aligned with `postingQueryGo`). -/
def andOKGo : Nat → Query → Bool
  | 0, _ => false
  | fuel + 1, q =>
    match q with
    | .qnone => true
    | .qall => true
    | .qand tris subs =>
      (!(tris.isEmpty && subs.isEmpty)) && subs.all (fun s => andOKGo fuel s)
    | .qor _ subs => subs.all (fun s => andOKGo fuel s)

/-- The restrict filter: `none` (Go nil) keeps everything, a list keeps
its members. -/
def rOK (restrict : Option (List Int)) (v : Int) : Prop :=
  match restrict with
  | none => True
  | some rl => v ∈ rl

/-- A version-2 index with one name and no posting data, for the C3
counterexample. -/
def c3Ix : IndexFile :=
  { data := [], version := 2, pathData := 0, numPath := 0, nameData := 0,
    postData := 0, nameIndex := 0, postIndex := 0,
    numName := 1, numPost := 0, numPostBlock := 0 }

/-- C3 counterexample: on an index with one name, the empty AND query
`QAnd{trigrams = ∅, sub = ∅}` evaluates to the empty list, although under
the claimed semantics (intersection of all its trigrams and sub-queries,
an empty intersection) file 0 matches. -/
theorem c3_empty_and_counterexample :
    postingQuery c3Ix (.qand [] []) none = .ok [] ∧
    specMemGo c3Ix (fun _ => []) (qsize (.qand [] [])) (.qand [] []) 0 = true := by
  constructor
  · rfl
  · rfl

theorem mem_dropWhile_of_not_lt (rl : List Int) (v w : Int) (hw : ¬ w < v) :
    w ∈ rl.dropWhile (fun y => decide (y < v)) ↔ w ∈ rl := by
  constructor
  · exact fun h => (List.dropWhile_sublist _).subset h
  · intro h
    rw [← List.takeWhile_append_dropWhile (p := fun y => decide (y < v)) (l := rl)] at h
    rcases List.mem_append.mp h with h1 | h2
    · have := List.mem_takeWhile_imp h1
      simp at this
      omega
    · exact h2

theorem dropWhile_head_false {α : Type} (p : α → Bool) :
    ∀ (l : List α) (y : α) (rest : List α), l.dropWhile p = y :: rest → p y = false := by
  intro l
  induction l with
  | nil => intro y rest h; simp [List.dropWhile] at h
  | cons a l ih =>
    intro y rest h
    rw [List.dropWhile] at h
    by_cases hp : p a
    · rw [hp] at h; simp at h; exact ih y rest h
    · simp [hp] at h
      obtain ⟨h1, _⟩ := h
      subst h1
      simpa using hp

theorem dropWhile_head_eq_iff (rl : List Int) (v y : Int) (rest : List Int)
    (hs : rl.Pairwise (· < ·))
    (hdw : rl.dropWhile (fun y => decide (y < v)) = y :: rest) :
    y = v ↔ v ∈ rl := by
  constructor
  · intro h
    subst h
    exact (mem_dropWhile_of_not_lt rl y y (by omega)).mp (hdw ▸ List.mem_cons_self y rest)
  · intro h
    have h2 := (mem_dropWhile_of_not_lt rl v v (by omega)).mpr h
    rw [hdw] at h2
    rcases List.mem_cons.mp h2 with h3 | h3
    · omega
    · have hpw : (y :: rest).Pairwise (· < ·) := hdw ▸ hs.sublist (List.dropWhile_sublist _)
      have hy := (List.pairwise_cons.mp hpw).1 v h3
      have hhead := dropWhile_head_false (fun z => decide (z < v)) rl y rest hdw
      simp at hhead
      omega

theorem dropWhile_nil_not_mem (rl : List Int) (v : Int)
    (hdw : rl.dropWhile (fun y => decide (y < v)) = []) : v ∉ rl := by
  intro h
  have := (mem_dropWhile_of_not_lt rl v v (by omega)).mpr h
  rw [hdw] at this
  simp at this

theorem pureFold_collect :
    ∀ raw : List Int, pureFold (fun s v => (s, [v])) (fun _ => ([] : List Int)) () raw = raw := by
  intro raw
  induction raw with
  | nil => rfl
  | cons v vs ih => rw [pureFold, ih]; rfl

theorem postCollectGo_eq_fold :
    ∀ (fuel : Nat) (r : PostReader),
      postCollectGo fuel r =
        postFoldGo (fun s v => (s, [v])) (fun _ => ([] : List Int)) fuel r () := by
  intro fuel
  induction fuel with
  | zero =>
    intro r
    rw [postCollectGo, postFoldGo]
  | succ n ih =>
    intro r
    rw [postCollectGo, postFoldGo]
    cases postNextGo r.count r.fileid r.restrict r.delta with
    | error e => rfl
    | ok o =>
      cases o with
      | none => rfl
      | some p =>
        obtain ⟨v, r'⟩ := p
        simp only []
        rw [← ih r']
        cases postCollectGo n r' <;> rfl

theorem pureFold_and :
    ∀ (raw list : List Int), raw.Pairwise (· < ·) → list.Pairwise (· < ·) →
      pureFold andStep (fun _ => []) list raw =
        raw.filter (fun v => decide (v ∈ list)) := by
  intro raw
  induction raw with
  | nil => intro list _ _; rfl
  | cons v vs ih =>
    intro list hraw hlist
    obtain ⟨hvlt, hvs⟩ := List.pairwise_cons.mp hraw
    rw [pureFold, List.filter_cons]
    cases hdw : list.dropWhile (fun y => decide (y < v)) with
    | nil =>
      have hall : ∀ x ∈ list, x < v := by
        have h2 := List.dropWhile_eq_nil_iff.mp hdw
        intro x hx
        simpa using h2 x hx
      have hvnot : v ∉ list := fun h => absurd (hall v h) (lt_irrefl v)
      rw [show andStep list v = ([], []) from by rw [andStep, hdw]]
      rw [if_neg (by simp [hvnot])]
      rw [List.nil_append, ih [] hvs List.Pairwise.nil]
      apply List.filter_congr
      intro w hw
      have hwv := hvlt w hw
      have h1 : w ∉ list := fun h => by have := hall w h; omega
      simp [h1]
    | cons y rest =>
      have hyrest : (y :: rest).Pairwise (· < ·) :=
        hdw ▸ hlist.sublist (List.dropWhile_sublist _)
      by_cases hy : y = v
      · have hvmem : v ∈ list := (dropWhile_head_eq_iff list v y rest hlist hdw).mp hy
        rw [show andStep list v = (rest, [v]) from by rw [andStep, hdw]; simp [hy]]
        rw [if_pos (decide_eq_true hvmem)]
        rw [ih rest hvs (List.pairwise_cons.mp hyrest).2]
        rw [List.singleton_append]
        congr 1
        apply List.filter_congr
        intro w hw
        have hwv := hvlt w hw
        have hiff : w ∈ rest ↔ w ∈ list := by
          rw [← mem_dropWhile_of_not_lt list v w (by omega), hdw]
          constructor
          · exact fun h => List.mem_cons_of_mem y h
          · intro h
            rcases List.mem_cons.mp h with h2 | h2
            · exfalso; rw [h2, hy] at hwv; omega
            · exact h2
        exact decide_eq_decide.mpr hiff
      · have hvnot : v ∉ list :=
          fun h => hy ((dropWhile_head_eq_iff list v y rest hlist hdw).mpr h)
        rw [show andStep list v = (y :: rest, []) from by rw [andStep, hdw]; simp [hy]]
        rw [if_neg (by simp [hvnot])]
        rw [List.nil_append, ih (y :: rest) hvs hyrest]
        apply List.filter_congr
        intro w hw
        have hwv := hvlt w hw
        have hiff : w ∈ y :: rest ↔ w ∈ list := by
          rw [← mem_dropWhile_of_not_lt list v w (by omega), hdw]
        exact decide_eq_decide.mpr hiff

theorem pureFold_or_step (v : Int) (vs list low rest2 : List Int)
    (hvlt : ∀ w ∈ vs, v < w) (_hvs : vs.Pairwise (· < ·))
    (hlowp : low.Pairwise (· < ·)) (hlowlt : ∀ w ∈ low, w < v)
    (_hr2p : rest2.Pairwise (· < ·)) (hr2gt : ∀ w ∈ rest2, v < w)
    (hsplit : ∀ w, (w ∈ list ∨ w = v) ↔ (w ∈ low ∨ w = v ∨ w ∈ rest2))
    (ihres : (pureFold orStep (fun s => s) rest2 vs).Pairwise (· < ·))
    (ihmem : ∀ w, w ∈ pureFold orStep (fun s => s) rest2 vs ↔ w ∈ rest2 ∨ w ∈ vs) :
    ((low ++ [v]) ++ pureFold orStep (fun s => s) rest2 vs).Pairwise (· < ·) ∧
    ∀ w, w ∈ (low ++ [v]) ++ pureFold orStep (fun s => s) rest2 vs ↔
      w ∈ list ∨ w ∈ v :: vs := by
  constructor
  · rw [List.pairwise_append]
    refine ⟨?_, ihres, ?_⟩
    · rw [List.pairwise_append]
      refine ⟨hlowp, List.pairwise_singleton _ _, ?_⟩
      intro a ha b hb
      simp only [List.mem_singleton] at hb
      subst hb
      exact hlowlt a ha
    · intro a ha b hb
      have hb2 := (ihmem b).mp hb
      have hbv : v < b := by rcases hb2 with h | h; exacts [hr2gt b h, hvlt b h]
      rcases List.mem_append.mp ha with h | h
      · have := hlowlt a h; omega
      · simp only [List.mem_singleton] at h; omega
  · intro w
    simp only [List.mem_append, List.mem_cons, ihmem, List.mem_singleton]
    have := hsplit w
    tauto

theorem list_split_takeWhile (list : List Int) (v w : Int) :
    w ∈ list ↔ w ∈ list.takeWhile (fun y => decide (y < v)) ∨
      w ∈ list.dropWhile (fun y => decide (y < v)) := by
  rw [← List.mem_append, List.takeWhile_append_dropWhile]

theorem pureFold_or :
    ∀ (raw list : List Int), raw.Pairwise (· < ·) → list.Pairwise (· < ·) →
      (pureFold orStep (fun s => s) list raw).Pairwise (· < ·) ∧
      ∀ w, w ∈ pureFold orStep (fun s => s) list raw ↔ w ∈ list ∨ w ∈ raw := by
  intro raw
  induction raw with
  | nil =>
    intro list _ hlist
    exact ⟨hlist, by simp [pureFold]⟩
  | cons v vs ih =>
    intro list hraw hlist
    obtain ⟨hvlt, hvs⟩ := List.pairwise_cons.mp hraw
    have hlowp : (list.takeWhile (fun y => decide (y < v))).Pairwise (· < ·) :=
      hlist.sublist (List.takeWhile_sublist _)
    have hlowlt : ∀ w ∈ list.takeWhile (fun y => decide (y < v)), w < v := by
      intro w hw
      have := List.mem_takeWhile_imp hw
      simpa using this
    cases hdw : list.dropWhile (fun y => decide (y < v)) with
    | nil =>
      have hstep : orStep list v =
          ([], list.takeWhile (fun y => decide (y < v)) ++ [v]) := by
        rw [orStep, hdw]
      obtain ⟨ihp, ihm⟩ := ih [] hvs List.Pairwise.nil
      rw [pureFold, hstep]
      exact pureFold_or_step v vs list _ [] hvlt hvs hlowp hlowlt
        List.Pairwise.nil (by simp)
        (fun w => by
          have h2 := list_split_takeWhile list v w
          rw [hdw] at h2
          simp only [List.not_mem_nil, or_false] at h2
          tauto)
        ihp ihm
    | cons y rest =>
      have hyrest : (y :: rest).Pairwise (· < ·) :=
        hdw ▸ hlist.sublist (List.dropWhile_sublist _)
      have hhead := dropWhile_head_false (fun z => decide (z < v)) list y rest hdw
      by_cases hy : y = v
      · have hstep : orStep list v =
            (rest, list.takeWhile (fun y => decide (y < v)) ++ [v]) := by
          rw [orStep, hdw]; simp [hy]
        obtain ⟨ihp, ihm⟩ := ih rest hvs (List.pairwise_cons.mp hyrest).2
        rw [pureFold, hstep]
        exact pureFold_or_step v vs list _ rest hvlt hvs hlowp hlowlt
          (List.pairwise_cons.mp hyrest).2
          (fun w hw => hy ▸ (List.pairwise_cons.mp hyrest).1 w hw)
          (fun w => by
            have h2 := list_split_takeWhile list v w
            rw [hdw] at h2
            simp only [List.mem_cons] at h2
            rw [hy] at h2
            tauto)
          ihp ihm
      · have hygt : v < y := by simp at hhead; omega
        have hstep : orStep list v =
            (y :: rest, list.takeWhile (fun y => decide (y < v)) ++ [v]) := by
          rw [orStep, hdw]; simp [hy]
        obtain ⟨ihp, ihm⟩ := ih (y :: rest) hvs hyrest
        rw [pureFold, hstep]
        exact pureFold_or_step v vs list _ (y :: rest) hvlt hvs hlowp hlowlt
          hyrest
          (fun w hw => by
            rcases List.mem_cons.mp hw with h | h
            · omega
            · have := (List.pairwise_cons.mp hyrest).1 w h; omega)
          (fun w => by
            have h2 := list_split_takeWhile list v w
            rw [hdw] at h2
            tauto)
          ihp ihm

theorem mergeOrGo_spec :
    ∀ (fuel : Nat) (l1 l2 : List Int), l1.length + l2.length ≤ fuel →
      l1.Pairwise (· < ·) → l2.Pairwise (· < ·) →
      (mergeOrGo fuel l1 l2).Pairwise (· < ·) ∧
      ∀ w, w ∈ mergeOrGo fuel l1 l2 ↔ w ∈ l1 ∨ w ∈ l2 := by
  intro fuel
  induction fuel with
  | zero =>
    intro l1 l2 hlen _ _
    have h1 : l1 = [] := List.eq_nil_of_length_eq_zero (by omega)
    have h2 : l2 = [] := List.eq_nil_of_length_eq_zero (by omega)
    subst h1; subst h2
    exact ⟨List.Pairwise.nil, by simp [mergeOrGo]⟩
  | succ n ih =>
    intro l1 l2 hlen h1 h2
    cases l1 with
    | nil =>
      cases l2 with
      | nil => exact ⟨List.Pairwise.nil, by simp [mergeOrGo]⟩
      | cons y l2' =>
        obtain ⟨hylt, hl2'⟩ := List.pairwise_cons.mp h2
        obtain ⟨ihp, ihm⟩ := ih [] l2' (by simp at hlen ⊢; omega) List.Pairwise.nil hl2'
        rw [mergeOrGo]
        constructor
        · rw [List.pairwise_cons]
          refine ⟨fun b hb => ?_, ihp⟩
          rcases (ihm b).mp hb with h | h
          · simp at h
          · exact hylt b h
        · intro w
          simp only [List.mem_cons, ihm, List.not_mem_nil]
          tauto
    | cons x l1' =>
      obtain ⟨hxlt, hl1'⟩ := List.pairwise_cons.mp h1
      cases l2 with
      | nil =>
        obtain ⟨ihp, ihm⟩ := ih l1' [] (by simp at hlen ⊢; omega) hl1' List.Pairwise.nil
        rw [mergeOrGo]
        constructor
        · rw [List.pairwise_cons]
          refine ⟨fun b hb => ?_, ihp⟩
          rcases (ihm b).mp hb with h | h
          · exact hxlt b h
          · simp at h
        · intro w
          simp only [List.mem_cons, ihm, List.not_mem_nil]
          tauto
      | cons y l2' =>
        obtain ⟨hylt, hl2'⟩ := List.pairwise_cons.mp h2
        rw [mergeOrGo]
        by_cases hxy : x < y
        · rw [if_pos hxy]
          obtain ⟨ihp, ihm⟩ := ih l1' (y :: l2') (by simp at hlen ⊢; omega) hl1' h2
          constructor
          · rw [List.pairwise_cons]
            refine ⟨fun b hb => ?_, ihp⟩
            rcases (ihm b).mp hb with h | h
            · exact hxlt b h
            · rcases List.mem_cons.mp h with h3 | h3
              · omega
              · have := hylt b h3; omega
          · intro w
            simp only [List.mem_cons, ihm]
            tauto
        · rw [if_neg hxy]
          by_cases hyx : y < x
          · rw [if_pos hyx]
            obtain ⟨ihp, ihm⟩ := ih (x :: l1') l2' (by simp at hlen ⊢; omega) h1 hl2'
            constructor
            · rw [List.pairwise_cons]
              refine ⟨fun b hb => ?_, ihp⟩
              rcases (ihm b).mp hb with h | h
              · rcases List.mem_cons.mp h with h3 | h3
                · omega
                · have := hxlt b h3; omega
              · exact hylt b h
            · intro w
              simp only [List.mem_cons, ihm]
              tauto
          · rw [if_neg hyx]
            have hxeqy : x = y := by omega
            obtain ⟨ihp, ihm⟩ := ih l1' l2' (by simp at hlen ⊢; omega) hl1' hl2'
            constructor
            · rw [List.pairwise_cons]
              refine ⟨fun b hb => ?_, ihp⟩
              rcases (ihm b).mp hb with h | h
              · exact hxlt b h
              · have := hylt b h; omega
            · intro w
              simp only [List.mem_cons, ihm]
              constructor
              · intro h; tauto
              · intro h
                rcases h with h | h
                · tauto
                · rcases h with h | h
                  · left; omega
                  · tauto

theorem postNextGo_none_cases (c : Nat) (fid : Int) (dr : DeltaReader) :
    (∃ e, postNextGo c fid none dr = .error e) ∨
    (postNextGo c fid none dr = .ok none ∧ c = 0) ∨
    (∃ d dr2, postNextGo c fid none dr =
        .ok (some (fid + d, ⟨c - 1, fid + d, none, dr2⟩)) ∧ 1 ≤ c ∧ 0 < d) := by
  cases c with
  | zero =>
    rw [postNextGo]
    cases hd : drNext2 dr with
    | none => exact .inl ⟨.corrupt, rfl⟩
    | some p =>
      obtain ⟨d, dr2⟩ := p
      by_cases h0 : d = 0
      · exact .inr (.inl ⟨by simp [h0], rfl⟩)
      · exact .inl ⟨.corrupt, by simp [h0]⟩
  | succ c2 =>
    rw [postNextGo]
    cases hd : drNext2 dr with
    | none => exact .inl ⟨.corrupt, rfl⟩
    | some p =>
      obtain ⟨d, dr2⟩ := p
      by_cases hdle : d ≤ 0
      · exact .inl ⟨.corrupt, by simp [hdle]⟩
      · exact .inr (.inr ⟨d, dr2, by simp [hdle], by omega, by omega⟩)

theorem postCollectGo_none_fuel :
    ∀ (c : Nat) (fid : Int) (dr : DeltaReader) (l : List Int) (f1 f2 : Nat),
      c ≤ f1 → c ≤ f2 →
      postCollectGo f1 ⟨c, fid, none, dr⟩ = .ok l →
      postCollectGo f2 ⟨c, fid, none, dr⟩ = .ok l := by
  intro c
  induction c with
  | zero =>
    intro fid dr l f1 f2 _ _ h
    rcases postNextGo_none_cases 0 fid dr with ⟨e, he⟩ | ⟨he, _⟩ | ⟨d, dr2, he, hc, _⟩
    · have herr : postCollectGo f1 ⟨0, fid, none, dr⟩ = .error e := by
        cases f1 <;> rw [postCollectGo, he]
      rw [herr] at h; simp at h
    · have hok : postCollectGo f1 ⟨0, fid, none, dr⟩ = .ok [] := by
        cases f1 <;> rw [postCollectGo, he]
      rw [hok] at h
      simp only [Except.ok.injEq] at h
      subst h
      cases f2 <;> rw [postCollectGo, he]
    · omega
  | succ c2 ih =>
    intro fid dr l f1 f2 h1 h2 h
    rcases postNextGo_none_cases (c2 + 1) fid dr with ⟨e, he⟩ | ⟨_, hc0⟩ | ⟨d, dr2, he, _, _⟩
    · have herr : postCollectGo f1 ⟨c2 + 1, fid, none, dr⟩ = .error e := by
        cases f1 <;> rw [postCollectGo, he]
      rw [herr] at h; simp at h
    · omega
    · obtain ⟨g1, rfl⟩ : ∃ g1, f1 = g1 + 1 := ⟨f1 - 1, by omega⟩
      obtain ⟨g2, rfl⟩ : ∃ g2, f2 = g2 + 1 := ⟨f2 - 1, by omega⟩
      rw [postCollectGo, he] at h
      simp only [] at h
      rw [postCollectGo, he]
      simp only []
      simp only [Nat.add_sub_cancel] at h ⊢
      cases hrec : postCollectGo g1 ⟨c2, fid + d, none, dr2⟩ with
      | error e => rw [hrec] at h; simp at h
      | ok l2 =>
        rw [hrec] at h
        rw [ih (fid + d) dr2 l2 g1 g2 (by omega) (by omega) hrec]
        exact h

theorem postNextGo_restrict_eq (c : Nat) (fid : Int) (dr : DeltaReader) (rl : List Int)
    (hs : rl.Pairwise (· < ·)) :
    postNextGo c fid (some rl) dr =
      match postNextGo c fid none dr with
      | .error e => .error e
      | .ok none => .ok none
      | .ok (some (v, st)) =>
        if v ∈ rl then
          .ok (some (v, ⟨st.count, v, some (rl.dropWhile (fun y => decide (y < v))), st.delta⟩))
        else
          postNextGo st.count v (some (rl.dropWhile (fun y => decide (y < v)))) st.delta := by
  cases c with
  | zero =>
    cases hd : drNext2 dr with
    | none =>
      rw [show postNextGo 0 fid none dr = .error .corrupt from by rw [postNextGo, hd]]
      rw [postNextGo, hd]
    | some p =>
      obtain ⟨d, dr2⟩ := p
      by_cases h0 : d = 0
      · rw [show postNextGo 0 fid none dr = .ok none from by rw [postNextGo, hd]; simp [h0]]
        rw [postNextGo, hd]
        simp [h0]
      · rw [show postNextGo 0 fid none dr = .error .corrupt from by
          rw [postNextGo, hd]; simp [h0]]
        rw [postNextGo, hd]
        simp [h0]
  | succ c2 =>
    cases hd : drNext2 dr with
    | none =>
      rw [show postNextGo (c2 + 1) fid none dr = .error .corrupt from by rw [postNextGo, hd]]
      rw [postNextGo, hd]
    | some p =>
      obtain ⟨d, dr2⟩ := p
      by_cases hdle : d ≤ 0
      · rw [show postNextGo (c2 + 1) fid none dr = .error .corrupt from by
          rw [postNextGo, hd]; simp [hdle]]
        rw [postNextGo, hd]
        simp [hdle]
      · have hnone : postNextGo (c2 + 1) fid none dr =
            .ok (some (fid + d, ⟨c2, fid + d, none, dr2⟩)) := by
          rw [postNextGo, hd]; simp [hdle]
        rw [hnone, postNextGo, hd]
        simp only []
        rw [if_neg hdle]
        cases hdw : rl.dropWhile (fun y => decide (y < fid + d)) with
        | nil =>
          rw [if_neg (dropWhile_nil_not_mem rl (fid + d) hdw)]
        | cons y rest =>
          simp only []
          by_cases hy : y = fid + d
          · rw [if_pos hy,
              if_pos ((dropWhile_head_eq_iff rl (fid + d) y rest hs hdw).mp hy)]
          · rw [if_neg hy,
              if_neg (fun hmem =>
                hy ((dropWhile_head_eq_iff rl (fid + d) y rest hs hdw).mpr hmem))]

theorem postFoldGo_none {σ : Type} (step : σ → Int → σ × List Int) (fin : σ → List Int) :
    ∀ (fuel c : Nat) (fid : Int) (dr : DeltaReader) (raw : List Int) (s : σ),
      c ≤ fuel →
      postCollectGo fuel ⟨c, fid, none, dr⟩ = .ok raw →
      postFoldGo step fin fuel ⟨c, fid, none, dr⟩ s = .ok (pureFold step fin s raw) := by
  intro fuel
  induction fuel with
  | zero =>
    intro c fid dr raw s hc h
    obtain rfl : c = 0 := by omega
    rcases postNextGo_none_cases 0 fid dr with ⟨e, he⟩ | ⟨he, _⟩ | ⟨d, dr2, he, hc1, _⟩
    · rw [postCollectGo, he] at h; simp at h
    · rw [postCollectGo, he] at h
      simp only [Except.ok.injEq] at h
      subst h
      rw [postFoldGo, he]
      rfl
    · omega
  | succ n ih =>
    intro c fid dr raw s hc h
    rcases postNextGo_none_cases c fid dr with ⟨e, he⟩ | ⟨he, hc0⟩ | ⟨d, dr2, he, hc1, hd⟩
    · rw [postCollectGo, he] at h; simp at h
    · rw [postCollectGo, he] at h
      simp only [Except.ok.injEq] at h
      subst h
      rw [postFoldGo, he]
      rfl
    · rw [postCollectGo, he] at h
      simp only [] at h
      cases hrec : postCollectGo n ⟨c - 1, fid + d, none, dr2⟩ with
      | error e => rw [hrec] at h; simp at h
      | ok l2 =>
        rw [hrec] at h
        simp only [Except.ok.injEq] at h
        subst h
        rw [postFoldGo, he]
        simp only []
        rw [ih (c - 1) (fid + d) dr2 l2 ((step s (fid + d)).1) (by omega) hrec]
        rw [pureFold]

theorem postFoldGo_restrict {σ : Type} (step : σ → Int → σ × List Int) (fin : σ → List Int) :
    ∀ (c fuel : Nat) (fid : Int) (dr : DeltaReader) (raw rl : List Int) (s : σ),
      c ≤ fuel →
      postCollectGo fuel ⟨c, fid, none, dr⟩ = .ok raw →
      rl.Pairwise (· < ·) →
      postFoldGo step fin fuel ⟨c, fid, some rl, dr⟩ s =
        .ok (pureFold step fin s (raw.filter (fun v => decide (v ∈ rl)))) := by
  intro c
  induction c using Nat.strong_induction_on with
  | _ c ih =>
  intro fuel fid dr raw rl s hc hcol hs
  rcases postNextGo_none_cases c fid dr with ⟨e, he⟩ | ⟨he, hc0⟩ | ⟨d, dr2, he, hc1, hd⟩
  · have herr : postCollectGo fuel ⟨c, fid, none, dr⟩ = .error e := by
      cases fuel <;> rw [postCollectGo, he]
    rw [herr] at hcol; simp at hcol
  · have hok : postCollectGo fuel ⟨c, fid, none, dr⟩ = .ok [] := by
      cases fuel <;> rw [postCollectGo, he]
    rw [hok] at hcol
    simp only [Except.ok.injEq] at hcol
    subst hcol
    have hres : postNextGo c fid (some rl) dr = .ok none := by
      rw [postNextGo_restrict_eq c fid dr rl hs, he]
    cases fuel <;> (rw [postFoldGo, hres]; rfl)
  · obtain ⟨f, rfl⟩ : ∃ f, fuel = f + 1 := ⟨fuel - 1, by omega⟩
    rw [postCollectGo, he] at hcol
    simp only [] at hcol
    cases hrec : postCollectGo f ⟨c - 1, fid + d, none, dr2⟩ with
    | error e => rw [hrec] at hcol; simp at hcol
    | ok raw2 =>
      rw [hrec] at hcol
      simp only [Except.ok.injEq] at hcol
      subst hcol
      have hgt : ∀ w ∈ raw2, fid + d < w :=
        fun w hw => (postCollectGo_sorted f ⟨c - 1, fid + d, none, dr2⟩ raw2 hrec).1 w hw
      have hrl' : (rl.dropWhile (fun y => decide (y < fid + d))).Pairwise (· < ·) :=
        hs.sublist (List.dropWhile_sublist _)
      have hfc : raw2.filter (fun v => decide (v ∈ rl)) =
          raw2.filter (fun v =>
            decide (v ∈ rl.dropWhile (fun y => decide (y < fid + d)))) :=
        List.filter_congr (fun w hw => decide_eq_decide.mpr
          (mem_dropWhile_of_not_lt rl (fid + d) w (by have := hgt w hw; omega)).symm)
      have hnext := postNextGo_restrict_eq c fid dr rl hs
      rw [he] at hnext
      simp only [] at hnext
      by_cases hmem : (fid + d) ∈ rl
      · rw [if_pos hmem] at hnext
        rw [postFoldGo]
        simp only []
        rw [hnext]
        simp only []
        rw [ih (c - 1) (by omega) f (fid + d) dr2 raw2
          (rl.dropWhile (fun y => decide (y < fid + d))) ((step s (fid + d)).1)
          (by omega) hrec hrl']
        rw [List.filter_cons, if_pos (decide_eq_true hmem), pureFold, ← hfc]
      · rw [if_neg hmem] at hnext
        have hrec2 := postCollectGo_none_fuel (c - 1) (fid + d) dr2 raw2 f (f + 1)
          (by omega) (by omega) hrec
        have hIH := ih (c - 1) (by omega) (f + 1) (fid + d) dr2 raw2
          (rl.dropWhile (fun y => decide (y < fid + d))) s (by omega) hrec2 hrl'
        rw [postFoldGo]
        simp only []
        rw [hnext]
        rw [postFoldGo] at hIH
        simp only [] at hIH
        rw [hIH]
        rw [List.filter_cons, if_neg (by simp [hmem]), ← hfc]

theorem postingList_ok_pairwise (ix : IndexFile) (tri : Nat) (rt : Option (List Int))
    (l : List Int) (h : postingList ix tri rt = .ok l) : l.Pairwise (· < ·) := by
  rw [postingList] at h
  cases hf : findListV2 ix tri with
  | error e => rw [hf] at h; simp at h
  | ok co =>
    rw [hf] at h
    simp only [] at h
    by_cases hc0 : co.1 = 0
    · rw [if_pos hc0] at h
      simp only [Except.ok.injEq] at h
      subst h
      exact List.Pairwise.nil
    · rw [if_neg hc0] at h
      cases hp : ixSlice ix (ix.postData + co.2 + 3) (-1) with
      | error e => rw [hp] at h; simp at h
      | ok pdata =>
        rw [hp] at h
        simp only [] at h
        exact List.chain'_iff_pairwise.mp (postCollectGo_sorted co.1 _ l h).2

/-- The restrict-filtered posting list: what a `postReader` over the
trigram's list yields under a given restrict. -/
def plR (lt : List Int) (rt : Option (List Int)) : List Int :=
  match rt with
  | none => lt
  | some rl => lt.filter (fun v => decide (v ∈ rl))

theorem mem_plR (lt : List Int) (rt : Option (List Int)) (w : Int) :
    w ∈ plR lt rt ↔ w ∈ lt ∧ rOK rt w := by
  cases rt with
  | none => simp [plR, rOK]
  | some rl => simp [plR, rOK, List.mem_filter]

theorem plR_pairwise (lt : List Int) (rt : Option (List Int))
    (h : lt.Pairwise (· < ·)) : (plR lt rt).Pairwise (· < ·) := by
  cases rt with
  | none => exact h
  | some rl => exact h.filter _

theorem postingList_restrict (ix : IndexFile) (tri : Nat) (lt rl : List Int)
    (hpl : postingList ix tri none = .ok lt) (hs : rl.Pairwise (· < ·)) :
    postingList ix tri (some rl) = .ok (lt.filter (fun v => decide (v ∈ rl))) := by
  rw [postingList] at hpl ⊢
  cases hf : findListV2 ix tri with
  | error e => rw [hf] at hpl; simp at hpl
  | ok co =>
    rw [hf] at hpl
    simp only [] at hpl ⊢
    by_cases hc0 : co.1 = 0
    · rw [if_pos hc0] at hpl ⊢
      simp only [Except.ok.injEq] at hpl
      subst hpl
      rfl
    · rw [if_neg hc0] at hpl ⊢
      cases hp : ixSlice ix (ix.postData + co.2 + 3) (-1) with
      | error e => rw [hp] at hpl; simp at hpl
      | ok pdata =>
        rw [hp] at hpl
        simp only [] at hpl ⊢
        rw [postCollectGo_eq_fold]
        rw [postFoldGo_restrict _ _ co.1 co.1 (-1) ⟨pdata, 0, 0⟩ lt rl ()
          le_rfl hpl hs]
        rw [pureFold_collect]

theorem postingAnd_spec (ix : IndexFile) (tri : Nat) (lt : List Int)
    (hpl : postingList ix tri none = .ok lt) :
    ∀ (list : List Int) (rt : Option (List Int)), list.Pairwise (· < ·) →
      (rt = none ∨ ∃ rl, rt = some rl ∧ rl.Pairwise (· < ·)) →
      postingAnd ix list tri rt =
        .ok ((plR lt rt).filter (fun v => decide (v ∈ list))) := by
  intro list rt hlist hrt
  have hltp : lt.Pairwise (· < ·) := postingList_ok_pairwise ix tri none lt hpl
  rw [postingList] at hpl
  rw [postingAnd]
  cases hf : findListV2 ix tri with
  | error e => rw [hf] at hpl; simp at hpl
  | ok co =>
    rw [hf] at hpl
    simp only [] at hpl ⊢
    by_cases hc0 : co.1 = 0
    · rw [if_pos hc0] at hpl ⊢
      simp only [Except.ok.injEq] at hpl
      subst hpl
      cases rt <;> rfl
    · rw [if_neg hc0] at hpl ⊢
      cases hp : ixSlice ix (ix.postData + co.2 + 3) (-1) with
      | error e => rw [hp] at hpl; simp at hpl
      | ok pdata =>
        rw [hp] at hpl
        simp only [] at hpl ⊢
        rcases hrt with rfl | ⟨rl, rfl, hrl⟩
        · rw [postFoldGo_none _ _ co.1 co.1 (-1) ⟨pdata, 0, 0⟩ lt list le_rfl hpl]
          rw [pureFold_and lt list hltp hlist]
          rfl
        · rw [postFoldGo_restrict _ _ co.1 co.1 (-1) ⟨pdata, 0, 0⟩ lt rl list
            le_rfl hpl hrl]
          rw [pureFold_and _ list (hltp.filter _) hlist]
          rfl

theorem postingOr_spec (ix : IndexFile) (tri : Nat) (lt : List Int)
    (hpl : postingList ix tri none = .ok lt) :
    ∀ (list : List Int) (rt : Option (List Int)), list.Pairwise (· < ·) →
      (rt = none ∨ ∃ rl, rt = some rl ∧ rl.Pairwise (· < ·)) →
      ∃ res, postingOr ix list tri rt = .ok res ∧ res.Pairwise (· < ·) ∧
        ∀ w, w ∈ res ↔ w ∈ list ∨ w ∈ plR lt rt := by
  intro list rt hlist hrt
  have hltp : lt.Pairwise (· < ·) := postingList_ok_pairwise ix tri none lt hpl
  rw [postingList] at hpl
  rw [postingOr]
  cases hf : findListV2 ix tri with
  | error e => rw [hf] at hpl; simp at hpl
  | ok co =>
    rw [hf] at hpl
    simp only [] at hpl ⊢
    by_cases hc0 : co.1 = 0
    · rw [if_pos hc0] at hpl ⊢
      simp only [Except.ok.injEq] at hpl
      subst hpl
      refine ⟨list, rfl, hlist, fun w => ?_⟩
      cases rt <;> simp [plR]
    · rw [if_neg hc0] at hpl ⊢
      cases hp : ixSlice ix (ix.postData + co.2 + 3) (-1) with
      | error e => rw [hp] at hpl; simp at hpl
      | ok pdata =>
        rw [hp] at hpl
        simp only [] at hpl ⊢
        rcases hrt with rfl | ⟨rl, rfl, hrl⟩
        · rw [postFoldGo_none _ _ co.1 co.1 (-1) ⟨pdata, 0, 0⟩ lt list le_rfl hpl]
          obtain ⟨hp2, hm2⟩ := pureFold_or lt list hltp hlist
          exact ⟨_, rfl, hp2, fun w => by rw [hm2 w]; rfl⟩
        · rw [postFoldGo_restrict _ _ co.1 co.1 (-1) ⟨pdata, 0, 0⟩ lt rl list
            le_rfl hpl hrl]
          obtain ⟨hp2, hm2⟩ := pureFold_or _ list (hltp.filter _) hlist
          exact ⟨_, rfl, hp2, fun w => by rw [hm2 w]; rfl⟩

/-- Invariant of a restrict argument inside `postingQuery`: Go nil, or a
strictly ascending list of in-range file IDs. -/
def RInv (ix : IndexFile) : Option (List Int) → Prop
  | none => True
  | some rl => rl.Pairwise (· < ·) ∧ ∀ v ∈ rl, 0 ≤ v ∧ v < (ix.numName : Int)

theorem RInv_cases (ix : IndexFile) (rt : Option (List Int)) (h : RInv ix rt) :
    rt = none ∨ ∃ rl, rt = some rl ∧ rl.Pairwise (· < ·) := by
  cases rt with
  | none => exact .inl rfl
  | some rl => exact .inr ⟨rl, rfl, h.1⟩

theorem postingList_plR (ix : IndexFile) (pl : Nat → List Int)
    (hpl : ∀ t, postingList ix t none = .ok (pl t))
    (rt : Option (List Int)) (hrt : RInv ix rt) (t : Nat) :
    postingList ix t rt = .ok (plR (pl t) rt) := by
  rcases RInv_cases ix rt hrt with rfl | ⟨rl, rfl, hsort⟩
  · exact hpl t
  · exact postingList_restrict ix t (pl t) rl (hpl t) hsort

/-- Invariant of the running list inside the `QAnd` loops: Go nil while
`A` still holds of everything, or a nonempty strictly ascending in-range
list whose members are exactly the restrict-filtered `A`. -/
def AccInv (ix : IndexFile) (rt : Option (List Int)) (A : Int → Prop) :
    Option (List Int) → Prop
  | none => ∀ v, A v
  | some la => la ≠ [] ∧ la.Pairwise (· < ·) ∧
      (∀ v ∈ la, 0 ≤ v ∧ v < (ix.numName : Int)) ∧
      (∀ v, v ∈ la ↔ (A v ∧ rOK rt v))

theorem qandTris_spec (ix : IndexFile) (pl : Nat → List Int)
    (hpl : ∀ t, postingList ix t none = .ok (pl t))
    (hran : ∀ t, ∀ v ∈ pl t, 0 ≤ v ∧ v < (ix.numName : Int))
    (rt : Option (List Int)) (hrt : RInv ix rt) :
    ∀ (ts : List Nat) (A : Int → Prop) (acc : Option (List Int)),
      AccInv ix rt A acc →
      ∃ out, qandTris ix rt ts acc = .ok out ∧
        ((out = .done [] ∧ ∀ v, ¬ ((A v ∧ ∀ t ∈ ts, v ∈ pl t) ∧ rOK rt v)) ∨
         (out = .cont none ∧ ts = [] ∧ acc = none) ∨
         ∃ l', out = .cont (some l') ∧
           AccInv ix rt (fun v => A v ∧ ∀ t ∈ ts, v ∈ pl t) (some l')) := by
  intro ts
  induction ts with
  | nil =>
    intro A acc hacc
    refine ⟨.cont acc, rfl, ?_⟩
    cases acc with
    | none => exact .inr (.inl ⟨rfl, rfl, rfl⟩)
    | some la =>
      obtain ⟨h1, h2, h3, h4⟩ := hacc
      exact .inr (.inr ⟨la, rfl, h1, h2, h3, fun v => by rw [h4 v]; simp⟩)
  | cons t ts ih =>
    intro A acc hacc
    have hcore : ∃ L, (match acc with
          | none => postingList ix t rt
          | some l => postingAnd ix l t rt) = .ok L ∧
        L.Pairwise (· < ·) ∧ (∀ v ∈ L, 0 ≤ v ∧ v < (ix.numName : Int)) ∧
        ∀ v, v ∈ L ↔ ((A v ∧ v ∈ pl t) ∧ rOK rt v) := by
      cases acc with
      | none =>
        refine ⟨plR (pl t) rt, postingList_plR ix pl hpl rt hrt t,
          plR_pairwise _ _ (postingList_ok_pairwise ix t none _ (hpl t)), ?_, ?_⟩
        · exact fun v hv => hran t v ((mem_plR _ _ v).mp hv).1
        · intro v
          rw [mem_plR]
          have := hacc v
          tauto
      | some la =>
        obtain ⟨h1, h2, h3, h4⟩ := hacc
        refine ⟨(plR (pl t) rt).filter (fun v => decide (v ∈ la)),
          postingAnd_spec ix t (pl t) (hpl t) la rt h2 (RInv_cases ix rt hrt), ?_, ?_, ?_⟩
        · exact (plR_pairwise _ _ (postingList_ok_pairwise ix t none _ (hpl t))).filter _
        · intro v hv
          exact hran t v ((mem_plR _ _ v).mp (List.mem_of_mem_filter hv)).1
        · intro v
          rw [List.mem_filter]
          simp only [decide_eq_true_eq]
          rw [mem_plR]
          have := h4 v
          tauto
    obtain ⟨L, hL, hLp, hLran, hLmem⟩ := hcore
    simp only [qandTris]
    rw [hL]
    simp only []
    by_cases hnil : L = []
    · rw [if_pos hnil]
      refine ⟨.done [], rfl, .inl ⟨rfl, fun v hv => ?_⟩⟩
      have hvL : v ∈ L := (hLmem v).mpr ⟨⟨hv.1.1, hv.1.2 t (by simp)⟩, hv.2⟩
      rw [hnil] at hvL
      simp at hvL
    · rw [if_neg hnil]
      obtain ⟨out, hout, hcase⟩ := ih (fun v => A v ∧ v ∈ pl t) (some L)
        ⟨hnil, hLp, hLran, hLmem⟩
      refine ⟨out, hout, ?_⟩
      rcases hcase with ⟨h1, h2⟩ | ⟨_, _, h3⟩ | ⟨l', h1, h2, h3, h4, h5⟩
      · refine .inl ⟨h1, fun v hv => h2 v ?_⟩
        refine ⟨⟨⟨hv.1.1, hv.1.2 t (by simp)⟩, fun t2 ht2 => hv.1.2 t2 (by simp [ht2])⟩, hv.2⟩
      · exact absurd h3 (by simp)
      · refine .inr (.inr ⟨l', h1, h2, h3, h4, fun v => ?_⟩)
        rw [h5 v]
        constructor
        · rintro ⟨⟨⟨hA, hmt⟩, hts⟩, hr⟩
          refine ⟨⟨hA, fun t2 ht2 => ?_⟩, hr⟩
          rcases List.mem_cons.mp ht2 with rfl | h
          exacts [hmt, hts t2 h]
        · rintro ⟨⟨hA, hall⟩, hr⟩
          exact ⟨⟨⟨hA, hall t (by simp)⟩, fun t2 ht2 => hall t2 (by simp [ht2])⟩, hr⟩

theorem qandSubs_spec (ix : IndexFile) (rt : Option (List Int)) (hrt : RInv ix rt)
    (rec : Query → Option (List Int) → Except Corrupt (List Int))
    (sem : Query → Int → Prop) :
    ∀ (ss : List Query),
      (∀ s ∈ ss, ∀ rt2, RInv ix rt2 → ∃ l, rec s rt2 = .ok l ∧
        l.Pairwise (· < ·) ∧ (∀ v ∈ l, 0 ≤ v ∧ v < (ix.numName : Int)) ∧
        ∀ v, v ∈ l ↔ (sem s v ∧ rOK rt2 v)) →
      ∀ (A : Int → Prop) (acc : Option (List Int)),
      AccInv ix rt A acc →
      ∃ out, qandSubs ix rt rec ss acc = .ok out ∧
        ((out = .done [] ∧ ∀ v, ¬ ((A v ∧ ∀ s ∈ ss, sem s v) ∧ rOK rt v)) ∨
         (out = .cont none ∧ ss = [] ∧ acc = none) ∨
         ∃ l', out = .cont (some l') ∧
           AccInv ix rt (fun v => A v ∧ ∀ s ∈ ss, sem s v) (some l')) := by
  intro ss
  induction ss with
  | nil =>
    intro _ A acc hacc
    refine ⟨.cont acc, rfl, ?_⟩
    cases acc with
    | none => exact .inr (.inl ⟨rfl, rfl, rfl⟩)
    | some la =>
      obtain ⟨h1, h2, h3, h4⟩ := hacc
      exact .inr (.inr ⟨la, rfl, h1, h2, h3, fun v => by rw [h4 v]; simp⟩)
  | cons s ss ih =>
    intro hrec A acc hacc
    have hcore : ∃ L, rec s (match acc with | none => rt | some l => some l) = .ok L ∧
        L.Pairwise (· < ·) ∧ (∀ v ∈ L, 0 ≤ v ∧ v < (ix.numName : Int)) ∧
        ∀ v, v ∈ L ↔ ((A v ∧ sem s v) ∧ rOK rt v) := by
      cases acc with
      | none =>
        obtain ⟨l1, hl1, hp1, hr1, hm1⟩ := hrec s (by simp) rt hrt
        refine ⟨l1, hl1, hp1, hr1, fun v => ?_⟩
        rw [hm1 v]
        have := hacc v
        tauto
      | some la =>
        obtain ⟨h1, h2, h3, h4⟩ := hacc
        obtain ⟨l1, hl1, hp1, hr1, hm1⟩ := hrec s (by simp) (some la) ⟨h2, h3⟩
        refine ⟨l1, hl1, hp1, hr1, fun v => ?_⟩
        rw [hm1 v]
        have h5 := h4 v
        simp only [rOK] at h5 ⊢
        tauto
    obtain ⟨L, hL, hLp, hLran, hLmem⟩ := hcore
    simp only [qandSubs]
    rw [hL]
    simp only []
    by_cases hnil : L = []
    · rw [if_pos hnil]
      refine ⟨.done [], rfl, .inl ⟨rfl, fun v hv => ?_⟩⟩
      have hvL : v ∈ L := (hLmem v).mpr ⟨⟨hv.1.1, hv.1.2 s (by simp)⟩, hv.2⟩
      rw [hnil] at hvL
      simp at hvL
    · rw [if_neg hnil]
      obtain ⟨out, hout, hcase⟩ := ih (fun s2 hs2 => hrec s2 (by simp [hs2]))
        (fun v => A v ∧ sem s v) (some L) ⟨hnil, hLp, hLran, hLmem⟩
      refine ⟨out, hout, ?_⟩
      rcases hcase with ⟨h1, h2⟩ | ⟨_, _, h3⟩ | ⟨l', h1, h2, h3, h4, h5⟩
      · refine .inl ⟨h1, fun v hv => h2 v ?_⟩
        refine ⟨⟨⟨hv.1.1, hv.1.2 s (by simp)⟩, fun s2 hs2 => hv.1.2 s2 (by simp [hs2])⟩, hv.2⟩
      · exact absurd h3 (by simp)
      · refine .inr (.inr ⟨l', h1, h2, h3, h4, fun v => ?_⟩)
        rw [h5 v]
        constructor
        · rintro ⟨⟨⟨hA, hms⟩, hss⟩, hr⟩
          refine ⟨⟨hA, fun s2 hs2 => ?_⟩, hr⟩
          rcases List.mem_cons.mp hs2 with rfl | h
          exacts [hms, hss s2 h]
        · rintro ⟨⟨hA, hall⟩, hr⟩
          exact ⟨⟨⟨hA, hall s (by simp)⟩, fun s2 hs2 => hall s2 (by simp [hs2])⟩, hr⟩

/-- Invariant of the running list inside the `QOr` loops: Go nil while
nothing satisfies `U` yet, or a strictly ascending in-range list whose
members are exactly `U`. -/
def OrInv (ix : IndexFile) (U : Int → Prop) : Option (List Int) → Prop
  | none => ∀ v, ¬ U v
  | some la => la.Pairwise (· < ·) ∧ (∀ v ∈ la, 0 ≤ v ∧ v < (ix.numName : Int)) ∧
      ∀ v, v ∈ la ↔ U v

theorem OrInv_congr (ix : IndexFile) (U1 U2 : Int → Prop) (acc : Option (List Int))
    (h : ∀ v, U1 v ↔ U2 v) (hinv : OrInv ix U1 acc) : OrInv ix U2 acc := by
  cases acc with
  | none => exact fun v hv => hinv v ((h v).mpr hv)
  | some la =>
    obtain ⟨h1, h2, h3⟩ := hinv
    exact ⟨h1, h2, fun v => (h3 v).trans (h v)⟩

theorem qorTris_spec (ix : IndexFile) (pl : Nat → List Int)
    (hpl : ∀ t, postingList ix t none = .ok (pl t))
    (hran : ∀ t, ∀ v ∈ pl t, 0 ≤ v ∧ v < (ix.numName : Int))
    (rt : Option (List Int)) (hrt : RInv ix rt) :
    ∀ (ts : List Nat) (U : Int → Prop) (acc : Option (List Int)),
      OrInv ix U acc →
      ∃ acc2, qorTris ix rt ts acc = .ok acc2 ∧
        OrInv ix (fun v => U v ∨ ∃ t ∈ ts, v ∈ pl t ∧ rOK rt v) acc2 := by
  intro ts
  induction ts with
  | nil =>
    intro U acc hacc
    exact ⟨acc, rfl, OrInv_congr ix U _ acc (fun v => by simp) hacc⟩
  | cons t ts ih =>
    intro U acc hacc
    cases acc with
    | none =>
      simp only [qorTris]
      rw [postingList_plR ix pl hpl rt hrt t]
      simp only []
      have hinv : OrInv ix (fun v => U v ∨ (v ∈ pl t ∧ rOK rt v)) (some (plR (pl t) rt)) := by
        refine ⟨plR_pairwise _ _ (postingList_ok_pairwise ix t none _ (hpl t)),
          fun v hv => hran t v ((mem_plR _ _ v).mp hv).1, fun v => ?_⟩
        rw [mem_plR]
        have := hacc v
        tauto
      obtain ⟨acc2, hrun, hinv2⟩ := ih (fun v => U v ∨ (v ∈ pl t ∧ rOK rt v))
        (some (plR (pl t) rt)) hinv
      refine ⟨acc2, hrun, OrInv_congr ix _ _ acc2 (fun v => ?_) hinv2⟩
      simp only [List.mem_cons]
      constructor
      · rintro ((h | h) | ⟨t2, h2, h3⟩)
        · exact .inl h
        · exact .inr ⟨t, .inl rfl, h⟩
        · exact .inr ⟨t2, .inr h2, h3⟩
      · rintro (h | ⟨t2, h2 | h2, h3⟩)
        · exact .inl (.inl h)
        · subst h2; exact .inl (.inr h3)
        · exact .inr ⟨t2, h2, h3⟩
    | some la =>
      obtain ⟨h1, h2, h3⟩ := hacc
      obtain ⟨res, hres, hrp, hrm⟩ := postingOr_spec ix t (pl t) (hpl t) la rt h1
        (RInv_cases ix rt hrt)
      simp only [qorTris]
      rw [hres]
      simp only []
      have hinv : OrInv ix (fun v => U v ∨ (v ∈ pl t ∧ rOK rt v)) (some res) := by
        refine ⟨hrp, fun v hv => ?_, fun v => ?_⟩
        · rcases (hrm v).mp hv with h | h
          · exact h2 v h
          · exact hran t v ((mem_plR _ _ v).mp h).1
        · rw [hrm v, h3 v, mem_plR]
      obtain ⟨acc2, hrun, hinv2⟩ := ih (fun v => U v ∨ (v ∈ pl t ∧ rOK rt v)) (some res) hinv
      refine ⟨acc2, hrun, OrInv_congr ix _ _ acc2 (fun v => ?_) hinv2⟩
      simp only [List.mem_cons]
      constructor
      · rintro ((h | h) | ⟨t2, h2, h3⟩)
        · exact .inl h
        · exact .inr ⟨t, .inl rfl, h⟩
        · exact .inr ⟨t2, .inr h2, h3⟩
      · rintro (h | ⟨t2, h2 | h2, h3⟩)
        · exact .inl (.inl h)
        · subst h2; exact .inl (.inr h3)
        · exact .inr ⟨t2, h2, h3⟩

theorem qorSubs_spec (ix : IndexFile) (rt : Option (List Int)) (_hrt : RInv ix rt)
    (rec : Query → Option (List Int) → Except Corrupt (List Int))
    (sem : Query → Int → Prop) :
    ∀ (ss : List Query),
      (∀ s ∈ ss, ∃ l, rec s rt = .ok l ∧
        l.Pairwise (· < ·) ∧ (∀ v ∈ l, 0 ≤ v ∧ v < (ix.numName : Int)) ∧
        ∀ v, v ∈ l ↔ (sem s v ∧ rOK rt v)) →
      ∀ (U : Int → Prop) (acc : Option (List Int)),
      OrInv ix U acc →
      ∃ acc2, qorSubs ix rt rec ss acc = .ok acc2 ∧
        OrInv ix (fun v => U v ∨ ∃ s ∈ ss, sem s v ∧ rOK rt v) acc2 := by
  intro ss
  induction ss with
  | nil =>
    intro _ U acc hacc
    exact ⟨acc, rfl, OrInv_congr ix U _ acc (fun v => by simp) hacc⟩
  | cons s ss ih =>
    intro hrec U acc hacc
    obtain ⟨l1, hl1, hp1, hr1, hm1⟩ := hrec s (by simp)
    simp only [qorSubs]
    rw [hl1]
    simp only []
    have haccp : (acc.getD []).Pairwise (· < ·) := by
      cases acc with
      | none => exact List.Pairwise.nil
      | some la => exact hacc.1
    obtain ⟨hmp, hmm⟩ := mergeOrGo_spec ((acc.getD []).length + l1.length)
      (acc.getD []) l1 le_rfl haccp hp1
    have hinv : OrInv ix (fun v => U v ∨ (sem s v ∧ rOK rt v))
        (some (mergeOr (acc.getD []) l1)) := by
      refine ⟨hmp, fun v hv => ?_, fun v => ?_⟩
      · rcases (hmm v).mp hv with h | h
        · cases acc with
          | none => simp at h
          | some la => exact hacc.2.1 v h
        · exact hr1 v h
      · rw [mergeOr, hmm v, hm1 v]
        cases acc with
        | none =>
          simp only [Option.getD]
          constructor
          · rintro (h | h)
            · simp at h
            · exact .inr h
          · rintro (h | h)
            · exact absurd h (hacc v)
            · exact .inr h
        | some la =>
          simp only [Option.getD]
          rw [hacc.2.2 v]
    obtain ⟨acc2, hrun, hinv2⟩ := ih (fun s2 hs2 => hrec s2 (by simp [hs2]))
      (fun v => U v ∨ (sem s v ∧ rOK rt v)) (some (mergeOr (acc.getD []) l1)) hinv
    refine ⟨acc2, hrun, OrInv_congr ix _ _ acc2 (fun v => ?_) hinv2⟩
    simp only [List.mem_cons]
    constructor
    · rintro ((h | h) | ⟨s2, h2, h3⟩)
      · exact .inl h
      · exact .inr ⟨s, .inl rfl, h⟩
      · exact .inr ⟨s2, .inr h2, h3⟩
    · rintro (h | ⟨s2, h2 | h2, h3⟩)
      · exact .inl (.inl h)
      · subst h2; exact .inl (.inr h3)
      · exact .inr ⟨s2, h2, h3⟩

theorem qsize_pos (q : Query) : 1 ≤ qsize q := by
  cases q <;> simp [qsize]

theorem qsize_le_of_mem (s : Query) : ∀ subs, s ∈ subs → qsize s ≤ qsizeList subs := by
  intro subs
  induction subs with
  | nil => intro h; simp at h
  | cons a l ih =>
    intro h
    rw [qsizeList]
    rcases List.mem_cons.mp h with rfl | h2
    · omega
    · have := ih h2; omega

theorem specMemGo_and_iff (ix : IndexFile) (pl : Nat → List Int) (fuel : Nat)
    (tris : List Nat) (subs : List Query) (v : Int) :
    specMemGo ix pl (fuel + 1) (.qand tris subs) v = true ↔
      (∀ t ∈ tris, v ∈ pl t) ∧ ∀ s ∈ subs, specMemGo ix pl fuel s v = true := by
  rw [specMemGo]
  simp [List.all_eq_true]

theorem specMemGo_or_iff (ix : IndexFile) (pl : Nat → List Int) (fuel : Nat)
    (tris : List Nat) (subs : List Query) (v : Int) :
    specMemGo ix pl (fuel + 1) (.qor tris subs) v = true ↔
      (∃ t ∈ tris, v ∈ pl t) ∨ ∃ s ∈ subs, specMemGo ix pl fuel s v = true := by
  rw [specMemGo]
  simp [List.any_eq_true]

theorem mem_range_map_iff (n : Nat) (v : Int) :
    v ∈ (List.range n).map (Nat.cast : Nat → Int) ↔ 0 ≤ v ∧ v < (n : Int) := by
  simp only [List.mem_map, List.mem_range]
  constructor
  · rintro ⟨k, hk, rfl⟩
    exact ⟨Int.natCast_nonneg k, Nat.cast_lt.mpr hk⟩
  · rintro ⟨h1, h2⟩
    exact ⟨v.toNat, by omega, Int.toNat_of_nonneg h1⟩

theorem postingQueryGo_spec (ix : IndexFile) (pl : Nat → List Int)
    (hpl : ∀ t, postingList ix t none = .ok (pl t))
    (hran : ∀ t, ∀ v ∈ pl t, 0 ≤ v ∧ v < (ix.numName : Int)) :
    ∀ (fuel : Nat) (q : Query) (rt : Option (List Int)),
      qsize q ≤ fuel → andOKGo fuel q = true → RInv ix rt →
      ∃ l, postingQueryGo ix fuel q rt = .ok l ∧ l.Pairwise (· < ·) ∧
        (∀ v ∈ l, 0 ≤ v ∧ v < (ix.numName : Int)) ∧
        ∀ v, v ∈ l ↔ (specMemGo ix pl fuel q v = true ∧ rOK rt v) := by
  intro fuel
  induction fuel with
  | zero =>
    intro q rt hq _ _
    have := qsize_pos q
    omega
  | succ fuel ih =>
    intro q rt hq hok hrt
    cases q with
    | qnone =>
      refine ⟨[], rfl, List.Pairwise.nil, by simp, fun v => ?_⟩
      simp [specMemGo]
    | qall =>
      cases rt with
      | none =>
        refine ⟨(List.range ix.numName).map (Nat.cast : Nat → Int), rfl, ?_, ?_, fun v => ?_⟩
        · exact List.pairwise_map.mpr
            ((List.pairwise_lt_range ix.numName).imp (fun h => Nat.cast_lt.mpr h))
        · intro v hv
          exact (mem_range_map_iff ix.numName v).mp hv
        · rw [specMemGo]
          simp only [rOK, and_true, decide_eq_true_eq]
          rw [mem_range_map_iff]
      | some rl =>
        refine ⟨rl, rfl, hrt.1, hrt.2, fun v => ?_⟩
        rw [specMemGo]
        simp only [rOK, decide_eq_true_eq]
        constructor
        · intro h
          exact ⟨hrt.2 v h, h⟩
        · exact fun h => h.2
    | qand tris subs =>
      rw [andOKGo] at hok
      simp only [Bool.and_eq_true] at hok
      obtain ⟨hne, hsuball⟩ := hok
      have hrec : ∀ s ∈ subs, ∀ rt2, RInv ix rt2 → ∃ l,
          postingQueryGo ix fuel s rt2 = .ok l ∧ l.Pairwise (· < ·) ∧
          (∀ v ∈ l, 0 ≤ v ∧ v < (ix.numName : Int)) ∧
          ∀ v, v ∈ l ↔ (specMemGo ix pl fuel s v = true ∧ rOK rt2 v) := by
        intro s hs rt2 hrt2
        refine ih s rt2 ?_ ?_ hrt2
        · have h1 := qsize_le_of_mem s subs hs
          rw [qsize] at hq
          omega
        · exact List.all_eq_true.mp hsuball s hs
      obtain ⟨out, hout, hcase⟩ := qandTris_spec ix pl hpl hran rt hrt tris
        (fun _ => True) none (fun _ => trivial)
      rcases hcase with ⟨hdone, hempty⟩ | ⟨hcont, htris, _⟩ | ⟨l', hcont, hacc⟩
      · subst hdone
        have hstep1 : postingQueryGo ix (fuel + 1) (.qand tris subs) rt = .ok [] := by
          rw [postingQueryGo, hout]
        refine ⟨[], hstep1, List.Pairwise.nil, by simp, fun v => ?_⟩
        simp only [List.not_mem_nil, false_iff]
        rintro ⟨hspec, hr⟩
        obtain ⟨htr, _⟩ := (specMemGo_and_iff ix pl fuel tris subs v).mp hspec
        exact hempty v ⟨⟨trivial, htr⟩, hr⟩
      · subst hcont
        subst htris
        obtain ⟨out2, hout2, hcase2⟩ := qandSubs_spec ix rt hrt
          (postingQueryGo ix fuel) (fun s v => specMemGo ix pl fuel s v = true)
          subs hrec (fun _ => True) none (fun _ => trivial)
        rcases hcase2 with ⟨hdone2, hempty2⟩ | ⟨hcont2, hsubs, _⟩ | ⟨l2, hcont2, hacc2⟩
        · subst hdone2
          have hstep1 : postingQueryGo ix (fuel + 1) (.qand [] subs) rt = .ok [] := by
            rw [postingQueryGo, hout]
            show (match qandSubs ix rt (postingQueryGo ix fuel) subs none with
              | Except.error e => Except.error e
              | Except.ok (AndRes.done l) => Except.ok l
              | Except.ok (AndRes.cont acc2) => Except.ok (acc2.getD [])) = .ok []
            rw [hout2]
          refine ⟨[], hstep1, List.Pairwise.nil, by simp, fun v => ?_⟩
          simp only [List.not_mem_nil, false_iff]
          rintro ⟨hspec, hr⟩
          obtain ⟨_, hsub⟩ := (specMemGo_and_iff ix pl fuel [] subs v).mp hspec
          exact hempty2 v ⟨⟨trivial, hsub⟩, hr⟩
        · subst hsubs
          simp at hne
        · subst hcont2
          obtain ⟨hne2, hp2, hr2, hm2⟩ := hacc2
          have hstep1 : postingQueryGo ix (fuel + 1) (.qand [] subs) rt = .ok l2 := by
            rw [postingQueryGo, hout]
            show (match qandSubs ix rt (postingQueryGo ix fuel) subs none with
              | Except.error e => Except.error e
              | Except.ok (AndRes.done l) => Except.ok l
              | Except.ok (AndRes.cont acc2) => Except.ok (acc2.getD [])) = .ok l2
            rw [hout2]
            rfl
          refine ⟨l2, hstep1, hp2, hr2, fun v => ?_⟩
          rw [hm2 v, specMemGo_and_iff]
          constructor
          · rintro ⟨⟨_, hsub⟩, hr⟩
            exact ⟨⟨by simp, hsub⟩, hr⟩
          · rintro ⟨⟨_, hsub⟩, hr⟩
            exact ⟨⟨trivial, hsub⟩, hr⟩
      · subst hcont
        obtain ⟨out2, hout2, hcase2⟩ := qandSubs_spec ix rt hrt
          (postingQueryGo ix fuel) (fun s v => specMemGo ix pl fuel s v = true)
          subs hrec (fun v => True ∧ ∀ t ∈ tris, v ∈ pl t) (some l') hacc
        rcases hcase2 with ⟨hdone2, hempty2⟩ | ⟨_, _, habs⟩ | ⟨l2, hcont2, hacc2⟩
        · subst hdone2
          have hstep1 : postingQueryGo ix (fuel + 1) (.qand tris subs) rt = .ok [] := by
            rw [postingQueryGo, hout]
            show (match qandSubs ix rt (postingQueryGo ix fuel) subs (some l') with
              | Except.error e => Except.error e
              | Except.ok (AndRes.done l) => Except.ok l
              | Except.ok (AndRes.cont acc2) => Except.ok (acc2.getD [])) = .ok []
            rw [hout2]
          refine ⟨[], hstep1, List.Pairwise.nil, by simp, fun v => ?_⟩
          simp only [List.not_mem_nil, false_iff]
          rintro ⟨hspec, hr⟩
          obtain ⟨htr, hsub⟩ := (specMemGo_and_iff ix pl fuel tris subs v).mp hspec
          exact hempty2 v ⟨⟨⟨trivial, htr⟩, hsub⟩, hr⟩
        · exact absurd habs (by simp)
        · subst hcont2
          obtain ⟨hne2, hp2, hr2, hm2⟩ := hacc2
          have hstep1 : postingQueryGo ix (fuel + 1) (.qand tris subs) rt = .ok l2 := by
            rw [postingQueryGo, hout]
            show (match qandSubs ix rt (postingQueryGo ix fuel) subs (some l') with
              | Except.error e => Except.error e
              | Except.ok (AndRes.done l) => Except.ok l
              | Except.ok (AndRes.cont acc2) => Except.ok (acc2.getD [])) = .ok l2
            rw [hout2]
            rfl
          refine ⟨l2, hstep1, hp2, hr2, fun v => ?_⟩
          rw [hm2 v, specMemGo_and_iff]
          constructor
          · rintro ⟨⟨⟨_, htr⟩, hsub⟩, hr⟩
            exact ⟨⟨htr, hsub⟩, hr⟩
          · rintro ⟨⟨htr, hsub⟩, hr⟩
            exact ⟨⟨⟨trivial, htr⟩, hsub⟩, hr⟩
    | qor tris subs =>
      rw [andOKGo] at hok
      have hrec : ∀ s ∈ subs, ∃ l,
          postingQueryGo ix fuel s rt = .ok l ∧ l.Pairwise (· < ·) ∧
          (∀ v ∈ l, 0 ≤ v ∧ v < (ix.numName : Int)) ∧
          ∀ v, v ∈ l ↔ (specMemGo ix pl fuel s v = true ∧ rOK rt v) := by
        intro s hs
        refine ih s rt ?_ ?_ hrt
        · have h1 := qsize_le_of_mem s subs hs
          rw [qsize] at hq
          omega
        · exact List.all_eq_true.mp hok s hs
      obtain ⟨acc2, hrun, hinv⟩ := qorTris_spec ix pl hpl hran rt hrt tris
        (fun _ => False) none (fun _ h => h)
      obtain ⟨acc3, hrun2, hinv2⟩ := qorSubs_spec ix rt hrt
        (postingQueryGo ix fuel) (fun s v => specMemGo ix pl fuel s v = true)
        subs hrec _ acc2 hinv
      have hstep1 : postingQueryGo ix (fuel + 1) (.qor tris subs) rt =
          .ok (acc3.getD []) := by
        rw [postingQueryGo, hrun]
        show (match qorSubs ix rt (postingQueryGo ix fuel) subs acc2 with
          | Except.error e => Except.error e
          | Except.ok acc3 => Except.ok (acc3.getD [])) = .ok (acc3.getD [])
        rw [hrun2]
      cases acc3 with
      | none =>
        refine ⟨[], hstep1, List.Pairwise.nil, by simp, fun v => ?_⟩
        simp only [List.not_mem_nil, false_iff]
        rintro ⟨hspec, hr⟩
        rcases (specMemGo_or_iff ix pl fuel tris subs v).mp hspec with ⟨t, ht, hm⟩ | ⟨s, hs, hm⟩
        · exact hinv2 v (.inl (.inr ⟨t, ht, hm, hr⟩))
        · exact hinv2 v (.inr ⟨s, hs, hm, hr⟩)
      | some la =>
        obtain ⟨hp2, hr2, hm2⟩ := hinv2
        refine ⟨la, hstep1, hp2, hr2, fun v => ?_⟩
        rw [hm2 v, specMemGo_or_iff]
        constructor
        · rintro ((h | ⟨t, ht, hm, hr⟩) | ⟨s, hs, hm, hr⟩)
          · exact absurd h (by simp)
          · exact ⟨.inl ⟨t, ht, hm⟩, hr⟩
          · exact ⟨.inr ⟨s, hs, hm⟩, hr⟩
        · rintro ⟨⟨t, ht, hm⟩ | ⟨s, hs, hm⟩, hr⟩
          · exact .inl (.inr ⟨t, ht, hm, hr⟩)
          · exact .inr ⟨s, hs, hm, hr⟩


/-- C3 (amended): `postingQuery` evaluation.  Provided every posting list
of the index reads cleanly as `pl` with in-range file IDs, and every AND
node of the query carries at least one trigram or sub-query, evaluation
returns a strictly ascending list whose members are exactly the file IDs
satisfying the query's set semantics (NONE = nothing, ALL = all files,
AND = intersection, OR = duplicate-free union), filtered by the restrict
set; in particular the restrict parameter only ever filters results.  The
frozen claim is falsified by `c3_empty_and_counterexample`: an AND node
with no trigrams and no sub-queries returns the empty list, not the full
file-ID list that the intersection semantics prescribes. -/
theorem c3_posting_query (ix : IndexFile) (pl : Nat → List Int)
    (hpl : ∀ t, postingList ix t none = .ok (pl t))
    (hran : ∀ t, ∀ v ∈ pl t, 0 ≤ v ∧ v < (ix.numName : Int))
    (q : Query) (hq : andOKGo (qsize q) q = true)
    (rt : Option (List Int)) (hrt : RInv ix rt) :
    ∃ l, postingQuery ix q rt = .ok l ∧ l.Pairwise (· < ·) ∧
      ∀ v : Int, v ∈ l ↔
        (specMemGo ix pl (qsize q) q v = true ∧ rOK rt v) := by
  obtain ⟨l, h1, h2, _, h4⟩ :=
    postingQueryGo_spec ix pl hpl hran (qsize q) q rt le_rfl hq hrt
  exact ⟨l, h1, h2, h4⟩

/-- C3 witness: the amended theorem at a concrete index (one name, no
posting data) and the query `OR{∅, [ALL, NONE]}`. -/
theorem c3_posting_query_witness :
    ∃ l, postingQuery c3Ix (.qor [] [.qall, .qnone]) none = .ok l ∧
      l.Pairwise (· < ·) ∧
      ∀ v : Int, v ∈ l ↔
        (specMemGo c3Ix (fun _ => []) (qsize (.qor [] [.qall, .qnone]))
          (.qor [] [.qall, .qnone]) v = true ∧ rOK none v) :=
  c3_posting_query c3Ix (fun _ => []) (fun _ => rfl) (by simp)
    (.qor [] [.qall, .qnone]) (by decide) none trivial

/-! ## C6: per-file skip conditions (read_test.go `IndexWriter.add`) -/

/-- `maxFileLen` (read_test.go): files longer than this are skipped. -/
def maxFileLen : Nat := 2 ^ 30

/-- `maxLineLen` (read_test.go): files with a longer line are skipped. -/
def maxLineLen : Nat := 2000

/-- `maxTextTrigrams` (read_test.go): files with more distinct trigrams
are skipped. -/
def maxTextTrigrams : Nat := 20000

/-- `validUTF8` (read_test.go): whether the byte pair `c1, c2` can occur
in valid UTF-8 encoded text. -/
def validUTF8 (c1 c2 : Nat) : Bool :=
  if c1 < 0x80 then decide (c2 < 0x80) || (decide (0xc0 ≤ c2) && decide (c2 < 0xf8))
  else if c1 < 0xc0 then decide (c2 < 0xf8)
  else if c1 < 0xf8 then decide (0x80 ≤ c2) && decide (c2 < 0xc0)
  else false

/-- Modelled from the spec: the sparse integer set (§4.1) enumerates its
elements in insertion order, so adding to it is modelled as appending to
a duplicate-free list unless already present (`sparse.Set.Add`). -/
def sparseAdd (s : List Nat) (x : Nat) : List Nat := if x ∈ s then s else s ++ [x]

/-- One step of the 24-bit rolling trigram value of `IndexWriter.add`:
`tv = (tv<<8)&(1<<24-1); tv |= uint32(c)`. -/
def tvStep (tv c : Nat) : Nat := ((tv <<< 8) &&& (2 ^ 24 - 1)) ||| c % 256

/-- One step of the line-length counter: reset after a newline. -/
def runStep (linelen c : Nat) : Nat := if c % 256 = 10 then 0 else linelen + 1

/-- The byte-scanning loop of `IndexWriter.add`: roll the trigram, add it
to the set from the third byte on, and stop with `none` (skip) on a NUL
byte, an invalid UTF-8 pair, a too-long file or a too-long line; at end
of file, skip if the set has too many distinct trigrams, else return the
set. -/
def addGo : Bytes → Nat → Nat → Nat → List Nat → Option (List Nat)
  | [], _, _, _, tris => if maxTextTrigrams < tris.length then none else some tris
  | c :: rest, tv, n, linelen, tris =>
    if c % 256 = 0 then none
    else if validUTF8 ((tvStep tv c >>> 8) &&& 0xFF) (tvStep tv c &&& 0xFF) = false then none
    else if maxFileLen < n + 1 then none
    else if maxLineLen < linelen + 1 then none
    else addGo rest (tvStep tv c) (n + 1) (runStep linelen c)
      (if 3 ≤ n + 1 then sparseAdd tris (tvStep tv c) else tris)

/-- `IndexWriter.add`'s scan of a whole file content: `none` means the
file is skipped, `some tris` that it is indexed with trigram set `tris`
(in insertion order). -/
def ixAdd (content : Bytes) : Option (List Nat) := addGo content 0 0 0 []

/-- The byte value at index `i` (0 out of range, masked to a byte). -/
def byteAt (b : Bytes) (i : Nat) : Nat := b.getD i 0 % 256

/-- The byte preceding index `i` (0 before the start of the file, as the
rolling trigram value starts at zero). -/
def prevByte (b : Bytes) (i : Nat) : Nat := if i = 0 then 0 else byteAt b (i - 1)

/-- The rolling trigram value after scanning `b`. -/
def tvOf (b : Bytes) : Nat := b.foldl tvStep 0

/-- The line-length counter after scanning `b`. -/
def curRun (b : Bytes) : Nat := b.foldl runStep 0

/-- The trigram-set state `(tv, n, set)` after scanning `b`. -/
def triState (b : Bytes) : Nat × Nat × List Nat :=
  b.foldl (fun s c =>
    (tvStep s.1 c, s.2.1 + 1,
      if 3 ≤ s.2.1 + 1 then sparseAdd s.2.2 (tvStep s.1 c) else s.2.2)) (0, 0, [])

/-- The distinct trigrams of `b` in insertion order. -/
def scanTris (b : Bytes) : List Nat := (triState b).2.2

/-- The trigram values of all three-byte windows of `b`. -/
def contentTris (b : Bytes) : List Nat :=
  (List.range (b.length - 2)).map (fun i => triAt b i)

/-- `IndexWriter.add` as a state transformer on the writer: a skipped
file leaves the name list and posting entries unchanged (and indexing
continues); an indexed file is assigned the next file ID by `addName`
and appends one posting entry `makePostEntry(trigram, fileid)` per
distinct trigram.  `none` models `log.Fatal` (empty name, or 2^40
files). -/
def writerAdd (st : AddNameState) (post : List Nat) (name : Bytes) (content : Bytes) :
    Option (AddNameState × List Nat) :=
  match ixAdd content with
  | none => some (st, post)
  | some tris =>
    match addName st name with
    | .error _ => none
    | .ok (fileid, st2) =>
      if 0 < fileid >>> 40 then none
      else some (st2, post ++ tris.map (fun t => (t % 2 ^ 32) <<< 40 ||| fileid))

theorem tvStep_eq (tv c : Nat) : tvStep tv c = tv % 2 ^ 16 * 256 + c % 256 := by
  unfold tvStep
  rw [Nat.shiftLeft_eq, Nat.and_pow_two_sub_one_eq_mod]
  have h1 : tv * 2 ^ 8 % 2 ^ 24 = tv % 2 ^ 16 * 2 ^ 8 := by
    rw [show (2:Nat) ^ 24 = 2 ^ 16 * 2 ^ 8 by norm_num, Nat.mul_mod_mul_right]
  rw [h1, show tv % 2 ^ 16 * 2 ^ 8 = (tv % 2 ^ 16) <<< 8 by rw [Nat.shiftLeft_eq],
    Nat.lor_comm, lor_disjoint (c % 256) (tv % 2 ^ 16) 8 (by omega)]
  ring

theorem tvStep_lo (tv c : Nat) : tvStep tv c &&& 0xFF = c % 256 := by
  show tvStep tv c &&& (2 ^ 8 - 1) = c % 256
  rw [Nat.and_pow_two_sub_one_eq_mod, tvStep_eq]
  omega

theorem tvStep_hi (tv c : Nat) : tvStep tv c >>> 8 &&& 0xFF = tv % 256 := by
  show tvStep tv c >>> 8 &&& (2 ^ 8 - 1) = tv % 256
  rw [Nat.and_pow_two_sub_one_eq_mod, Nat.shiftRight_eq_div_pow, tvStep_eq]
  omega

theorem tvStep3 (T x y z : Nat) :
    tvStep (tvStep (tvStep T x) y) z = x % 256 * 65536 + y % 256 * 256 + z % 256 := by
  simp only [tvStep_eq]
  omega

theorem triAt_eq (b : Bytes) (i : Nat) :
    triAt b i = byteAt b i * 65536 + byteAt b (i + 1) * 256 + byteAt b (i + 2) := by
  unfold triAt byteAt
  set x := b.getD i 0 % 256 with hx
  set y := b.getD (i + 1) 0 % 256 with hy
  set z := b.getD (i + 2) 0 % 256 with hz
  have hx2 : x < 256 := by rw [hx]; omega
  have hy2 : y < 256 := by rw [hy]; omega
  have hz2 : z < 256 := by rw [hz]; omega
  have h1 : x <<< 16 ||| y <<< 8 = y <<< 8 + x * 2 ^ 16 := by
    rw [Nat.lor_comm]
    exact lor_disjoint (y <<< 8) x 16 (by rw [Nat.shiftLeft_eq]; omega)
  rw [h1, Nat.shiftLeft_eq,
    show y * 2 ^ 8 + x * 2 ^ 16 = (y + x * 256) <<< 8 by rw [Nat.shiftLeft_eq]; ring,
    Nat.lor_comm, lor_disjoint z (y + x * 256) 8 hz2]
  ring

theorem tvOf_append (b : Bytes) (c : Nat) : tvOf (b ++ [c]) = tvStep (tvOf b) c := by
  unfold tvOf
  rw [List.foldl_append]
  rfl

theorem curRun_append (b : Bytes) (c : Nat) : curRun (b ++ [c]) = runStep (curRun b) c := by
  unfold curRun
  rw [List.foldl_append]
  rfl

theorem triState_append (b : Bytes) (c : Nat) :
    triState (b ++ [c]) =
      (tvStep (triState b).1 c, (triState b).2.1 + 1,
        if 3 ≤ (triState b).2.1 + 1 then sparseAdd (triState b).2.2 (tvStep (triState b).1 c)
        else (triState b).2.2) := by
  unfold triState
  rw [List.foldl_append]
  rfl

theorem triState_fst (b : Bytes) : (triState b).1 = tvOf b := by
  induction b using List.reverseRecOn with
  | nil => rfl
  | append_singleton b c ih => rw [triState_append, tvOf_append, ih]

theorem triState_len (b : Bytes) : (triState b).2.1 = b.length := by
  induction b using List.reverseRecOn with
  | nil => rfl
  | append_singleton b c ih => rw [triState_append]; simp [ih]

theorem byteAt_append_lt (b r : Bytes) (i : Nat) (h : i < b.length) :
    byteAt (b ++ r) i = byteAt b i := by
  unfold byteAt
  rw [List.getD_append _ _ _ _ h]

theorem byteAt_append_self (b r : Bytes) (c : Nat) :
    byteAt (b ++ c :: r) b.length = c % 256 := by
  unfold byteAt
  rw [List.getD_append_right _ _ _ _ (Nat.le_refl _), Nat.sub_self]
  rfl

theorem tvOf_mod_256 (b r : Bytes) : tvOf b % 256 = prevByte (b ++ r) b.length := by
  induction b using List.reverseRecOn with
  | nil => rfl
  | append_singleton b c ih =>
    rw [tvOf_append, tvStep_eq]
    unfold prevByte
    rw [if_neg (by simp), List.append_assoc, List.singleton_append]
    simp only [List.length_append, List.length_singleton, Nat.add_sub_cancel]
    rw [byteAt_append_self]
    omega

theorem mem_sparseAdd (s : List Nat) (x t : Nat) :
    t ∈ sparseAdd s x ↔ t = x ∨ t ∈ s := by
  unfold sparseAdd
  split
  · constructor
    · exact fun h => Or.inr h
    · rintro (rfl | h) <;> assumption
  · simp [or_comm]

theorem sparseAdd_nodup (s : List Nat) (x : Nat) (h : s.Nodup) : (sparseAdd s x).Nodup := by
  unfold sparseAdd
  split
  · exact h
  · next hx => simp [List.nodup_append, h, hx]

theorem scanTris_nodup (b : Bytes) : (scanTris b).Nodup := by
  unfold scanTris
  induction b using List.reverseRecOn with
  | nil => exact List.nodup_nil
  | append_singleton b c ih =>
    rw [triState_append]
    dsimp only
    split
    · exact sparseAdd_nodup _ _ ih
    · exact ih

theorem take_append_left (b r : Bytes) : (b ++ r).take b.length = b := by
  rw [List.take_append_of_le_length (Nat.le_refl _), List.take_length]

theorem mem_scanTris (b : Bytes) (t : Nat) :
    t ∈ scanTris b ↔ ∃ k, 3 ≤ k ∧ k ≤ b.length ∧ t = tvOf (b.take k) := by
  unfold scanTris
  induction b using List.reverseRecOn with
  | nil =>
    constructor
    · intro h; exact absurd h (by simp [triState])
    · rintro ⟨k, hk3, hkl, _⟩; simp at hkl; omega
  | append_singleton b c ih =>
    rw [triState_append]
    dsimp only
    rw [triState_len, triState_fst]
    by_cases h3 : 3 ≤ b.length + 1
    · rw [if_pos h3, mem_sparseAdd]
      constructor
      · rintro (rfl | hm)
        · refine ⟨b.length + 1, h3, by simp, ?_⟩
          rw [show b.length + 1 = (b ++ [c]).length by simp, List.take_length, tvOf_append]
        · obtain ⟨k, hk3, hkl, ht⟩ := ih.mp hm
          exact ⟨k, hk3, by simp; omega,
            by rw [List.take_append_of_le_length hkl]; exact ht⟩
      · rintro ⟨k, hk3, hkl, ht⟩
        simp only [List.length_append, List.length_singleton] at hkl
        rcases Nat.lt_or_ge k (b.length + 1) with hlt | hge
        · right
          apply ih.mpr
          refine ⟨k, hk3, by omega, ?_⟩
          rw [List.take_append_of_le_length (by omega)] at ht
          exact ht
        · left
          have hk : k = b.length + 1 := by omega
          subst hk
          rw [show b.length + 1 = (b ++ [c]).length by simp, List.take_length,
            tvOf_append] at ht
          exact ht
    · rw [if_neg h3]
      rw [ih]
      constructor
      · rintro ⟨k, hk3, hkl, ht⟩
        exact ⟨k, hk3, by simp; omega,
          by rw [List.take_append_of_le_length hkl]; exact ht⟩
      · rintro ⟨k, hk3, hkl, _⟩
        simp only [List.length_append, List.length_singleton] at hkl
        exact absurd hk3 (by omega)

theorem tvOf_take (b : Bytes) (i : Nat) (h : i + 3 ≤ b.length) :
    tvOf (b.take (i + 3)) = triAt b i := by
  have h0 : i < b.length := by omega
  have h1 : i + 1 < b.length := by omega
  have h2 : i + 2 < b.length := by omega
  have e2 : b.take (i + 3) = b.take (i + 2) ++ [b[i + 2]] := by
    rw [show i + 3 = i + 2 + 1 from rfl, List.take_succ, List.getElem?_eq_getElem h2]
    simp
  have e1 : b.take (i + 2) = b.take (i + 1) ++ [b[i + 1]] := by
    rw [show i + 2 = i + 1 + 1 from rfl, List.take_succ, List.getElem?_eq_getElem h1]
    simp
  have e0 : b.take (i + 1) = b.take i ++ [b[i]] := by
    rw [List.take_succ, List.getElem?_eq_getElem h0]
    simp
  rw [e2, tvOf_append, e1, tvOf_append, e0, tvOf_append, tvStep3, triAt_eq]
  unfold byteAt
  rw [List.getD_eq_getElem _ _ h0, List.getD_eq_getElem _ _ h1, List.getD_eq_getElem _ _ h2]

theorem mem_contentTris (b : Bytes) (t : Nat) :
    t ∈ contentTris b ↔ ∃ i, i + 3 ≤ b.length ∧ t = triAt b i := by
  unfold contentTris
  simp only [List.mem_map, List.mem_range]
  constructor
  · rintro ⟨i, hi, rfl⟩; exact ⟨i, by omega, rfl⟩
  · rintro ⟨i, hi, rfl⟩; exact ⟨i, by omega, rfl⟩

theorem mem_scanTris_contentTris (b : Bytes) (t : Nat) :
    t ∈ scanTris b ↔ t ∈ contentTris b := by
  rw [mem_scanTris, mem_contentTris]
  constructor
  · rintro ⟨k, hk3, hkl, rfl⟩
    refine ⟨k - 3, by omega, ?_⟩
    rw [← tvOf_take b (k - 3) (by omega)]
    congr 2
    omega
  · rintro ⟨i, hi, rfl⟩
    exact ⟨i + 3, by omega, hi, (tvOf_take b i hi).symm⟩

/-- The scan of `IndexWriter.add` aborts (skips the file) at byte `i`:
the byte is NUL, or together with its predecessor it cannot occur in
valid UTF-8, or the file or the current line has grown too long. -/
def posBad (b : Bytes) (i : Nat) : Prop :=
  byteAt b i = 0 ∨
  validUTF8 (prevByte b i) (byteAt b i) = false ∨
  maxFileLen < i + 1 ∨
  maxLineLen < curRun (b.take i) + 1

theorem addGo_spec (rest : Bytes) : ∀ b : Bytes,
    (addGo rest (tvOf b) b.length (curRun b) (triState b).2.2 = none ↔
      (∃ i, b.length ≤ i ∧ i < (b ++ rest).length ∧ posBad (b ++ rest) i) ∨
      maxTextTrigrams < (triState (b ++ rest)).2.2.length) ∧
    (∀ out, addGo rest (tvOf b) b.length (curRun b) (triState b).2.2 = some out →
      out = (triState (b ++ rest)).2.2) := by
  induction rest with
  | nil =>
    intro b
    rw [List.append_nil]
    constructor
    · rw [addGo]
      by_cases hc : maxTextTrigrams < (triState b).2.2.length
      · rw [if_pos hc]
        simp only [true_iff, hc, or_true]
      · rw [if_neg hc]
        constructor
        · intro h; exact absurd h (by simp)
        · rintro (⟨i, h1, h2, _⟩ | h)
          · omega
          · exact absurd h hc
    · intro out hout
      rw [addGo] at hout
      by_cases hc : maxTextTrigrams < (triState b).2.2.length
      · rw [if_pos hc] at hout; exact absurd hout (by simp)
      · rw [if_neg hc] at hout
        exact (Option.some.injEq _ _ ▸ hout).symm
  | cons c rest ih =>
    intro b
    have hful : b ++ c :: rest = (b ++ [c]) ++ rest := by
      rw [List.append_assoc]; rfl
    have hb0 : byteAt (b ++ c :: rest) b.length = c % 256 := byteAt_append_self b rest c
    have hprev : prevByte (b ++ c :: rest) b.length = tvOf b % 256 :=
      (tvOf_mod_256 b (c :: rest)).symm
    have htake : (b ++ c :: rest).take b.length = b := take_append_left b (c :: rest)
    have hstep : addGo (c :: rest) (tvOf b) b.length (curRun b) (triState b).2.2 =
        (if c % 256 = 0 then none
        else if validUTF8 (tvOf b % 256) (c % 256) = false then none
        else if maxFileLen < b.length + 1 then none
        else if maxLineLen < curRun b + 1 then none
        else addGo rest (tvOf (b ++ [c])) (b ++ [c]).length (curRun (b ++ [c]))
          (triState (b ++ [c])).2.2) := by
      rw [addGo, tvStep_hi, tvStep_lo, tvOf_append, curRun_append, triState_append]
      dsimp only
      rw [triState_len, triState_fst]
      simp [List.length_append]
    by_cases hbad : posBad (b ++ c :: rest) b.length
    · -- the scan aborts at this byte
      have hnone : addGo (c :: rest) (tvOf b) b.length (curRun b) (triState b).2.2 = none := by
        rw [hstep]
        rcases hbad with h | h | h | h
        · rw [hb0] at h; rw [if_pos h]
        · rw [hb0, hprev] at h
          by_cases h0 : c % 256 = 0
          · rw [if_pos h0]
          · rw [if_neg h0, if_pos h]
        · by_cases h0 : c % 256 = 0
          · rw [if_pos h0]
          · rw [if_neg h0]
            by_cases h1 : validUTF8 (tvOf b % 256) (c % 256) = false
            · rw [if_pos h1]
            · rw [if_neg h1, if_pos h]
        · rw [htake] at h
          by_cases h0 : c % 256 = 0
          · rw [if_pos h0]
          · rw [if_neg h0]
            by_cases h1 : validUTF8 (tvOf b % 256) (c % 256) = false
            · rw [if_pos h1]
            · rw [if_neg h1]
              by_cases h2 : maxFileLen < b.length + 1
              · rw [if_pos h2]
              · rw [if_neg h2, if_pos h]
      constructor
      · rw [hnone]
        simp only [true_iff]
        exact Or.inl ⟨b.length, Nat.le_refl _, by simp, hbad⟩
      · intro out hout
        rw [hnone] at hout
        exact absurd hout (by simp)
    · -- no abort here: all four checks are false
      have hc0 : ¬(c % 256 = 0) := fun h => hbad (Or.inl (hb0 ▸ h))
      have hc1 : ¬(validUTF8 (tvOf b % 256) (c % 256) = false) := fun h =>
        hbad (Or.inr (Or.inl (by rw [hb0, hprev]; exact h)))
      have hc2 : ¬(maxFileLen < b.length + 1) := fun h => hbad (Or.inr (Or.inr (Or.inl h)))
      have hc3 : ¬(maxLineLen < curRun b + 1) := fun h =>
        hbad (Or.inr (Or.inr (Or.inr (by rw [htake]; exact h))))
      have hrec : addGo (c :: rest) (tvOf b) b.length (curRun b) (triState b).2.2 =
          addGo rest (tvOf (b ++ [c])) (b ++ [c]).length (curRun (b ++ [c]))
            (triState (b ++ [c])).2.2 := by
        rw [hstep, if_neg hc0, if_neg hc1, if_neg hc2, if_neg hc3]
      obtain ⟨ih1, ih2⟩ := ih (b ++ [c])
      constructor
      · rw [hrec, ih1, ← hful]
        constructor
        · rintro (⟨i, h1, h2, h3⟩ | h)
          · exact Or.inl ⟨i, by simp at h1 ⊢; omega, h2, h3⟩
          · exact Or.inr h
        · rintro (⟨i, h1, h2, h3⟩ | h)
          · rcases Nat.eq_or_lt_of_le h1 with heq | hlt
            · exact absurd (heq ▸ h3) hbad
            · exact Or.inl ⟨i, by simp; omega, h2, h3⟩
          · exact Or.inr h
      · intro out hout
        rw [hrec] at hout
        rw [hful]
        exact ih2 out hout

/-- The five per-file skip conditions of the claim, stated over the
content alone: a NUL byte, a byte pair impossible in valid UTF-8, a file
longer than `maxFileLen`, a line longer than `maxLineLen`, or more than
`maxTextTrigrams` distinct trigrams. -/
def skipContent (b : Bytes) : Prop :=
  (∃ cb ∈ b, cb % 256 = 0) ∨
  (∃ i, i < b.length ∧ validUTF8 (prevByte b i) (byteAt b i) = false) ∨
  maxFileLen < b.length ∨
  (∃ i, i < b.length ∧ maxLineLen < curRun (b.take i) + 1) ∨
  maxTextTrigrams < (contentTris b).toFinset.card

theorem scanTris_length (b : Bytes) :
    (scanTris b).length = (contentTris b).toFinset.card := by
  have h1 : (scanTris b).toFinset = (contentTris b).toFinset := by
    ext t
    simp only [List.mem_toFinset]
    exact mem_scanTris_contentTris b t
  rw [← h1, List.toFinset_card_of_nodup (scanTris_nodup b)]

theorem nul_mem_iff (b : Bytes) :
    (∃ i, i < b.length ∧ byteAt b i = 0) ↔ ∃ cb ∈ b, cb % 256 = 0 := by
  constructor
  · rintro ⟨i, hi, h⟩
    refine ⟨b[i], List.getElem_mem hi, ?_⟩
    unfold byteAt at h
    rw [List.getD_eq_getElem _ _ hi] at h
    exact h
  · rintro ⟨cb, hcb, h⟩
    obtain ⟨i, hi, heq⟩ := List.mem_iff_getElem.mp hcb
    refine ⟨i, hi, ?_⟩
    unfold byteAt
    rw [List.getD_eq_getElem _ _ hi, heq]
    exact h

theorem ixAdd_none_iff (b : Bytes) : ixAdd b = none ↔ skipContent b := by
  obtain ⟨h1, _⟩ := addGo_spec b []
  rw [List.nil_append] at h1
  rw [show ixAdd b = addGo b (tvOf []) (List.length ([] : Bytes)) (curRun [])
    (triState ([] : Bytes)).2.2 from rfl, h1]
  unfold skipContent
  have hM : maxFileLen = 1073741824 := by norm_num [maxFileLen]
  constructor
  · rintro (⟨i, _, hlt, hb | hb | hb | hb⟩ | hc)
    · exact Or.inl ((nul_mem_iff b).mp ⟨i, hlt, hb⟩)
    · exact Or.inr (Or.inl ⟨i, hlt, hb⟩)
    · exact Or.inr (Or.inr (Or.inl (by omega)))
    · exact Or.inr (Or.inr (Or.inr (Or.inl ⟨i, hlt, hb⟩)))
    · exact Or.inr (Or.inr (Or.inr (Or.inr (by rw [← scanTris_length]; exact hc))))
  · rintro (h | ⟨i, hi, h⟩ | h | ⟨i, hi, h⟩ | h)
    · obtain ⟨i, hi, hb⟩ := (nul_mem_iff b).mpr h
      exact Or.inl ⟨i, Nat.zero_le _, hi, Or.inl hb⟩
    · exact Or.inl ⟨i, Nat.zero_le _, hi, Or.inr (Or.inl h)⟩
    · exact Or.inl ⟨b.length - 1, Nat.zero_le _, by omega,
        Or.inr (Or.inr (Or.inl (by omega)))⟩
    · exact Or.inl ⟨i, Nat.zero_le _, hi, Or.inr (Or.inr (Or.inr h))⟩
    · exact Or.inr (by rw [← scanTris_length] at h; exact h)

theorem ixAdd_some_eq (b : Bytes) (out : List Nat) (h : ixAdd b = some out) :
    out = scanTris b := by
  obtain ⟨_, h2⟩ := addGo_spec b []
  rw [List.nil_append] at h2
  exact h2 out h

/-- C6: per-file skip conditions.  For a name passing validation, `add`
skips the file — leaving the writer state and posting entries untouched,
so indexing continues — exactly when the content has a NUL byte, a byte
pair impossible in valid UTF-8, length over 2^30, a line over 2000
bytes, or more than 20000 distinct trigrams at end of file; otherwise
the file gets the next file ID, its name is appended, and exactly one
posting entry `makePostEntry(trigram, fileid)` is appended per distinct
trigram of the content. -/
theorem c6_add_skip (st : AddNameState) (post : List Nat) (name content : Bytes)
    (hname : name ≠ []) (hsort : 0 < pathCompare name st.nameLast)
    (hfid : st.numName < 2 ^ 40) :
    (ixAdd content = none ↔ skipContent content) ∧
    (skipContent content → writerAdd st post name content = some (st, post)) ∧
    (¬skipContent content →
      ∃ tris, ixAdd content = some tris ∧ tris.Nodup ∧
        (∀ t, t ∈ tris ↔ t ∈ contentTris content) ∧
        writerAdd st post name content =
          some ({nameLast := st.nameLast, numName := st.numName + 1,
                 names := st.names ++ [name]},
            post ++ tris.map (fun t => (t % 2 ^ 32) <<< 40 ||| st.numName))) := by
  refine ⟨ixAdd_none_iff content, ?_, ?_⟩
  · intro hskip
    unfold writerAdd
    rw [(ixAdd_none_iff content).mpr hskip]
  · intro hnot
    have hsome : ∃ tris, ixAdd content = some tris := by
      cases hx : ixAdd content with
      | none => exact absurd ((ixAdd_none_iff content).mp hx) hnot
      | some tris => exact ⟨tris, rfl⟩
    obtain ⟨tris, htris⟩ := hsome
    have heq := ixAdd_some_eq content tris htris
    subst heq
    refine ⟨scanTris content, htris, scanTris_nodup content,
      fun t => mem_scanTris_contentTris content t, ?_⟩
    unfold writerAdd
    rw [htris]
    have haddn : addName st name =
        .ok (st.numName,
          { nameLast := st.nameLast, numName := st.numName + 1,
            names := st.names ++ [name] }) := by
      unfold addName
      rw [if_neg hname, if_neg (by omega : ¬pathCompare name st.nameLast ≤ 0)]
    rw [haddn]
    have h40 : st.numName >>> 40 = 0 := by
      rw [Nat.shiftRight_eq_div_pow]
      exact Nat.div_eq_of_lt hfid
    simp only [h40]
    rfl

theorem c6_add_skip_witness :
    (([47, 97] : Bytes) ≠ [] ∧ 0 < pathCompare [47, 97] addNameInit.nameLast ∧
      addNameInit.numName < 2 ^ 40) ∧
    ((ixAdd [104, 101, 108, 108, 111] = none ↔ skipContent [104, 101, 108, 108, 111]) ∧
     (skipContent [104, 101, 108, 108, 111] →
        writerAdd addNameInit [] [47, 97] [104, 101, 108, 108, 111] =
          some (addNameInit, [])) ∧
     (¬skipContent [104, 101, 108, 108, 111] →
        ∃ tris, ixAdd [104, 101, 108, 108, 111] = some tris ∧ tris.Nodup ∧
          (∀ t, t ∈ tris ↔ t ∈ contentTris [104, 101, 108, 108, 111]) ∧
          writerAdd addNameInit [] [47, 97] [104, 101, 108, 108, 111] =
            some ({nameLast := addNameInit.nameLast,
                   numName := addNameInit.numName + 1,
                   names := addNameInit.names ++ [[47, 97]]},
              [] ++ tris.map (fun t => (t % 2 ^ 32) <<< 40 ||| addNameInit.numName)))) :=
  ⟨⟨by decide, by decide, by decide⟩,
    c6_add_skip addNameInit [] [47, 97] [104, 101, 108, 108, 111]
      (by decide) (by decide) (by decide)⟩

/-! ## C9: no stored trigram contains a zero byte -/

theorem byteAt_lt (b : Bytes) (i : Nat) : byteAt b i < 256 := by
  unfold byteAt
  omega

theorem ixAdd_tris_nonzero (content : Bytes) (tris : List Nat)
    (h : ixAdd content = some tris) :
    ∀ t ∈ tris, (t >>> 16) &&& 255 ≠ 0 ∧ (t >>> 8) &&& 255 ≠ 0 ∧
      t &&& 255 ≠ 0 ∧ t < 2 ^ 24 := by
  intro t ht
  have hnot : ¬skipContent content := by
    intro hs
    rw [(ixAdd_none_iff content).mpr hs] at h
    exact absurd h (by simp)
  have hnul : ∀ cb ∈ content, cb % 256 ≠ 0 := by
    intro cb hcb h0
    exact hnot (Or.inl ⟨cb, hcb, h0⟩)
  have hts := ixAdd_some_eq content tris h
  subst hts
  obtain ⟨i, hi, rfl⟩ := (mem_contentTris content t).mp
    ((mem_scanTris_contentTris content t).mp ht)
  have hb : ∀ j, j < content.length → byteAt content j ≠ 0 := by
    intro j hj h0
    apply hnul (content.get ⟨j, hj⟩) (content.get_mem _ _)
    unfold byteAt at h0
    rw [List.getD_eq_getElem _ _ hj] at h0
    exact h0
  have h0 := hb i (by omega)
  have h1 := hb (i + 1) (by omega)
  have h2 := hb (i + 2) (by omega)
  have l0 := byteAt_lt content i
  have l1 := byteAt_lt content (i + 1)
  have l2 := byteAt_lt content (i + 2)
  rw [triAt_eq]
  rw [show (255 : Nat) = 2 ^ 8 - 1 from rfl]
  simp only [Nat.and_pow_two_sub_one_eq_mod, Nat.shiftRight_eq_div_pow]
  refine ⟨?_, ?_, ?_, ?_⟩ <;> omega

/-- Modelled from the spec: the writer encodes counts and offset deltas
in posting-index blocks with `binary.PutUvarint` (LEB128: seven bits per
byte, low bits first, high bit set on all but the last byte). -/
def putUvarintGo : Nat → Nat → Bytes
  | 0, _ => []
  | fuel + 1, n => if n < 0x80 then [n] else (n % 128 + 128) :: putUvarintGo fuel (n / 128)

/-- Modelled from the spec: `binary.PutUvarint` with enough fuel. -/
def putUvarint (n : Nat) : Bytes := putUvarintGo (n + 1) n

theorem uvarintGo_putUvarintGo (fuel : Nat) : ∀ (m x i : Nat) (rest : Bytes),
    m < fuel → x < 2 ^ (7 * i) → x + m * 2 ^ (7 * i) < 2 ^ 64 → i ≤ 9 →
    uvarintGo (putUvarintGo fuel m ++ rest) x (7 * i) i =
      (x + m * 2 ^ (7 * i), ((i + (putUvarintGo fuel m).length : Nat) : Int)) := by
  induction fuel with
  | zero => intro m _ _ _ hm; omega
  | succ fuel ih =>
    intro m x i rest hm hx htot hi
    rw [putUvarintGo]
    by_cases hsm : m < 0x80
    · rw [if_pos hsm]
      rw [List.singleton_append, uvarintGo]
      rw [if_neg (by omega : ¬i = 10)]
      have hmb : m % 256 = m := Nat.mod_eq_of_lt (by omega)
      rw [if_pos (by rw [hmb]; exact hsm)]
      have h9 : ¬(i = 9 ∧ 1 < m % 256) := by
        rintro ⟨h9, hgt⟩
        rw [hmb] at hgt
        subst h9
        have : (2 : Nat) ^ (7 * 9) = 2 ^ 63 := by norm_num
        rw [this] at htot
        have h64 : (2 : Nat) ^ 64 = 2 ^ 63 * 2 := by ring
        rw [h64] at htot
        nlinarith [Nat.one_le_two_pow (n := 63)]
      rw [if_neg h9, hmb, lor_disjoint x m (7 * i) hx,
        Nat.mod_eq_of_lt (by omega : x + m * 2 ^ (7 * i) < 2 ^ 64)]
      simp
    · rw [if_neg hsm]
      have hb : (m % 128 + 128) % 256 = m % 128 + 128 := Nat.mod_eq_of_lt (by omega)
      rw [List.cons_append, uvarintGo, if_neg (by omega : ¬i = 10), hb,
        if_neg (by omega : ¬m % 128 + 128 < 0x80)]
      have hand : (m % 128 + 128) &&& 0x7f = m % 128 := by
        rw [show (0x7f : Nat) = 2 ^ 7 - 1 from rfl, Nat.and_pow_two_sub_one_eq_mod]
        omega
      rw [hand]
      have hpow : (2 : Nat) ^ (7 * (i + 1)) = 2 ^ (7 * i) * 128 := by
        rw [show 7 * (i + 1) = 7 * i + 7 by ring, pow_add]
        norm_num
      have hsplit : m % 128 * 2 ^ (7 * i) + m / 128 * 2 ^ (7 * (i + 1)) = m * 2 ^ (7 * i) := by
        rw [hpow]
        conv_rhs => rw [← Nat.mod_add_div m 128]
        ring
      have hxle : x + m % 128 * 2 ^ (7 * i) + m / 128 * 2 ^ (7 * (i + 1)) =
          x + m * 2 ^ (7 * i) := by omega
      have hx2 : x + m % 128 * 2 ^ (7 * i) < 2 ^ (7 * (i + 1)) := by
        rw [hpow]
        have : m % 128 * 2 ^ (7 * i) ≤ 127 * 2 ^ (7 * i) :=
          Nat.mul_le_mul_right _ (by omega)
        nlinarith [Nat.one_le_two_pow (n := 7 * i)]
      have hlt64 : x + m % 128 * 2 ^ (7 * i) < 2 ^ 64 := by
        have : m % 128 * 2 ^ (7 * i) ≤ m * 2 ^ (7 * i) :=
          Nat.mul_le_mul_right _ (Nat.mod_le m 128)
        omega
      have hi1 : i + 1 ≤ 9 := by
        by_contra hgt
        have h9 : i = 9 := by omega
        subst h9
        have h63 : (2 : Nat) ^ (7 * 9) = 2 ^ 63 := by norm_num
        rw [h63] at htot
        have h64 : (2 : Nat) ^ 64 = 2 ^ 63 * 2 := by ring
        rw [h64] at htot
        nlinarith [Nat.one_le_two_pow (n := 63)]
      rw [lor_disjoint x (m % 128) (7 * i) hx, Nat.mod_eq_of_lt hlt64,
        show 7 * i + 7 = 7 * (i + 1) by ring]
      have := ih (m / 128) (x + m % 128 * 2 ^ (7 * i)) (i + 1) rest
        (by omega) hx2 (by omega) hi1
      rw [this]
      refine Prod.ext ?_ ?_
      · dsimp only
        omega
      · dsimp only
        simp only [List.length_cons]
        push_cast
        ring

theorem uvarint_putUvarint (n : Nat) (rest : Bytes) (h : n < 2 ^ 64) :
    uvarint (putUvarint n ++ rest) = (n, ((putUvarint n).length : Int)) := by
  have := uvarintGo_putUvarintGo (n + 1) n 0 0 rest (by omega) (by norm_num)
    (by simpa using h) (by omega)
  simpa [uvarint, putUvarint] using this

theorem putUvarint_length_pos (n : Nat) : 0 < (putUvarint n).length := by
  unfold putUvarint putUvarintGo
  split <;> simp

/-- Modelled from the spec: one posting-index block entry — the three
big-endian trigram bytes, then the file count and the posting-data
offset delta as uvarints. -/
def encEntry (t count delta : Nat) : Bytes :=
  ((t >>> 16) &&& 255) :: ((t >>> 8) &&& 255) :: (t &&& 255) ::
    (putUvarint count ++ putUvarint delta)

/-- Modelled from the spec: the entry area of a posting-index block,
the concatenation of its entries (the writer zero-pads the remainder of
each 256-byte block). -/
def encBlock : List (Nat × Nat × Nat) → Bytes
  | [] => []
  | e :: es => encEntry e.1 e.2.1 e.2.2 ++ encBlock es

theorem triAt_encEntry (t count delta : Nat) (rest : Bytes) (h : t < 2 ^ 24) :
    triAt (encEntry t count delta ++ rest) 0 = t := by
  unfold encEntry
  rw [triAt_eq]
  unfold byteAt
  simp only [List.cons_append, List.getD_cons_zero, List.getD_cons_succ]
  rw [show (255 : Nat) = 2 ^ 8 - 1 from rfl]
  simp only [Nat.and_pow_two_sub_one_eq_mod, Nat.shiftRight_eq_div_pow]
  omega


theorem byteAt_replicate (pad i : Nat) : byteAt (List.replicate pad 0) i = 0 := by
  unfold byteAt
  rcases Nat.lt_or_ge i pad with h | h
  · rw [List.getD_eq_getElem _ _ (by simpa using h)]
    simp
  · rw [List.getD_eq_default _ _ (by simpa using h)]

theorem encEntry_length (t c d : Nat) :
    (encEntry t c d).length = 3 + (putUvarint c).length + (putUvarint d).length := by
  unfold encEntry
  simp
  omega

theorem blockTrisGo_encBlock (entries : List (Nat × Nat × Nat)) (pad : Nat) :
    ∀ fuel : Nat, entries.length < fuel →
    (∀ e ∈ entries, e.1 ≠ 0 ∧ e.1 < 2 ^ 24 ∧ e.2.1 < 2 ^ 64 ∧ e.2.2 < 2 ^ 64) →
    blockTrisGo fuel (encBlock entries ++ List.replicate pad 0) =
      .ok (entries.map (fun e => e.1)) := by
  induction entries with
  | nil =>
    intro fuel hf _
    obtain ⟨fuel, rfl⟩ : ∃ k, fuel = k + 1 := ⟨fuel - 1, by omega⟩
    rw [encBlock, List.nil_append, blockTrisGo]
    rw [if_neg ?_]
    · simp
    · rintro ⟨_, hne⟩
      apply hne
      rw [triAt_eq, byteAt_replicate, byteAt_replicate, byteAt_replicate]
  | cons e es ih =>
    intro fuel hf hmem
    obtain ⟨fuel, rfl⟩ : ∃ k, fuel = k + 1 := ⟨fuel - 1, by omega⟩
    obtain ⟨ht0, ht24, hc, hd⟩ := hmem e (List.mem_cons_self e es)
    have hmem2 : ∀ x ∈ es, x.1 ≠ 0 ∧ x.1 < 2 ^ 24 ∧ x.2.1 < 2 ^ 64 ∧ x.2.2 < 2 ^ 64 :=
      fun x hx => hmem x (List.mem_cons_of_mem e hx)
    rw [encBlock, List.append_assoc]
    set rest := encBlock es ++ List.replicate pad 0 with hrest
    have hd3 : (encEntry e.1 e.2.1 e.2.2 ++ rest).drop 3 =
        putUvarint e.2.1 ++ (putUvarint e.2.2 ++ rest) := by
      unfold encEntry
      simp [List.append_assoc]
    have hl1 : (0 : Int) < ((putUvarint e.2.1).length : Int) := by
      exact_mod_cast putUvarint_length_pos e.2.1
    have hl2 : (0 : Int) < ((putUvarint e.2.2).length : Int) := by
      exact_mod_cast putUvarint_length_pos e.2.2
    have hd31p : (encEntry e.1 e.2.1 e.2.2 ++ rest).drop
        (3 + (putUvarint e.2.1).length) = putUvarint e.2.2 ++ rest := by
      rw [← List.drop_drop, hd3, List.drop_left]
    have hd31 : (encEntry e.1 e.2.1 e.2.2 ++ rest).drop
        (3 + ((putUvarint e.2.1).length : Int).toNat) = putUvarint e.2.2 ++ rest := by
      rw [Int.toNat_natCast]
      exact hd31p
    have hd312 : (encEntry e.1 e.2.1 e.2.2 ++ rest).drop
        (3 + ((putUvarint e.2.1).length : Int).toNat +
          ((putUvarint e.2.2).length : Int).toNat) = rest := by
      rw [Int.toNat_natCast, Int.toNat_natCast, ← List.drop_drop, hd31p, List.drop_left]
    have hcond : 3 < (encEntry e.1 e.2.1 e.2.2 ++ rest).length ∧
        triAt (encEntry e.1 e.2.1 e.2.2 ++ rest) 0 ≠ 0 := by
      constructor
      · rw [List.length_append, encEntry_length]
        have := putUvarint_length_pos e.2.1
        omega
      · rw [triAt_encEntry _ _ _ _ ht24]
        exact ht0
    rw [blockTrisGo, if_pos hcond]
    rw [hd3, uvarint_putUvarint _ _ hc]
    rw [if_neg (by dsimp only; omega)]
    dsimp only
    rw [hd31, uvarint_putUvarint _ _ hd]
    rw [if_neg (by dsimp only; omega)]
    dsimp only
    rw [hd312, ih fuel (by simpa using hf) hmem2]
    rw [triAt_encEntry _ _ _ _ ht24]
    rfl

/-- C9: no stored trigram contains a zero byte.  Every trigram of a file
accepted by `IndexWriter.add` has three nonzero bytes (a file containing
a NUL byte is skipped before indexing), so posting-index block entries
built from such trigrams never start with an all-zero trigram; the
`Check`-style block cursor, which treats a zero leading trigram as
end-of-block, therefore parses every real entry of a zero-padded block
and stops exactly at the padding, truncating nothing. -/
theorem c9_no_zero_trigram (content : Bytes) (tris : List Nat)
    (h : ixAdd content = some tris)
    (entries : List (Nat × Nat × Nat)) (pad fuel : Nat)
    (hf : entries.length < fuel)
    (hmem : ∀ e ∈ entries, e.1 ∈ tris ∧ e.2.1 < 2 ^ 64 ∧ e.2.2 < 2 ^ 64) :
    (∀ t ∈ tris, (t >>> 16) &&& 255 ≠ 0 ∧ (t >>> 8) &&& 255 ≠ 0 ∧
      t &&& 255 ≠ 0 ∧ t < 2 ^ 24) ∧
    blockTrisGo fuel (encBlock entries ++ List.replicate pad 0) =
      .ok (entries.map (fun e => e.1)) := by
  have hnz := ixAdd_tris_nonzero content tris h
  refine ⟨hnz, ?_⟩
  apply blockTrisGo_encBlock entries pad fuel hf
  intro e he
  obtain ⟨hmt, hc, hd⟩ := hmem e he
  obtain ⟨_, _, h0, h24⟩ := hnz e.1 hmt
  refine ⟨?_, h24, hc, hd⟩
  intro h0'
  apply h0
  rw [h0']
  rfl

theorem c9_no_zero_trigram_witness :
    (ixAdd [104, 101, 108, 108, 111] = some [6841708, 6646892, 7105647] ∧
     ([(6841708, 2, 5)] : List (Nat × Nat × Nat)).length < 2 ∧
     (∀ e ∈ ([(6841708, 2, 5)] : List (Nat × Nat × Nat)),
        e.1 ∈ [6841708, 6646892, 7105647] ∧ e.2.1 < 2 ^ 64 ∧ e.2.2 < 2 ^ 64)) ∧
    ((∀ t ∈ [6841708, 6646892, 7105647],
        (t >>> 16) &&& 255 ≠ 0 ∧ (t >>> 8) &&& 255 ≠ 0 ∧
        t &&& 255 ≠ 0 ∧ t < 2 ^ 24) ∧
     blockTrisGo 2 (encBlock [(6841708, 2, 5)] ++ List.replicate 10 0) =
       .ok (([(6841708, 2, 5)] : List (Nat × Nat × Nat)).map (fun e => e.1))) :=
  ⟨⟨by decide, by decide, by decide⟩,
    c9_no_zero_trigram [104, 101, 108, 108, 111] [6841708, 6646892, 7105647] (by decide)
      [(6841708, 2, 5)] 10 2 (by decide) (by decide)⟩

/-! ## C1: Merge shadowing of names and postings (merge.go) -/

/-- An `idrange` (merge.go): the half-open file-ID interval `[lo, hi)`
maps to `[new, new + hi - lo)`. -/
structure idrange where
  lo : Nat
  hi : Nat
  new : Nat
deriving DecidableEq

/-- The while-loops of `Merge` that advance a name index while the name
compares below a bound: one step. -/
def advGo (names : List Bytes) (p : Bytes) : Nat → Nat → Nat
  | 0, i => i
  | fuel + 1, i =>
    if i < names.length ∧ pathCompare (names.getD i []) p < 0 then advGo names p fuel (i + 1)
    else i

/-- Advance `i` to the first index at or after it whose name does not
compare below `p` (or to the end of the list). -/
def adv (names : List Bytes) (p : Bytes) (i : Nat) : Nat :=
  advGo names p (names.length - i) i

/-- The fileid-map building loop of `Merge` (merge.go 57–114): for each
root of the newer index, skip (shadow) the older index's names in
`[root, root+"\x02")`, recording the surviving ranges of both indices
with their new starting IDs; a name of the newer index below the current
root means an inconsistent index (panic). -/
def buildMapsGo (names1 names2 : List Bytes) :
    List Bytes → Nat → Nat → Nat → Except Corrupt (List idrange × List idrange × Nat)
  | [], i1, i2, nw =>
    if i2 < names2.length then .error .corrupt
    else if i1 < names1.length then
      .ok ([⟨i1, names1.length, nw⟩], [], nw + (names1.length - i1))
    else .ok ([], [], nw)
  | r :: rs, i1, i2, nw =>
    if i2 < names2.length ∧ pathCompare (names2.getD i2 []) r < 0 then .error .corrupt
    else
      match buildMapsGo names1 names2 rs (adv names1 (r ++ [2]) (adv names1 r i1))
          (adv names2 (r ++ [2]) i2)
          ((if i1 < adv names1 r i1 then nw + (adv names1 r i1 - i1) else nw) +
            (if i2 < adv names2 (r ++ [2]) i2 then adv names2 (r ++ [2]) i2 - i2 else 0)) with
      | .error e => .error e
      | .ok (m1t, m2t, nwF) =>
        .ok ((if i1 < adv names1 r i1 then [⟨i1, adv names1 r i1, nw⟩] else []) ++ m1t,
          (if i2 < adv names2 (r ++ [2]) i2 then
            [⟨i2, adv names2 (r ++ [2]) i2,
              if i1 < adv names1 r i1 then nw + (adv names1 r i1 - i1) else nw⟩]
          else []) ++ m2t,
          nwF)

/-- `Merge`'s fileid maps for the two source indices, and the merged
name count. -/
def buildMaps (names1 names2 roots2 : List Bytes) :
    Except Corrupt (List idrange × List idrange × Nat) :=
  buildMapsGo names1 names2 roots2 0 0 0

/-- The merged-name-list writing loop of `Merge` (merge.go 153–176):
repeatedly copy the source range whose new starting ID equals the
number of names written so far, until `numName` names are written;
no matching range means an inconsistent index (panic). -/
def collectGo (names1 names2 : List Bytes) :
    Nat → List idrange → List idrange → Nat → Nat → Except Corrupt (List Bytes)
  | 0, _, _, count, numName => if count = numName then .ok [] else .error .corrupt
  | fuel + 1, m1, m2, count, numName =>
    if count = numName then .ok []
    else
      match m1, m2 with
      | r :: m1t, r2 :: m2t =>
        if r.new = count then
          (collectGo names1 names2 fuel m1t (r2 :: m2t) (count + (r.hi - r.lo)) numName).map
            (fun rest => (names1.drop r.lo).take (r.hi - r.lo) ++ rest)
        else if r2.new = count then
          (collectGo names1 names2 fuel (r :: m1t) m2t (count + (r2.hi - r2.lo)) numName).map
            (fun rest => (names2.drop r2.lo).take (r2.hi - r2.lo) ++ rest)
        else .error .corrupt
      | r :: m1t, [] =>
        if r.new = count then
          (collectGo names1 names2 fuel m1t [] (count + (r.hi - r.lo)) numName).map
            (fun rest => (names1.drop r.lo).take (r.hi - r.lo) ++ rest)
        else .error .corrupt
      | [], r2 :: m2t =>
        if r2.new = count then
          (collectGo names1 names2 fuel [] m2t (count + (r2.hi - r2.lo)) numName).map
            (fun rest => (names2.drop r2.lo).take (r2.hi - r2.lo) ++ rest)
        else .error .corrupt
      | [], [] => .error .corrupt

/-- The merged name list of `Merge(dst, src1, src2)`: build the fileid
maps from the newer index's roots, then collect the surviving name
ranges in new-ID order. -/
def mergeNames (names1 names2 roots2 : List Bytes) : Except Corrupt (List Bytes) :=
  match buildMaps names1 names2 roots2 with
  | .error e => .error e
  | .ok (m1, m2, numName) =>
    collectGo names1 names2 (m1.length + m2.length + 1) m1 m2 0 numName

/-- The claimed shape of the merged name list: for each root `r` of the
newer index in order, the older index's names below `r` are copied, its
names in `[r, r+"\x02")` are omitted (shadowed), the newer index's
names below `r+"\x02"` are copied, and after the last root the older
index's remaining names are appended; file IDs are positions in this
list, so each copied block receives the next contiguous ID range. -/
def specMerge : List Bytes → List Bytes → List Bytes → List Bytes
  | s1, _, [] => s1
  | s1, s2, r :: rs =>
    s1.takeWhile (fun q => decide (pathCompare q r < 0)) ++
    s2.takeWhile (fun q => decide (pathCompare q (r ++ [2]) < 0)) ++
    specMerge
      ((s1.dropWhile (fun q => decide (pathCompare q r < 0))).dropWhile
        (fun q => decide (pathCompare q (r ++ [2]) < 0)))
      (s2.dropWhile (fun q => decide (pathCompare q (r ++ [2]) < 0)))
      rs

theorem advGo_spec (names : List Bytes) (p : Bytes) :
    ∀ (fuel i : Nat), names.length ≤ i + fuel →
    advGo names p fuel i =
      i + ((names.drop i).takeWhile (fun q => decide (pathCompare q p < 0))).length := by
  intro fuel
  induction fuel with
  | zero =>
    intro i hle
    have hd : names.drop i = [] := List.drop_eq_nil_of_le (by omega)
    rw [advGo, hd]
    simp
  | succ fuel ih =>
    intro i hle
    rw [advGo]
    by_cases hc : i < names.length ∧ pathCompare (names.getD i []) p < 0
    · rw [if_pos hc]
      obtain ⟨hi, hp⟩ := hc
      rw [ih (i + 1) (by omega)]
      have hdrop : names.drop i = names[i] :: names.drop (i + 1) :=
        List.drop_eq_getElem_cons hi
      rw [hdrop, List.takeWhile_cons]
      have hdec : decide (pathCompare names[i] p < 0) = true := by
        rw [decide_eq_true_eq]
        rwa [List.getD_eq_getElem _ _ hi] at hp
      rw [hdec]
      simp
      omega
    · rw [if_neg hc]
      rcases Nat.lt_or_ge i names.length with hi | hi
      · have hp : ¬pathCompare (names.getD i []) p < 0 := fun hp => hc ⟨hi, hp⟩
        have hdrop : names.drop i = names[i] :: names.drop (i + 1) :=
          List.drop_eq_getElem_cons hi
        rw [hdrop, List.takeWhile_cons]
        have hdec : decide (pathCompare names[i] p < 0) = false := by
          rw [decide_eq_false_iff_not]
          rw [List.getD_eq_getElem _ _ hi] at hp
          exact hp
        rw [hdec]
        simp
      · have hd : names.drop i = [] := List.drop_eq_nil_of_le hi
        rw [hd]
        simp

theorem adv_spec (names : List Bytes) (p : Bytes) (i : Nat) :
    adv names p i =
      i + ((names.drop i).takeWhile (fun q => decide (pathCompare q p < 0))).length := by
  unfold adv
  exact advGo_spec names p (names.length - i) i (by omega)

theorem adv_ge (names : List Bytes) (p : Bytes) (i : Nat) : i ≤ adv names p i := by
  rw [adv_spec]
  omega

theorem takeWhile_len_le (p : Bytes → Bool) (l : List Bytes) :
    (l.takeWhile p).length ≤ l.length := by
  induction l with
  | nil => simp
  | cons a l ih =>
    rw [List.takeWhile_cons]
    cases hp : p a
    · simp
    · simp only [if_true, List.length_cons]
      omega

theorem take_length_takeWhile (p : Bytes → Bool) (l : List Bytes) :
    l.take (l.takeWhile p).length = l.takeWhile p := by
  induction l with
  | nil => rfl
  | cons a l ih =>
    rw [List.takeWhile_cons]
    cases hp : p a
    · simp
    · simp only [if_true, List.length_cons, List.take_succ_cons, ih]

theorem drop_length_takeWhile (p : Bytes → Bool) (l : List Bytes) :
    l.drop (l.takeWhile p).length = l.dropWhile p := by
  induction l with
  | nil => rfl
  | cons a l ih =>
    rw [List.takeWhile_cons, List.dropWhile_cons]
    cases hp : p a
    · simp
    · simp only [if_true, List.length_cons, List.drop_succ_cons, ih]

theorem adv_le_length (names : List Bytes) (p : Bytes) (i : Nat) (h : i ≤ names.length) :
    adv names p i ≤ names.length := by
  rw [adv_spec]
  have h1 := takeWhile_len_le (fun q => decide (pathCompare q p < 0)) (names.drop i)
  have h2 : (names.drop i).length = names.length - i := List.length_drop i names
  omega

theorem drop_adv (names : List Bytes) (p : Bytes) (i : Nat) :
    names.drop (adv names p i) =
      (names.drop i).dropWhile (fun q => decide (pathCompare q p < 0)) := by
  rw [adv_spec, ← List.drop_drop]
  exact drop_length_takeWhile _ (names.drop i)

theorem take_adv (names : List Bytes) (p : Bytes) (i : Nat) :
    (names.drop i).take (adv names p i - i) =
      (names.drop i).takeWhile (fun q => decide (pathCompare q p < 0)) := by
  rw [adv_spec, Nat.add_sub_cancel_left]
  exact take_length_takeWhile _ (names.drop i)

theorem collectGo_done (names1 names2 : List Bytes) (fuel : Nat) (m1 m2 : List idrange)
    (c : Nat) : collectGo names1 names2 fuel m1 m2 c c = .ok [] := by
  cases fuel with
  | zero =>
    rw [collectGo.eq_def]
    simp
  | succ fuel =>
    rw [collectGo.eq_def]
    simp

theorem buildMapsGo_mono (names1 names2 : List Bytes) (roots : List Bytes) :
    ∀ i1 i2 nw M1 M2 nwF,
    buildMapsGo names1 names2 roots i1 i2 nw = .ok (M1, M2, nwF) → nw ≤ nwF := by
  induction roots with
  | nil =>
    intro i1 i2 nw M1 M2 nwF hb
    rw [buildMapsGo] at hb
    by_cases h2 : i2 < names2.length
    · rw [if_pos h2] at hb; exact absurd hb (by simp)
    · rw [if_neg h2] at hb
      by_cases h1 : i1 < names1.length
      · rw [if_pos h1] at hb
        simp only [Except.ok.injEq, Prod.mk.injEq] at hb
        omega
      · rw [if_neg h1] at hb
        simp only [Except.ok.injEq, Prod.mk.injEq] at hb
        omega
  | cons r rs ih =>
    intro i1 i2 nw M1 M2 nwF hb
    rw [buildMapsGo] at hb
    by_cases hchk : i2 < names2.length ∧ pathCompare (names2.getD i2 []) r < 0
    · rw [if_pos hchk] at hb; exact absurd hb (by simp)
    · rw [if_neg hchk] at hb
      cases hrec : buildMapsGo names1 names2 rs
          (adv names1 (r ++ [2]) (adv names1 r i1)) (adv names2 (r ++ [2]) i2)
          ((if i1 < adv names1 r i1 then nw + (adv names1 r i1 - i1) else nw) +
            (if i2 < adv names2 (r ++ [2]) i2 then adv names2 (r ++ [2]) i2 - i2 else 0)) with
      | error e => rw [hrec] at hb; exact absurd hb (by simp)
      | ok res =>
        obtain ⟨m1t, m2t, nwF2⟩ := res
        rw [hrec] at hb
        simp only [Except.ok.injEq, Prod.mk.injEq] at hb
        have := ih _ _ _ _ _ _ hrec
        split_ifs at this <;> omega

theorem buildMapsGo_new_lb (names1 names2 : List Bytes) (roots : List Bytes) :
    ∀ i1 i2 nw M1 M2 nwF,
    buildMapsGo names1 names2 roots i1 i2 nw = .ok (M1, M2, nwF) →
    (∀ rr ∈ M1, nw ≤ rr.new) ∧ (∀ rr ∈ M2, nw ≤ rr.new) := by
  induction roots with
  | nil =>
    intro i1 i2 nw M1 M2 nwF hb
    rw [buildMapsGo] at hb
    by_cases h2 : i2 < names2.length
    · rw [if_pos h2] at hb; exact absurd hb (by simp)
    · rw [if_neg h2] at hb
      by_cases h1 : i1 < names1.length
      · rw [if_pos h1] at hb
        simp only [Except.ok.injEq, Prod.mk.injEq] at hb
        obtain ⟨hM1, hM2, _⟩ := hb
        subst hM1
        subst hM2
        constructor
        · intro rr hrr
          simp only [List.mem_singleton] at hrr
          subst hrr
          exact Nat.le_refl _
        · intro rr hrr
          exact absurd hrr (by simp)
      · rw [if_neg h1] at hb
        simp only [Except.ok.injEq, Prod.mk.injEq] at hb
        obtain ⟨hM1, hM2, _⟩ := hb
        subst hM1
        subst hM2
        exact ⟨fun rr hrr => absurd hrr (by simp), fun rr hrr => absurd hrr (by simp)⟩
  | cons r rs ih =>
    intro i1 i2 nw M1 M2 nwF hb
    rw [buildMapsGo] at hb
    by_cases hchk : i2 < names2.length ∧ pathCompare (names2.getD i2 []) r < 0
    · rw [if_pos hchk] at hb; exact absurd hb (by simp)
    · rw [if_neg hchk] at hb
      cases hrec : buildMapsGo names1 names2 rs
          (adv names1 (r ++ [2]) (adv names1 r i1)) (adv names2 (r ++ [2]) i2)
          ((if i1 < adv names1 r i1 then nw + (adv names1 r i1 - i1) else nw) +
            (if i2 < adv names2 (r ++ [2]) i2 then adv names2 (r ++ [2]) i2 - i2 else 0)) with
      | error e => rw [hrec] at hb; exact absurd hb (by simp)
      | ok res =>
        obtain ⟨m1t, m2t, nwF2⟩ := res
        rw [hrec] at hb
        simp only [Except.ok.injEq, Prod.mk.injEq] at hb
        obtain ⟨hM1, hM2, _⟩ := hb
        subst hM1
        subst hM2
        obtain ⟨iht1, iht2⟩ := ih _ _ _ _ _ _ hrec
        constructor
        · intro rr hrr
          rw [List.mem_append] at hrr
          rcases hrr with hrr | hrr
          · split_ifs at hrr
            · simp only [List.mem_singleton] at hrr
              subst hrr
              exact Nat.le_refl _
            · exact absurd hrr (by simp)
          · have := iht1 rr hrr
            split_ifs at this <;> omega
        · intro rr hrr
          rw [List.mem_append] at hrr
          rcases hrr with hrr | hrr
          · split_ifs at hrr with hsa hsb
            all_goals first
            | (simp only [List.mem_singleton] at hrr
               subst hrr
               dsimp only
               omega)
            | exact absurd hrr (by simp)
          · have := iht2 rr hrr
            split_ifs at this <;> omega

theorem collectGo_step1 (names1 names2 : List Bytes) (fuel : Nat) (r : idrange)
    (m1t m2 : List idrange) (count numName : Nat) (hne : count ≠ numName)
    (hnew : r.new = count) :
    collectGo names1 names2 (fuel + 1) (r :: m1t) m2 count numName =
      (collectGo names1 names2 fuel m1t m2 (count + (r.hi - r.lo)) numName).map
        (fun rest => (names1.drop r.lo).take (r.hi - r.lo) ++ rest) := by
  rw [collectGo.eq_def]
  cases m2 with
  | nil => simp [hne, hnew]
  | cons r2 m2t => simp [hne, hnew]

theorem collectGo_step2 (names1 names2 : List Bytes) (fuel : Nat) (r2 : idrange)
    (m1 m2t : List idrange) (count numName : Nat) (hne : count ≠ numName)
    (hm1 : ∀ r ∈ m1, r.new ≠ count) (hnew : r2.new = count) :
    collectGo names1 names2 (fuel + 1) m1 (r2 :: m2t) count numName =
      (collectGo names1 names2 fuel m1 m2t (count + (r2.hi - r2.lo)) numName).map
        (fun rest => (names2.drop r2.lo).take (r2.hi - r2.lo) ++ rest) := by
  rw [collectGo.eq_def]
  cases m1 with
  | nil => simp [hne, hnew]
  | cons r m1t =>
    have hr : r.new ≠ count := hm1 r (List.mem_cons_self r m1t)
    simp [hne, hnew, hr]

theorem collect_buildMaps (names1 names2 : List Bytes) (roots : List Bytes) :
    ∀ i1 i2 nw M1 M2 nwF,
    i1 ≤ names1.length → i2 ≤ names2.length →
    buildMapsGo names1 names2 roots i1 i2 nw = .ok (M1, M2, nwF) →
    ∀ fuel, M1.length + M2.length < fuel →
    collectGo names1 names2 fuel M1 M2 nw nwF =
      .ok (specMerge (names1.drop i1) (names2.drop i2) roots) := by
  induction roots with
  | nil =>
    intro i1 i2 nw M1 M2 nwF h1 h2 hb fuel hfuel
    rw [buildMapsGo] at hb
    by_cases hc2 : i2 < names2.length
    · rw [if_pos hc2] at hb; exact absurd hb (by simp)
    · rw [if_neg hc2] at hb
      by_cases hc1 : i1 < names1.length
      · rw [if_pos hc1] at hb
        simp only [Except.ok.injEq, Prod.mk.injEq] at hb
        obtain ⟨hM1, hM2, hF⟩ := hb
        subst hM1
        subst hM2
        subst hF
        obtain ⟨f, rfl⟩ : ∃ k, fuel = k + 1 := ⟨fuel - 1, by omega⟩
        rw [collectGo_step1 names1 names2 f _ _ _ _ _ (by dsimp only; omega) rfl]
        dsimp only
        rw [collectGo_done, specMerge]
        simp only [Except.map, List.append_nil]
        rw [show names1.length - i1 = (names1.drop i1).length from
          (List.length_drop i1 names1).symm, List.take_length]
      · rw [if_neg hc1] at hb
        simp only [Except.ok.injEq, Prod.mk.injEq] at hb
        obtain ⟨hM1, hM2, hF⟩ := hb
        subst hM1
        subst hM2
        subst hF
        rw [collectGo_done, specMerge]
        rw [List.drop_eq_nil_of_le (by omega)]
  | cons r rs ih =>
    intro i1 i2 nw M1 M2 nwF h1 h2 hb fuel hfuel
    rw [buildMapsGo] at hb
    by_cases hchk : i2 < names2.length ∧ pathCompare (names2.getD i2 []) r < 0
    · rw [if_pos hchk] at hb; exact absurd hb (by simp)
    · rw [if_neg hchk] at hb
      cases hrec : buildMapsGo names1 names2 rs
          (adv names1 (r ++ [2]) (adv names1 r i1)) (adv names2 (r ++ [2]) i2)
          ((if i1 < adv names1 r i1 then nw + (adv names1 r i1 - i1) else nw) +
            (if i2 < adv names2 (r ++ [2]) i2 then adv names2 (r ++ [2]) i2 - i2 else 0)) with
      | error e => rw [hrec] at hb; exact absurd hb (by simp)
      | ok res =>
        obtain ⟨m1t, m2t, nwF2⟩ := res
        rw [hrec] at hb
        simp only [Except.ok.injEq, Prod.mk.injEq] at hb
        obtain ⟨hM1, hM2, hF⟩ := hb
        subst hF
        have hlo1 : i1 ≤ adv names1 r i1 := adv_ge names1 r i1
        have hlo2 : adv names1 r i1 ≤ names1.length := adv_le_length names1 r i1 h1
        have hhi1 : adv names1 r i1 ≤ adv names1 (r ++ [2]) (adv names1 r i1) :=
          adv_ge names1 (r ++ [2]) _
        have hhi2 : adv names1 (r ++ [2]) (adv names1 r i1) ≤ names1.length :=
          adv_le_length names1 (r ++ [2]) _ hlo2
        have hg2 : i2 ≤ adv names2 (r ++ [2]) i2 := adv_ge names2 (r ++ [2]) i2
        have hg2l : adv names2 (r ++ [2]) i2 ≤ names2.length :=
          adv_le_length names2 (r ++ [2]) i2 h2
        by_cases hA : i1 < adv names1 r i1 <;> by_cases hB : i2 < adv names2 (r ++ [2]) i2
        · -- both an A-range and a B-range are emitted for this root
          rw [if_pos hA, List.singleton_append] at hM1
          rw [if_pos hB, if_pos hA, List.singleton_append] at hM2
          rw [if_pos hA, if_pos hB] at hrec
          subst hM1
          subst hM2
          obtain ⟨hlb1, hlb2⟩ := buildMapsGo_new_lb names1 names2 rs _ _ _ _ _ _ hrec
          have hmono := buildMapsGo_mono names1 names2 rs _ _ _ _ _ _ hrec
          obtain ⟨f, rfl⟩ : ∃ k, fuel = k + 1 := ⟨fuel - 1, by omega⟩
          rw [collectGo_step1 names1 names2 f _ _ _ _ _ (by dsimp only; omega) rfl]
          dsimp only
          obtain ⟨f2, rfl⟩ : ∃ k, f = k + 1 := ⟨f - 1, by simp at hfuel; omega⟩
          rw [collectGo_step2 names1 names2 f2 _ _ _ _ _ (by dsimp only; omega)
            (fun rr hrr => by have := hlb1 rr hrr; dsimp only; omega) rfl]
          dsimp only
          rw [ih _ _ _ _ _ _ hhi2 hg2l hrec f2 (by simp at hfuel; omega)]
          simp only [Except.map]
          rw [specMerge, take_adv names1 r i1, take_adv names2 (r ++ [2]) i2,
            drop_adv names1 (r ++ [2]) (adv names1 r i1), drop_adv names1 r i1,
            drop_adv names2 (r ++ [2]) i2, List.append_assoc]
        · -- only an A-range is emitted
          rw [if_pos hA, List.singleton_append] at hM1
          rw [if_neg hB, List.nil_append] at hM2
          rw [if_pos hA, if_neg hB, Nat.add_zero] at hrec
          subst hM1
          subst hM2
          have hmono := buildMapsGo_mono names1 names2 rs _ _ _ _ _ _ hrec
          obtain ⟨f, rfl⟩ : ∃ k, fuel = k + 1 := ⟨fuel - 1, by omega⟩
          rw [collectGo_step1 names1 names2 f _ _ _ _ _ (by dsimp only; omega) rfl]
          dsimp only
          rw [ih _ _ _ _ _ _ hhi2 hg2l hrec f (by simp at hfuel; omega)]
          simp only [Except.map]
          have ht2 : (names2.drop i2).takeWhile
              (fun q => decide (pathCompare q (r ++ [2]) < 0)) = [] := by
            apply List.eq_nil_of_length_eq_zero
            have := adv_spec names2 (r ++ [2]) i2
            omega
          rw [specMerge, take_adv names1 r i1, ht2,
            drop_adv names1 (r ++ [2]) (adv names1 r i1), drop_adv names1 r i1,
            drop_adv names2 (r ++ [2]) i2]
          rw [List.append_nil]
        · -- only a B-range is emitted
          rw [if_neg hA, List.nil_append] at hM1
          rw [if_pos hB, if_neg hA, List.singleton_append] at hM2
          rw [if_neg hA, if_pos hB] at hrec
          subst hM1
          subst hM2
          obtain ⟨hlb1, hlb2⟩ := buildMapsGo_new_lb names1 names2 rs _ _ _ _ _ _ hrec
          have hmono := buildMapsGo_mono names1 names2 rs _ _ _ _ _ _ hrec
          obtain ⟨f, rfl⟩ : ∃ k, fuel = k + 1 := ⟨fuel - 1, by omega⟩
          rw [collectGo_step2 names1 names2 f _ _ _ _ _ (by dsimp only; omega)
            (fun rr hrr => by have := hlb1 rr hrr; dsimp only; omega) rfl]
          dsimp only
          rw [ih _ _ _ _ _ _ hhi2 hg2l hrec f (by simp at hfuel; omega)]
          simp only [Except.map]
          have ht1 : (names1.drop i1).takeWhile
              (fun q => decide (pathCompare q r < 0)) = [] := by
            apply List.eq_nil_of_length_eq_zero
            have := adv_spec names1 r i1
            omega
          rw [specMerge, take_adv names2 (r ++ [2]) i2, ht1,
            drop_adv names1 (r ++ [2]) (adv names1 r i1), drop_adv names1 r i1,
            drop_adv names2 (r ++ [2]) i2]
          rw [List.nil_append]
        · -- neither side emits a range for this root
          rw [if_neg hA, List.nil_append] at hM1
          rw [if_neg hB, List.nil_append] at hM2
          rw [if_neg hA, if_neg hB, Nat.add_zero] at hrec
          subst hM1
          subst hM2
          rw [ih _ _ _ _ _ _ hhi2 hg2l hrec fuel (by omega)]
          have ht1 : (names1.drop i1).takeWhile
              (fun q => decide (pathCompare q r < 0)) = [] := by
            apply List.eq_nil_of_length_eq_zero
            have := adv_spec names1 r i1
            omega
          have ht2 : (names2.drop i2).takeWhile
              (fun q => decide (pathCompare q (r ++ [2]) < 0)) = [] := by
            apply List.eq_nil_of_length_eq_zero
            have := adv_spec names2 (r ++ [2]) i2
            omega
          rw [specMerge, ht1, ht2,
            drop_adv names1 (r ++ [2]) (adv names1 r i1), drop_adv names1 r i1,
            drop_adv names2 (r ++ [2]) i2]
          rw [List.nil_append, List.nil_append]

theorem mergeNames_spec (names1 names2 roots : List Bytes) (res : List Bytes)
    (h : mergeNames names1 names2 roots = .ok res) :
    res = specMerge names1 names2 roots := by
  unfold mergeNames at h
  cases hb : buildMaps names1 names2 roots with
  | error e => rw [hb] at h; exact absurd h (by simp)
  | ok res2 =>
    obtain ⟨m1, m2, numName⟩ := res2
    rw [hb] at h
    simp only [] at h
    unfold buildMaps at hb
    have hc := collect_buildMaps names1 names2 roots 0 0 0 m1 m2 numName
      (by omega) (by omega) hb (m1.length + m2.length + 1) (by omega)
    rw [hc] at h
    simp only [List.drop_zero, Except.ok.injEq] at h
    exact h.symm

/-- The cursor-advance loop of `postMapReader.nextId` (merge.go): skip
idmap ranges that end at or before the current old file ID. -/
def advIdxGo (m : List idrange) (oldid : Nat) : Nat → Nat → Nat
  | 0, j => j
  | fuel + 1, j =>
    if j < m.length ∧ (m.getD j ⟨0, 0, 0⟩).hi ≤ oldid then advIdxGo m oldid fuel (j + 1)
    else j

/-- Advance the idmap cursor to the first range not ending at or before
`oldid`. -/
def advIdx (m : List idrange) (oldid j : Nat) : Nat :=
  advIdxGo m oldid (m.length - j) j

/-- `postMapReader.nextId` iterated over a whole posting list: map each
old file ID through the idmap (dropping shadowed IDs); once the cursor
runs off the idmap the remaining IDs are discarded (`r.count = 0`). -/
def nextIdsGo : List Nat → List idrange → Nat → List Nat
  | [], _, _ => []
  | oldid :: rest, m, j0 =>
    if advIdx m oldid j0 < m.length then
      if oldid < (m.getD (advIdx m oldid j0) ⟨0, 0, 0⟩).lo then
        nextIdsGo rest m (advIdx m oldid j0)
      else
        ((m.getD (advIdx m oldid j0) ⟨0, 0, 0⟩).new +
          (oldid - (m.getD (advIdx m oldid j0) ⟨0, 0, 0⟩).lo)) ::
          nextIdsGo rest m (advIdx m oldid j0)
    else []

/-- A source posting list mapped through its idmap. -/
def mapIds (pl : List Nat) (m : List idrange) : List Nat := nextIdsGo pl m 0

/-- The equal-trigram branch of `Merge`'s posting loop: merge the two
mapped file-ID streams in ascending order; equal IDs on both sides mean
an inconsistent index (panic). -/
def mergeIdsGo : Nat → List Nat → List Nat → Except Corrupt (List Nat)
  | 0, _, _ => .error .corrupt
  | _ + 1, [], l2 => .ok l2
  | _ + 1, l1, [] => .ok l1
  | fuel + 1, a :: l1, b :: l2 =>
    if a < b then (mergeIdsGo fuel l1 (b :: l2)).map (fun l => a :: l)
    else if b < a then (mergeIdsGo fuel (a :: l1) l2).map (fun l => b :: l)
    else .error .corrupt

/-- The merged posting list `Merge` writes for one trigram: both source
lists mapped through their idmaps, then merged in ascending order (a
trigram present on only one side contributes just that side's mapped
list). -/
def mergePost (pl1 pl2 : List Nat) (m1 m2 : List idrange) : Except Corrupt (List Nat) :=
  mergeIdsGo (pl1.length + pl2.length + 1) (mapIds pl1 m1) (mapIds pl2 m2)

/-- The posting list of a source index for one trigram, derived from
the indexed contents by the writer model: the ascending list of file
IDs whose content contains the trigram. -/
def plOf (contents : List Bytes) (t : Nat) : List Nat :=
  (List.range contents.length).filter (fun i => t ∈ scanTris (contents.getD i []))

/-- Scenario 2 (spec §8, merge_test.go): the older index's sorted name
list. -/
def mNames1 : List Bytes :=
  [[47, 97, 47, 120],
   [47, 97, 47, 121],
   [47, 98, 47, 120, 120],
   [47, 98, 47, 120, 121],
   [47, 99, 47, 97, 98],
   [47, 99, 47, 100, 101]]

/-- Scenario 2: the newer index's sorted name list. -/
def mNames2 : List Bytes :=
  [[47, 98, 47, 119, 119, 119],
   [47, 98, 47, 120, 120],
   [47, 98, 47, 121, 121],
   [47, 99, 99]]

/-- Scenario 2: the newer index's root list. -/
def mRoots2 : List Bytes :=
  [[47, 98],
   [47, 99, 99]]

/-- Scenario 2: the older index's file contents, in file-ID order. -/
def mContents1 : List Bytes :=
  [[104, 101, 108, 108, 111, 32, 119, 111, 114, 108, 100],
   [103, 111, 111, 100, 98, 121, 101, 32, 119, 111, 114, 108, 100],
   [110, 111, 119, 32, 105, 115, 32, 116, 104, 101, 32, 116, 105, 109, 101],
   [102, 111, 114, 32, 97, 108, 108, 32, 103, 111, 111, 100, 32, 109, 101, 110],
   [103, 105, 118, 101, 32, 109, 101, 32, 97, 108, 108, 32, 116, 104, 101, 32, 112, 111, 116, 97, 116, 111, 101, 115],
   [111, 114, 32, 103, 105, 118, 101, 32, 109, 101, 32, 100, 101, 97, 116, 104, 32, 110, 111, 119]]

/-- Scenario 2: the newer index's file contents, in file-ID order. -/
def mContents2 : List Bytes :=
  [[119, 111, 114, 108, 100, 32, 119, 105, 100, 101, 32, 105, 110, 100, 101, 101, 100],
   [110, 111, 44, 32, 110, 111, 116, 32, 110, 111, 119],
   [102, 105, 114, 115, 116, 32, 112, 111, 116, 97, 116, 111, 101, 115, 44, 32, 110, 111, 119, 32, 108, 105, 98, 101, 114, 116, 121, 63],
   [99, 111, 109, 101, 32, 116, 111, 32, 116, 104, 101, 32, 97, 105, 100, 32, 111, 102, 32, 104, 105, 115, 32, 112, 111, 116, 97, 116, 111, 101, 115]]

/-- Scenario 2: the merged name list the spec claims. -/
def mMerged : List Bytes :=
  [[47, 97, 47, 120],
   [47, 97, 47, 121],
   [47, 98, 47, 119, 119, 119],
   [47, 98, 47, 120, 120],
   [47, 98, 47, 121, 121],
   [47, 99, 47, 97, 98],
   [47, 99, 47, 100, 101],
   [47, 99, 99]]

/-- Scenario 2: the fileid map of the older index. -/
def mMap1 : List idrange := [⟨0, 2, 0⟩, ⟨4, 6, 5⟩]

/-- Scenario 2: the fileid map of the newer index. -/
def mMap2 : List idrange := [⟨0, 3, 2⟩, ⟨3, 4, 7⟩]

/-- C1: merge shadowing.  Whenever `Merge`'s name-merging loop completes
without a panic, the merged name list is exactly `specMerge`: for each
root of the newer index in order, the older index's names below the
root, then the newer index's names below `root+"\x02"`, with the older
index's names in `[root, root+"\x02")` omitted, and the older index's
remaining names at the end — so each copied block gets the next
contiguous range of file IDs.  Moreover on the spec's scenario 2 the
merged name list is exactly `[/a/x, /a/y, /b/www, /b/xx, /b/yy, /c/ab,
/c/de, /cc]` and the merged posting lists of the trigrams "all", "wor",
"now" and "pot" are `[5]`, `[0,1,2]`, `[3,4,6]` and `[4,5,7]`. -/
theorem c1_merge_shadowing (names1 names2 roots res : List Bytes)
    (h : mergeNames names1 names2 roots = .ok res) :
    res = specMerge names1 names2 roots ∧
    (mergeNames mNames1 mNames2 mRoots2 = .ok mMerged ∧
     buildMaps mNames1 mNames2 mRoots2 = .ok (mMap1, mMap2, 8) ∧
     mergePost (plOf mContents1 6384748) (plOf mContents2 6384748) mMap1 mMap2 = .ok [5] ∧
     mergePost (plOf mContents1 7827314) (plOf mContents2 7827314) mMap1 mMap2 =
       .ok [0, 1, 2] ∧
     mergePost (plOf mContents1 7237495) (plOf mContents2 7237495) mMap1 mMap2 =
       .ok [3, 4, 6] ∧
     mergePost (plOf mContents1 7368564) (plOf mContents2 7368564) mMap1 mMap2 =
       .ok [4, 5, 7]) := by
  refine ⟨mergeNames_spec names1 names2 roots res h, ?_, ?_, ?_, ?_, ?_, ?_⟩ <;> decide

theorem c1_merge_shadowing_witness :
    mergeNames mNames1 mNames2 mRoots2 = .ok mMerged ∧
    (mMerged = specMerge mNames1 mNames2 mRoots2 ∧
     (mergeNames mNames1 mNames2 mRoots2 = .ok mMerged ∧
     buildMaps mNames1 mNames2 mRoots2 = .ok (mMap1, mMap2, 8) ∧
     mergePost (plOf mContents1 6384748) (plOf mContents2 6384748) mMap1 mMap2 = .ok [5] ∧
     mergePost (plOf mContents1 7827314) (plOf mContents2 7827314) mMap1 mMap2 =
       .ok [0, 1, 2] ∧
     mergePost (plOf mContents1 7237495) (plOf mContents2 7237495) mMap1 mMap2 =
       .ok [3, 4, 6] ∧
     mergePost (plOf mContents1 7368564) (plOf mContents2 7368564) mMap1 mMap2 =
       .ok [4, 5, 7])) :=
  ⟨by decide, c1_merge_shadowing mNames1 mNames2 mRoots2 mMerged (by decide)⟩
